import Mathlib

/-!
# Verification of the `min-max-heap` crate

A shallow embedding, over `List α`, of the min-max heap implementation in
`src/lib.rs`, `src/hole.rs` and `src/index.rs`, together with proofs about it.

The backing `Vec<T>` is modelled as a `List α`, machine indices (`usize`) as
`Nat`.  Index arithmetic on live heap indices cannot overflow (a `Vec` holds
fewer than `2^64` elements), so the index functions are given their exact
mathematical meaning; the one place where wrap-around of `usize` is
observable, `is_min_level`, additionally gets an exact 64-bit model
(`isMinLevelU64`).
-/

set_option autoImplicit false

universe u

/-! ## Index arithmetic (`src/index.rs`) -/

/-- `HeapIndex::parent` for `usize`: `(self - 1) / 2` (saturating at 0 like
Rust's checked use: callers guard with `has_parent`; `Nat` subtraction agrees
with the in-bounds behaviour). -/
def parent (i : Nat) : Nat := (i - 1) / 2

/-- `HeapIndex::grandparent`: `self.parent().parent()`. -/
def grandparent (i : Nat) : Nat := parent (parent i)

/-- `HeapIndex::child1`: `2 * self + 1`. -/
def child1 (i : Nat) : Nat := 2 * i + 1

/-- `HeapIndex::child2`: `2 * self + 2`. -/
def child2 (i : Nat) : Nat := 2 * i + 2

/-- `HeapIndex::grandchild1`: `self.child1().child1()`. -/
def grandchild1 (i : Nat) : Nat := child1 (child1 i)

/-- `HeapIndex::grandchild2`: `self.child1().child2()`. -/
def grandchild2 (i : Nat) : Nat := child2 (child1 i)

/-- `HeapIndex::grandchild3`: `self.child2().child1()`. -/
def grandchild3 (i : Nat) : Nat := child1 (child2 i)

/-- `HeapIndex::grandchild4`: `self.child2().child2()`. -/
def grandchild4 (i : Nat) : Nat := child2 (child2 i)

/-- `HeapIndex::has_parent`: `self > 0`. -/
def hasParent (i : Nat) : Bool := decide (0 < i)

/-- `HeapIndex::has_grandparent`: `self > 2`. -/
def hasGrandparent (i : Nat) : Bool := decide (2 < i)

/-- Number of binary digits of `n` (`0` for `n = 0`), computed with explicit
fuel so that the kernel can evaluate it; `n` itself is always enough fuel. -/
def bitlenAux : Nat → Nat → Nat
  | 0, _ => 0
  | fuel + 1, n => if n = 0 then 0 else bitlenAux fuel (n / 2) + 1

/-- Bit length of a natural number: the 1-based position of its highest set
bit, `0` for `0`. -/
def bitlen (n : Nat) : Nat := bitlenAux n n

/-- `HeapIndex::is_min_level` for `usize`, idealized to mathematical naturals:
`(self + 1).leading_zeros() & 1 == 1`, i.e. the parity test on the bit length
of `i + 1`.  Exact for every index of a live `Vec`; `isMinLevelU64` below is
the bit-exact 64-bit version. -/
def isMinLevel (i : Nat) : Bool := bitlen (i + 1) % 2 == 1

/-- `HeapIndex::is_min_level` for a 64-bit `usize`, bit-exact: `self + 1`
wraps modulo `2^64` and `leading_zeros` of a 64-bit value `v` is
`64 - bitlen v`. -/
def isMinLevelU64 (i : Nat) : Bool := (64 - bitlen ((i + 1) % 2 ^ 64)) % 2 == 1

/-! ## The hole relocator (`src/hole.rs`) -/

/-- `Hole<'a, T>`: a cursor over the backing storage that has logically
removed the element at `pos` into `elt`.  The slot at `pos` still physically
holds a (stale) value, exactly as after `ptr::read` in the Rust code. -/
structure Hole (α : Type u) where
  data : List α
  elt : α
  pos : Nat

/-- `Generation`: whether the best candidate of a scan is the node itself, a
child, or a grandchild. -/
inductive Gen : Type where
  | Same : Gen
  | Parent : Gen
  | Grandparent : Gen
deriving DecidableEq, Repr

variable {α : Type u}

/-- Indexed read with a default, standing for the (always in-bounds in the
source) raw reads of the backing slice. -/
def geti [Inhabited α] (l : List α) (i : Nat) : α := l.getD i default

/-- `Hole::new(data, pos)`: read the element at `pos` into the hole. -/
def Hole.mk' [Inhabited α] (data : List α) (pos : Nat) : Hole α :=
  ⟨data, geti data pos, pos⟩

/-- `Hole::move_to(index)`: the value at `index` moves into the hole's current
position; the hole is now at `index`. -/
def Hole.moveTo [Inhabited α] (h : Hole α) (i : Nat) : Hole α :=
  ⟨h.data.set h.pos (geti h.data i), h.elt, i⟩

/-- `Hole::swap_with_parent()`: swap the held element with the value stored at
the parent position, without moving the hole. -/
def Hole.swapWithParent [Inhabited α] (h : Hole α) : Hole α :=
  ⟨h.data.set (parent h.pos) h.elt, geti h.data (parent h.pos), h.pos⟩

/-- `impl Drop for Hole`: write the held element into the backing storage at
the hole's current position. -/
def Hole.free [Inhabited α] (h : Hole α) : List α := h.data.set h.pos h.elt

/-- The logical contents of the storage while the hole is alive: the array
with the held element at the hole's position. -/
def Hole.view [Inhabited α] (h : Hole α) : List α := h.data.set h.pos h.elt

/-- One `check(i, gen)` step of `Hole::index_of_best_child_or_grandchild`.
State: current best position, its generation, the best element, and whether
the `&&` chain is still running (`false` once an index fell out of range). -/
def chk [Inhabited α] (f : α → α → Bool) (data : List α) (len : Nat)
    (st : Nat × Gen × α × Bool) (i : Nat) (g : Gen) : Nat × Gen × α × Bool :=
  if st.2.2.2 then
    if i < len then
      if f (geti data i) st.2.2.1 then (i, g, geti data i, true) else st
    else (st.1, st.2.1, st.2.2.1, false)
  else st

/-- The list of candidates scanned by
`Hole::index_of_best_child_or_grandchild`, in scan order. -/
def candList (pos : Nat) : List (Nat × Gen) :=
  [(child1 pos, Gen.Parent), (child2 pos, Gen.Parent),
   (grandchild1 pos, Gen.Grandparent), (grandchild2 pos, Gen.Grandparent),
   (grandchild3 pos, Gen.Grandparent), (grandchild4 pos, Gen.Grandparent)]

/-- Run `chk` over a list of candidates (the short-circuiting `&&` chain). -/
def scanCands [Inhabited α] (f : α → α → Bool) (data : List α) (len : Nat) :
    List (Nat × Gen) → Nat × Gen × α × Bool → Nat × Gen × α × Bool
  | [], st => st
  | c :: cs, st => scanCands f data len cs (chk f data len st c.1 c.2)

/-- `Hole::index_of_best_child_or_grandchild(len, f)`: position and generation
of the `f`-best among the in-range children and grandchildren (and the node's
own held element). -/
def indexOfBest [Inhabited α] (f : α → α → Bool) (data : List α) (len : Nat)
    (pos : Nat) (elt : α) : Nat × Gen :=
  let st := scanCands f data len (candList pos) (pos, Gen.Same, elt, true)
  (st.1, st.2.1)

/-- The loop of `Hole::trickle_down_best_len`, with explicit fuel (the loop
strictly increases `pos` below `len`, so `len` steps always suffice). -/
def trickleAux [Inhabited α] (f : α → α → Bool) (len : Nat) :
    Nat → Hole α → Hole α
  | 0, h => h
  | fuel + 1, h =>
    match indexOfBest f h.data len h.pos h.elt with
    | (_, Gen.Same) => h
    | (m, Gen.Parent) => h.moveTo m
    | (m, Gen.Grandparent) =>
      let h' := h.moveTo m
      let h'' :=
        if f (geti h'.data (parent h'.pos)) h'.elt then h'.swapWithParent
        else h'
      trickleAux f len fuel h''

/-- `Hole::trickle_down_best_len(len, f)` followed by the hole's drop:
the resulting backing storage. -/
def trickleDownBest [Inhabited α] (f : α → α → Bool) (h : Hole α) : List α :=
  (trickleAux f h.data.length h.data.length h).free

/-- `<` as the `Bool`-valued comparison `PartialOrd::lt`. -/
def fLT [LinearOrder α] (a b : α) : Bool := decide (a < b)

/-- `>` as the `Bool`-valued comparison `PartialOrd::gt`. -/
def fGT [LinearOrder α] (a b : α) : Bool := decide (b < a)

/-- `MinMaxHeap::trickle_down_min_slice(slice, pos)` (also
`Hole::trickle_down_min` through `trickle_down_min`). -/
def trickleDownMin [Inhabited α] [LinearOrder α] (l : List α) (p : Nat) :
    List α := trickleDownBest fLT (Hole.mk' l p)

/-- `MinMaxHeap::trickle_down_max(pos)`. -/
def trickleDownMax [Inhabited α] [LinearOrder α] (l : List α) (p : Nat) :
    List α := trickleDownBest fGT (Hole.mk' l p)

/-- `Hole::trickle_down`: dispatch on the level parity of the position. -/
def trickleDown [Inhabited α] [LinearOrder α] (l : List α) (p : Nat) :
    List α := if isMinLevel p then trickleDownMin l p else trickleDownMax l p

/-- The loop of `Hole::bubble_up_grandparent`, with explicit fuel (each step
strictly decreases `pos`, so `pos` steps always suffice). -/
def bubbleUpGpAux [Inhabited α] (f : α → α → Bool) : Nat → Hole α → Hole α
  | 0, h => h
  | fuel + 1, h =>
    if hasGrandparent h.pos then
      if f h.elt (geti h.data (grandparent h.pos)) then
        bubbleUpGpAux f fuel (h.moveTo (grandparent h.pos))
      else h
    else h

/-- `Hole::bubble_up_min`. -/
def bubbleUpMin [Inhabited α] [LinearOrder α] (h : Hole α) : Hole α :=
  bubbleUpGpAux fLT h.pos h

/-- `Hole::bubble_up_max`. -/
def bubbleUpMax [Inhabited α] [LinearOrder α] (h : Hole α) : Hole α :=
  bubbleUpGpAux fGT h.pos h

/-- `Hole::bubble_up`. -/
def bubbleUp [Inhabited α] [LinearOrder α] (h : Hole α) : Hole α :=
  if isMinLevel h.pos then
    if hasParent h.pos && decide (geti h.data (parent h.pos) < h.elt) then
      bubbleUpMax (h.moveTo (parent h.pos))
    else bubbleUpMin h
  else
    if hasParent h.pos && decide (h.elt < geti h.data (parent h.pos)) then
      bubbleUpMin (h.moveTo (parent h.pos))
    else bubbleUpMax h

/-! ## The queue layer (`src/lib.rs`) -/

/-- `MinMaxHeap::push`: append the element, then bubble up from the new last
position. -/
def push [Inhabited α] [LinearOrder α] (l : List α) (x : α) : List α :=
  (bubbleUp (Hole.mk' (l ++ [x]) l.length)).free

/-- `MinMaxHeap::peek_min`: `self.0.first()`. -/
def peekMin (l : List α) : Option α := l.head?

/-- `MinMaxHeap::find_max_slice`. -/
def findMaxSlice [Inhabited α] [LinearOrder α] (l : List α) : Option Nat :=
  match l with
  | [] => none
  | [_] => some 0
  | [_, _] => some 1
  | _ :: b :: c :: _ => if c < b then some 1 else some 2

/-- `MinMaxHeap::peek_max`. -/
def peekMax [Inhabited α] [LinearOrder α] (l : List α) : Option α :=
  (findMaxSlice l).map (geti l)

/-- `MinMaxHeap::pop_min`: pop the last element; if the heap stays non-empty,
swap it with position 0 and trickle down from there. -/
def popMin [Inhabited α] [LinearOrder α] (l : List α) : Option α × List α :=
  if l.length = 0 then (none, l)
  else
    let item := geti l (l.length - 1)
    let rest := l.dropLast
    if rest.length = 0 then (some item, rest)
    else (some (geti rest 0), trickleDownMin (rest.set 0 item) 0)

/-- `MinMaxHeap::pop_max`: pop the last element; if the max slot is still
live, swap it there and trickle down from it. -/
def popMax [Inhabited α] [LinearOrder α] (l : List α) : Option α × List α :=
  match findMaxSlice l with
  | none => (none, l)
  | some m =>
    let item := geti l (l.length - 1)
    let rest := l.dropLast
    if m < rest.length then
      (some (geti rest m), trickleDownMax (rest.set m item) m)
    else (some item, rest)

/-- The drop glue of `PeekMaxMut` with `sift` set: open a hole at the max
position, swap with the parent if the new value undercuts it, then trickle
down as a max element. -/
def peekMaxMutDrop [Inhabited α] [LinearOrder α] (l : List α) (m : Nat) :
    List α :=
  let h := Hole.mk' l m
  let h' :=
    if hasParent h.pos && decide (h.elt < geti h.data (parent h.pos)) then
      h.swapWithParent
    else h
  (trickleAux fGT l.length l.length h').free

/-- `MinMaxHeap::push_pop_min`. -/
def pushPopMin [Inhabited α] [LinearOrder α] (l : List α) (x : α) :
    α × List α :=
  if l.length = 0 then (x, l)
  else if decide (geti l 0 < x) then
    (geti l 0, trickleDownMin (l.set 0 x) 0)
  else (x, l)

/-- `MinMaxHeap::push_pop_max`. -/
def pushPopMax [Inhabited α] [LinearOrder α] (l : List α) (x : α) :
    α × List α :=
  match findMaxSlice l with
  | none => (x, l)
  | some m =>
    if decide (x < geti l m) then (geti l m, peekMaxMutDrop (l.set m x) m)
    else (x, l)

/-- `MinMaxHeap::replace_min`. -/
def replaceMin [Inhabited α] [LinearOrder α] (l : List α) (x : α) :
    Option α × List α :=
  if l.length = 0 then (none, l ++ [x])
  else (some (geti l 0), trickleDownMin (l.set 0 x) 0)

/-- `MinMaxHeap::replace_max`: on a non-empty heap, first swap the new element
into the min slot when it undercuts the current minimum, then swap it into
the max slot and let the `PeekMaxMut` drop glue repair the heap. -/
def replaceMax [Inhabited α] [LinearOrder α] (l : List α) (x : α) :
    Option α × List α :=
  match findMaxSlice l with
  | none => (none, l ++ [x])
  | some m =>
    let p : α × List α :=
      if 1 < l.length ∧ x < geti l 0 then (geti l 0, l.set 0 x) else (x, l)
    (some (geti p.2 m), peekMaxMutDrop (p.2.set m p.1) m)

/-- The loop of `MinMaxHeap::rebuild`: `trickle_down(n)` for
`n = k-1, k-2, ..., 0`. -/
def rebuildAux [Inhabited α] [LinearOrder α] : List α → Nat → List α
  | l, 0 => l
  | l, n + 1 => rebuildAux (trickleDown l n) n

/-- `impl From<Vec<T>> for MinMaxHeap<T>`: bottom-up heapify. -/
def fromVec [Inhabited α] [LinearOrder α] (l : List α) : List α :=
  rebuildAux l (l.length / 2)

/-- The loop of `MinMaxHeap::into_vec_asc`, with fuel: repeatedly swap the
current maximum behind the live region and trickle down within it. -/
def intoVecAscAux [Inhabited α] [LinearOrder α] : Nat → List α → List α
  | 0, l => l
  | fuel + 1, l =>
    if l.length ≤ 1 then l
    else
      let m := (findMaxSlice l).getD 0
      let item := geti l (l.length - 1)
      let rest := l.dropLast
      if m < rest.length then
        intoVecAscAux fuel (trickleDown (rest.set m item) m) ++ [geti rest m]
      else intoVecAscAux fuel rest ++ [item]

/-- `MinMaxHeap::into_vec_asc`. -/
def intoVecAsc [Inhabited α] [LinearOrder α] (l : List α) : List α :=
  intoVecAscAux l.length l

/-- The loop of `MinMaxHeap::into_vec_desc`, with fuel: repeatedly swap the
minimum (position 0) behind the live region and trickle down from position 0
within it. -/
def intoVecDescAux [Inhabited α] [LinearOrder α] : Nat → List α → List α
  | 0, l => l
  | fuel + 1, l =>
    if l.length ≤ 1 then l
    else
      let item := geti l (l.length - 1)
      let rest := l.dropLast
      intoVecDescAux fuel (trickleDownMin (rest.set 0 item) 0) ++ [geti rest 0]

/-- `MinMaxHeap::into_vec_desc`. -/
def intoVecDesc [Inhabited α] [LinearOrder α] (l : List α) : List α :=
  intoVecDescAux l.length l

/-- `MinMaxHeap::peek_min_mut`, modelled by the element the returned handle
dereferences to (`None` exactly when the heap is empty). -/
def peekMinMut [Inhabited α] [LinearOrder α] (l : List α) : Option α :=
  if l.length = 0 then none else some (geti l 0)

/-- `MinMaxHeap::peek_max_mut`, modelled by the element the returned handle
dereferences to (`None` exactly when the heap is empty). -/
def peekMaxMut [Inhabited α] [LinearOrder α] (l : List α) : Option α :=
  (findMaxSlice l).map (geti l)

/-! ## Order direction, tree relations, and the heap invariant -/

/-- Direction-indexed non-strict order: the comparison a node on a
min level (`mn = true`) or max level (`mn = false`) must satisfy against its
descendants. -/
def ordB {α : Type u} [LinearOrder α] (mn : Bool) (a b : α) : Prop :=
  if mn then a ≤ b else b ≤ a

/-- Direction-indexed strict order, the propositional meaning of the
comparison closures `PartialOrd::lt` / `PartialOrd::gt`. -/
def sordB {α : Type u} [LinearOrder α] (mn : Bool) (a b : α) : Prop :=
  if mn then a < b else b < a

/-- `j` is a child position of `i` in the implicit binary tree. -/
def IsChild (i j : Nat) : Prop := j = child1 i ∨ j = child2 i

/-- `j` lies in the subtree rooted at `i` (reflexive-transitive closure of
the child relation). -/
def Desc : Nat → Nat → Prop := Relation.ReflTransGen IsChild

/-- `j` lies in the subtree rooted at `i`, reached in exactly `d` child
steps. -/
inductive DescN : Nat → Nat → Nat → Prop where
  | refl (i : Nat) : DescN 0 i i
  | tail {d i j k : Nat} : DescN d i j → IsChild j k → DescN (d + 1) i k

/-- The ordering a pair (ancestor `i`, descendant `j`) must satisfy: a
min-level ancestor is `≤` its descendants, a max-level one is `≥` them. -/
def lvOK {α : Type u} [Inhabited α] [LinearOrder α] (l : List α)
    (i j : Nat) : Prop :=
  ordB (isMinLevel i) (geti l i) (geti l j)

/-- The min-max heap invariant, exactly as the specification states it:
every position is correctly ordered against every position in its subtree. -/
def HeapInv {α : Type u} [Inhabited α] [LinearOrder α] (l : List α) : Prop :=
  ∀ i j, Desc i j → j < l.length → lvOK l i j

/-- The min-max heap invariant restricted to the subtree rooted at `r`. -/
def InvFrom {α : Type u} [Inhabited α] [LinearOrder α] (l : List α)
    (r : Nat) : Prop :=
  ∀ i j, Desc r i → Desc i j → j < l.length → lvOK l i j

/-- Transposition of two positions of a list. -/
def swapi {α : Type u} [Inhabited α] (l : List α) (a b : Nat) : List α :=
  (l.set a (geti l b)).set b (geti l a)

/-- Heap contents reachable from the public API: the empty heap, construction
from an arbitrary vector, and closure under the mutating operations named in
the specification. -/
inductive Reachable {α : Type u} [Inhabited α] [LinearOrder α] :
    List α → Prop where
  | empty : Reachable []
  | fromVec (v : List α) : Reachable (fromVec v)
  | push {l : List α} (x : α) : Reachable l → Reachable (push l x)
  | popMin {l : List α} : Reachable l → Reachable (popMin l).2
  | popMax {l : List α} : Reachable l → Reachable (popMax l).2
  | pushPopMin {l : List α} (x : α) : Reachable l → Reachable (pushPopMin l x).2
  | pushPopMax {l : List α} (x : α) : Reachable l → Reachable (pushPopMax l x).2
  | replaceMin {l : List α} (x : α) : Reachable l → Reachable (replaceMin l x).2
  | replaceMax {l : List α} (x : α) : Reachable l → Reachable (replaceMax l x).2

/-! ## Instrumented operations

Checked copies of the hole operations, in which every internal
`debug_assert!` of `hole.rs` and its callers becomes an explicit guard:
`none` means some internal precondition was violated.  Used to settle the
safety claim that the assertions are unreachable. -/

/-- `Hole::new` with its `pos < data.len()` assertion. -/
def Hole.newC [Inhabited α] (data : List α) (pos : Nat) : Option (Hole α) :=
  if pos < data.length then some (Hole.mk' data pos) else none

/-- `Hole::move_to` with its `index != pos && index < data.len()`
assertions. -/
def Hole.moveToC [Inhabited α] (h : Hole α) (i : Nat) : Option (Hole α) :=
  if i ≠ h.pos ∧ i < h.data.length then some (h.moveTo i) else none

/-- `Hole::get` with its `index != pos && index < data.len()` assertions. -/
def Hole.getC [Inhabited α] (h : Hole α) (i : Nat) : Option α :=
  if i ≠ h.pos ∧ i < h.data.length then some (geti h.data i) else none

/-- `Hole::swap_with_parent` with its `has_parent` assertion. -/
def Hole.swapWithParentC [Inhabited α] (h : Hole α) : Option (Hole α) :=
  if hasParent h.pos then some h.swapWithParent else none

/-- `Hole::get_parent_unchecked` with its `has_parent` assertion, reading
through the checked `Hole::get`. -/
def Hole.getParentC [Inhabited α] (h : Hole α) : Option α :=
  if hasParent h.pos then h.getC (parent h.pos) else none

/-- Checked `Hole::trickle_down_best_len` loop (with the `len <= data.len()`
assertion); runs out of fuel only if the loop failed to terminate within
`len` steps. -/
def trickleAuxC [Inhabited α] (f : α → α → Bool) (len : Nat) :
    Nat → Hole α → Option (Hole α)
  | 0, _ => none
  | fuel + 1, h =>
    if len ≤ h.data.length then
      match indexOfBest f h.data len h.pos h.elt with
      | (_, Gen.Same) => some h
      | (m, Gen.Parent) => h.moveToC m
      | (m, Gen.Grandparent) => do
        let h' ← h.moveToC m
        let pe ← h'.getParentC
        let h'' ← if f pe h'.elt then h'.swapWithParentC else some h'
        trickleAuxC f len fuel h''
    else none

/-- Checked `trickle_down_min_slice` (assertion `pos < slice.len()`, then the
hole construction and loop). -/
def trickleDownMinC [Inhabited α] [LinearOrder α] (l : List α) (p : Nat) :
    Option (List α) := do
  if p < l.length then
    let h ← Hole.newC l p
    let h' ← trickleAuxC fLT l.length l.length h
    some h'.free
  else none

/-- Checked `trickle_down_max`. -/
def trickleDownMaxC [Inhabited α] [LinearOrder α] (l : List α) (p : Nat) :
    Option (List α) := do
  if p < l.length then
    let h ← Hole.newC l p
    let h' ← trickleAuxC fGT l.length l.length h
    some h'.free
  else none

/-- Checked `trickle_down_slice`. -/
def trickleDownC [Inhabited α] [LinearOrder α] (l : List α) (p : Nat) :
    Option (List α) :=
  if isMinLevel p then trickleDownMinC l p else trickleDownMaxC l p

/-- Checked `Hole::bubble_up_grandparent` loop (`get_grandparent` reads
through the checked `Hole::get`; `move_to_grandparent` asserts
`has_grandparent`). -/
def bubbleUpGpAuxC [Inhabited α] (f : α → α → Bool) :
    Nat → Hole α → Option (Hole α)
  | 0, _ => none
  | fuel + 1, h =>
    if hasGrandparent h.pos then do
      let gp ← h.getC (grandparent h.pos)
      if f h.elt gp then do
        let h' ← h.moveToC (grandparent h.pos)
        bubbleUpGpAuxC f fuel h'
      else some h
    else some h

/-- Checked `Hole::bubble_up` (the `get_parent` reads and the
`move_to_parent` assertion). -/
def bubbleUpC [Inhabited α] [LinearOrder α] (h : Hole α) : Option (Hole α) :=
  if isMinLevel h.pos then
    if hasParent h.pos then do
      let pe ← h.getC (parent h.pos)
      if decide (pe < h.elt) then do
        let h' ← h.moveToC (parent h.pos)
        bubbleUpGpAuxC fGT (h'.pos + 1) h'
      else bubbleUpGpAuxC fLT (h.pos + 1) h
    else bubbleUpGpAuxC fLT (h.pos + 1) h
  else
    if hasParent h.pos then do
      let pe ← h.getC (parent h.pos)
      if decide (h.elt < pe) then do
        let h' ← h.moveToC (parent h.pos)
        bubbleUpGpAuxC fLT (h'.pos + 1) h'
      else bubbleUpGpAuxC fGT (h.pos + 1) h
    else bubbleUpGpAuxC fGT (h.pos + 1) h

/-- Checked `MinMaxHeap::push` (the `bubble_up` wrapper asserts
`pos < self.len()`). -/
def pushC [Inhabited α] [LinearOrder α] (l : List α) (x : α) :
    Option (List α) := do
  if l.length < (l ++ [x]).length then
    let h ← Hole.newC (l ++ [x]) l.length
    let h' ← bubbleUpC h
    some h'.free
  else none

/-- Checked `MinMaxHeap::pop_min`. -/
def popMinC [Inhabited α] [LinearOrder α] (l : List α) :
    Option (Option α × List α) :=
  if l.length = 0 then some (none, l)
  else
    let item := geti l (l.length - 1)
    let rest := l.dropLast
    if rest.length = 0 then some (some item, rest)
    else (trickleDownMinC (rest.set 0 item) 0).map
      (fun l' => (some (geti rest 0), l'))

/-- Checked `MinMaxHeap::pop_max`. -/
def popMaxC [Inhabited α] [LinearOrder α] (l : List α) :
    Option (Option α × List α) :=
  match findMaxSlice l with
  | none => some (none, l)
  | some m =>
    let item := geti l (l.length - 1)
    let rest := l.dropLast
    if m < rest.length then
      (trickleDownMaxC (rest.set m item) m).map
        (fun l' => (some (geti rest m), l'))
    else some (some item, rest)

/-- Checked drop glue of `PeekMaxMut` with `sift` set. -/
def peekMaxMutDropC [Inhabited α] [LinearOrder α] (l : List α) (m : Nat) :
    Option (List α) := do
  let h ← Hole.newC l m
  let h' ←
    if hasParent h.pos then do
      let pe ← h.getParentC
      if decide (h.elt < pe) then h.swapWithParentC else some h
    else some h
  let h'' ← trickleAuxC fGT l.length l.length h'
  some h''.free

/-- Checked `MinMaxHeap::push_pop_min` (`PeekMinMut` drop glue asserts the
heap is non-empty before `trickle_down_min(0)`). -/
def pushPopMinC [Inhabited α] [LinearOrder α] (l : List α) (x : α) :
    Option (α × List α) :=
  if l.length = 0 then some (x, l)
  else if decide (geti l 0 < x) then
    (trickleDownMinC (l.set 0 x) 0).map (fun l' => (geti l 0, l'))
  else some (x, l)

/-- Checked `MinMaxHeap::push_pop_max`. -/
def pushPopMaxC [Inhabited α] [LinearOrder α] (l : List α) (x : α) :
    Option (α × List α) :=
  match findMaxSlice l with
  | none => some (x, l)
  | some m =>
    if decide (x < geti l m) then
      (peekMaxMutDropC (l.set m x) m).map (fun l' => (geti l m, l'))
    else some (x, l)

/-- Checked `MinMaxHeap::replace_min`. -/
def replaceMinC [Inhabited α] [LinearOrder α] (l : List α) (x : α) :
    Option (Option α × List α) :=
  if l.length = 0 then some (none, l ++ [x])
  else (trickleDownMinC (l.set 0 x) 0).map (fun l' => (some (geti l 0), l'))

/-- Checked `MinMaxHeap::replace_max`. -/
def replaceMaxC [Inhabited α] [LinearOrder α] (l : List α) (x : α) :
    Option (Option α × List α) :=
  match findMaxSlice l with
  | none => some (none, l ++ [x])
  | some m =>
    let p : α × List α :=
      if 1 < l.length ∧ x < geti l 0 then (geti l 0, l.set 0 x) else (x, l)
    (peekMaxMutDropC (p.2.set m p.1) m).map (fun l' => (some (geti p.2 m), l'))

/-- Checked `MinMaxHeap::rebuild` loop. -/
def rebuildAuxC [Inhabited α] [LinearOrder α] : List α → Nat → Option (List α)
  | l, 0 => some l
  | l, n + 1 => do
    if n < l.length then
      let l' ← trickleDownC l n
      rebuildAuxC l' n
    else none

/-- Checked `From<Vec<T>>` construction. -/
def fromVecC [Inhabited α] [LinearOrder α] (l : List α) : Option (List α) :=
  rebuildAuxC l (l.length / 2)

/-- The propositional contract of the comparison closures the direction
dispatchers pass to the hole loops: `f a b` decides the strict order in
direction `mn`. -/
def FMatches {α : Type u} [LinearOrder α] (f : α → α → Bool) (mn : Bool) :
    Prop := ∀ a b : α, f a b = true ↔ sordB mn a b

/-! ## Bit length and level parity -/

theorem bitlenAux_congr : ∀ n, ∀ f g : Nat, n ≤ f → n ≤ g →
    bitlenAux f n = bitlenAux g n := by
  intro n
  induction n using Nat.strong_induction_on with
  | _ n ih =>
    intro f g hf hg
    match f, g with
    | 0, g =>
      interval_cases n
      cases g <;> simp [bitlenAux]
    | f + 1, 0 =>
      interval_cases n
      simp [bitlenAux]
    | f + 1, g + 1 =>
      by_cases hn : n = 0
      · simp [bitlenAux, hn]
      · have hdiv : n / 2 < n := Nat.div_lt_self (Nat.pos_of_ne_zero hn) one_lt_two
        have h1 : n / 2 ≤ f := by omega
        have h2 : n / 2 ≤ g := by omega
        simp only [bitlenAux, hn, if_false]
        rw [ih (n / 2) hdiv f g h1 h2]

theorem bitlen_zero : bitlen 0 = 0 := rfl

theorem bitlen_of_pos {n : Nat} (h : n ≠ 0) : bitlen n = bitlen (n / 2) + 1 := by
  obtain ⟨m, rfl⟩ : ∃ m, n = m + 1 := ⟨n - 1, by omega⟩
  show bitlenAux (m + 1) (m + 1) = _
  simp only [bitlenAux, Nat.succ_ne_zero, if_false]
  rw [bitlenAux_congr ((m + 1) / 2) m ((m + 1) / 2) (by omega) (le_refl _)]
  rfl

theorem bitlen_two_mul {n : Nat} (h : n ≠ 0) : bitlen (2 * n) = bitlen n + 1 := by
  rw [bitlen_of_pos (by omega)]
  congr 1
  congr 1
  omega

theorem bitlen_two_mul_add_one (n : Nat) : bitlen (2 * n + 1) = bitlen n + 1 := by
  rw [bitlen_of_pos (by omega)]
  congr 1
  congr 1
  omega

theorem bitlen_le {k : Nat} : ∀ {m : Nat}, bitlen m ≤ k ↔ m < 2 ^ k := by
  induction k with
  | zero =>
    intro m
    constructor
    · intro h
      by_contra hm
      have hm' : m ≠ 0 := by
        intro h0
        rw [h0] at hm
        exact hm (by norm_num)
      rw [bitlen_of_pos hm'] at h
      omega
    · intro h
      have : m = 0 := by omega
      simp [this, bitlen_zero]
  | succ k ih =>
    intro m
    by_cases hm : m = 0
    · subst hm
      simp [bitlen_zero]
    · rw [bitlen_of_pos hm]
      have h1 : bitlen (m / 2) + 1 ≤ k + 1 ↔ bitlen (m / 2) ≤ k := by omega
      rw [h1, ih]
      have h2 : 2 ^ (k + 1) = 2 * 2 ^ k := by
        rw [pow_succ]
        ring
      omega

theorem bitlen_pos {n : Nat} (h : n ≠ 0) : 0 < bitlen n := by
  rw [bitlen_of_pos h]
  omega

theorem isMinLevel_zero : isMinLevel 0 = true := rfl

theorem isMinLevel_child1 (i : Nat) : isMinLevel (child1 i) = !isMinLevel i := by
  unfold isMinLevel child1
  have h : 2 * i + 1 + 1 = 2 * (i + 1) := by omega
  rw [h, bitlen_two_mul (by omega)]
  rcases Nat.mod_two_eq_zero_or_one (bitlen (i + 1)) with h2 | h2 <;>
    simp [Nat.add_mod, h2]

theorem isMinLevel_child2 (i : Nat) : isMinLevel (child2 i) = !isMinLevel i := by
  unfold isMinLevel child2
  have h : 2 * i + 2 + 1 = 2 * (i + 1) + 1 := by omega
  rw [h, bitlen_two_mul_add_one]
  rcases Nat.mod_two_eq_zero_or_one (bitlen (i + 1)) with h2 | h2 <;>
    simp [Nat.add_mod, h2]

/-! ## Indexed access and transposition lemmas -/

theorem geti_eq {α : Type u} [Inhabited α] {l : List α} {i : Nat}
    (h : i < l.length) : geti l i = l[i] := by
  simp [geti, List.getD_eq_getElem?_getD, List.getElem?_eq_getElem h]

theorem geti_out {α : Type u} [Inhabited α] {l : List α} {i : Nat}
    (h : l.length ≤ i) : geti l i = default := by
  simp [geti, List.getD_eq_getElem?_getD, List.getElem?_eq_none h]

theorem geti_set_self {α : Type u} [Inhabited α] {l : List α} {i : Nat}
    (x : α) (h : i < l.length) : geti (l.set i x) i = x := by
  simp [geti, List.getD_eq_getElem?_getD, List.getElem?_set_self h]

theorem geti_set_ne {α : Type u} [Inhabited α] {l : List α} {i j : Nat}
    (x : α) (h : i ≠ j) : geti (l.set i x) j = geti l j := by
  simp [geti, List.getD_eq_getElem?_getD, List.getElem?_set_ne h]

theorem set_geti_self {α : Type u} [Inhabited α] :
    ∀ (l : List α) (i : Nat), l.set i (geti l i) = l
  | [], _ => by simp
  | _ :: _, 0 => by simp [geti]
  | a :: t, i + 1 => by
    simp only [List.set_cons_succ, geti, List.getD_cons_succ]
    rw [show t.getD i default = geti t i from rfl, set_geti_self t i]

theorem geti_append {α : Type u} [Inhabited α] (l : List α) (x : α) (j : Nat) :
    geti (l ++ [x]) j = if j = l.length then x else geti l j := by
  rcases lt_trichotomy j l.length with h | h | h
  · rw [if_neg (by omega)]
    simp [geti, List.getD_eq_getElem?_getD, List.getElem?_append_left h]
  · subst h
    simp [geti, List.getD_eq_getElem?_getD, List.getElem?_concat_length]
  · rw [if_neg (by omega)]
    rw [geti_out (by simp; omega), geti_out (by omega)]

theorem geti_dropLast {α : Type u} [Inhabited α] {l : List α} {j : Nat}
    (h : j < l.length - 1) : geti l.dropLast j = geti l j := by
  have h2 : j < l.length := by omega
  simp [geti, List.getD_eq_getElem?_getD, List.getElem?_dropLast, h,
    List.getElem?_eq_getElem h2]

theorem geti_mem {α : Type u} [Inhabited α] {l : List α} {i : Nat}
    (h : i < l.length) : geti l i ∈ l := by
  rw [geti_eq h]
  exact List.getElem_mem h

theorem mem_geti {α : Type u} [Inhabited α] {l : List α} {a : α}
    (h : a ∈ l) : ∃ i, i < l.length ∧ geti l i = a := by
  rw [List.mem_iff_getElem] at h
  obtain ⟨n, hn, rfl⟩ := h
  exact ⟨n, hn, geti_eq hn⟩

theorem dropLast_append_geti {α : Type u} [Inhabited α] {l : List α}
    (h : l ≠ []) : l.dropLast ++ [geti l (l.length - 1)] = l := by
  have hl : 0 < l.length := List.length_pos.mpr h
  rw [geti_eq (by omega), ← List.getLast_eq_getElem l h,
    List.dropLast_append_getLast h]

theorem length_swapi {α : Type u} [Inhabited α] (l : List α) (a b : Nat) :
    (swapi l a b).length = l.length := by
  simp [swapi]

theorem geti_swapi {α : Type u} [Inhabited α] {l : List α} {a b : Nat}
    (hab : a ≠ b) (ha : a < l.length) (hb : b < l.length) (j : Nat) :
    geti (swapi l a b) j =
      if j = a then geti l b else if j = b then geti l a else geti l j := by
  unfold swapi
  rcases eq_or_ne j a with rfl | hja
  · rw [if_pos rfl, geti_set_ne _ (Ne.symm hab), geti_set_self _ ha]
  · rw [if_neg hja]
    rcases eq_or_ne j b with rfl | hjb
    · rw [if_pos rfl, geti_set_self _ (by simpa using hb)]
    · rw [if_neg hjb, geti_set_ne _ (Ne.symm hjb), geti_set_ne _ (Ne.symm hja)]

theorem count_set_geti {α : Type u} [Inhabited α] [DecidableEq α]
    {l : List α} {i : Nat} (x c : α) (h : i < l.length) :
    List.count c (l.set i x) =
      List.count c l - (if geti l i = c then 1 else 0) +
        (if x = c then 1 else 0) := by
  rw [List.count_set x c l i h, geti_eq h]
  simp [beq_iff_eq]

theorem count_pos_of_geti {α : Type u} [Inhabited α] [DecidableEq α]
    {l : List α} {i : Nat} (h : i < l.length) :
    0 < List.count (geti l i) l :=
  List.count_pos_iff.mpr (geti_mem h)

theorem swapi_perm {α : Type u} [Inhabited α] [DecidableEq α] {l : List α}
    {a b : Nat} (hab : a ≠ b) (ha : a < l.length) (hb : b < l.length) :
    (swapi l a b).Perm l := by
  rw [List.perm_iff_count]
  intro c
  unfold swapi
  have h1 : b < (l.set a (geti l b)).length := by simpa using hb
  rw [count_set_geti _ _ h1, count_set_geti _ _ ha, geti_set_ne _ hab]
  have h2 : 0 < List.count (geti l a) l := count_pos_of_geti ha
  have h3 : 0 < List.count (geti l b) l := count_pos_of_geti hb
  rcases eq_or_ne (geti l a) c with h4 | h4 <;>
    rcases eq_or_ne (geti l b) c with h5 | h5
  · rw [h4] at h2
    simp only [if_pos h4, if_pos h5]
    omega
  · rw [h4] at h2
    simp only [if_pos h4, if_neg h5]
    omega
  · rw [h5] at h3
    simp only [if_neg h4, if_pos h5]
    omega
  · simp only [if_neg h4, if_neg h5]
    omega

theorem set_append_perm {α : Type u} [Inhabited α] [DecidableEq α]
    {l : List α} {i : Nat} (x : α) (h : i < l.length) :
    (l.set i x ++ [geti l i]).Perm (l ++ [x]) := by
  rw [List.perm_iff_count]
  intro c
  simp only [List.count_append]
  rw [count_set_geti _ _ h]
  have h2 : 0 < List.count (geti l i) l := count_pos_of_geti h
  have hy : ∀ y : α, List.count c [y] = if y = c then 1 else 0 := by
    intro y
    rcases eq_or_ne y c with rfl | hyc
    · simp
    · simp [List.count_cons, Ne.symm hyc, hyc]
  rw [hy, hy]
  rcases eq_or_ne (geti l i) c with h4 | h4
  · rw [h4] at h2
    rcases eq_or_ne x c with h5 | h5
    · simp only [if_pos h4, if_pos h5]
      omega
    · simp only [if_pos h4, if_neg h5]
      omega
  · rcases eq_or_ne x c with h5 | h5
    · simp only [if_neg h4, if_pos h5]
      omega
    · simp only [if_neg h4, if_neg h5]
      omega

/-! ## Tree index arithmetic -/

theorem lt_child1 (i : Nat) : i < child1 i := by
  unfold child1
  omega

theorem lt_child2 (i : Nat) : i < child2 i := by
  unfold child2
  omega

theorem parent_child1 (i : Nat) : parent (child1 i) = i := by
  unfold parent child1
  omega

theorem parent_child2 (i : Nat) : parent (child2 i) = i := by
  unfold parent child2
  omega

theorem parent_lt {j : Nat} (h : 0 < j) : parent j < j := by
  unfold parent
  omega

theorem child_of_parent {j : Nat} (h : 0 < j) : IsChild (parent j) j := by
  unfold IsChild parent child1 child2
  omega

theorem isChild_parent {i j : Nat} (h : IsChild i j) : parent j = i := by
  rcases h with rfl | rfl
  · exact parent_child1 i
  · exact parent_child2 i

theorem isChild_lt {i j : Nat} (h : IsChild i j) : i < j := by
  rcases h with rfl | rfl
  · exact lt_child1 i
  · exact lt_child2 i

theorem isChild_pos {i j : Nat} (h : IsChild i j) : 0 < j := by
  have := isChild_lt h
  omega

theorem grandparent_eq (j : Nat) : grandparent j = parent (parent j) := rfl

theorem parent_grandchild1 (i : Nat) : parent (grandchild1 i) = child1 i := by
  unfold grandchild1
  exact parent_child1 _

theorem parent_grandchild2 (i : Nat) : parent (grandchild2 i) = child1 i := by
  unfold grandchild2
  exact parent_child2 _

theorem parent_grandchild3 (i : Nat) : parent (grandchild3 i) = child2 i := by
  unfold grandchild3
  exact parent_child1 _

theorem parent_grandchild4 (i : Nat) : parent (grandchild4 i) = child2 i := by
  unfold grandchild4
  exact parent_child2 _

theorem candList_sorted (p : Nat) :
    child1 p < child2 p ∧ child2 p < grandchild1 p ∧
    grandchild1 p < grandchild2 p ∧ grandchild2 p < grandchild3 p ∧
    grandchild3 p < grandchild4 p := by
  unfold child1 child2 grandchild1 grandchild2 grandchild3 grandchild4
  unfold child1 child2
  omega

theorem isMinLevel_isChild {i j : Nat} (h : IsChild i j) :
    isMinLevel j = !isMinLevel i := by
  rcases h with rfl | rfl
  · exact isMinLevel_child1 i
  · exact isMinLevel_child2 i

/-! ## The descendant relation -/

theorem Desc.refl (i : Nat) : Desc i i := Relation.ReflTransGen.refl

theorem Desc.trans {i j k : Nat} (h1 : Desc i j) (h2 : Desc j k) : Desc i k :=
  Relation.ReflTransGen.trans h1 h2

theorem Desc.single {i j : Nat} (h : IsChild i j) : Desc i j :=
  Relation.ReflTransGen.single h

theorem Desc.child1 (i : Nat) : Desc i (child1 i) := Desc.single (Or.inl rfl)

theorem Desc.child2 (i : Nat) : Desc i (child2 i) := Desc.single (Or.inr rfl)

theorem Desc.le {i j : Nat} (h : Desc i j) : i ≤ j := by
  induction h with
  | refl => exact Nat.le_refl _
  | tail _ hc ih => exact Nat.le_trans ih (Nat.le_of_lt (isChild_lt hc))

theorem Desc.antisymm {i j : Nat} (h1 : Desc i j) (h2 : Desc j i) : i = j :=
  Nat.le_antisymm h1.le h2.le

theorem Desc.head_cases {i j : Nat} (h : Desc i j) :
    i = j ∨ ∃ c, IsChild i c ∧ Desc c j :=
  Relation.ReflTransGen.cases_head h

theorem Desc.tail_cases {i j : Nat} (h : Desc i j) :
    j = i ∨ (Desc i (parent j) ∧ 0 < j) :=
  (Relation.ReflTransGen.cases_tail h).imp id fun ⟨c, hc, hcj⟩ => by
    rw [isChild_parent hcj]
    exact ⟨hc, isChild_pos hcj⟩

theorem Desc.parent_of_ne {i j : Nat} (h : Desc i j) (hne : i ≠ j) :
    Desc i (parent j) := by
  rcases h.tail_cases with rfl | ⟨h1, _⟩
  · exact absurd rfl hne
  · exact h1

theorem desc_zero : ∀ j, Desc 0 j := by
  intro j
  induction j using Nat.strong_induction_on with
  | _ j ih =>
    rcases Nat.eq_zero_or_pos j with rfl | hj
    · exact Desc.refl 0
    · exact Desc.trans (ih (parent j) (parent_lt hj))
        (Desc.single (child_of_parent hj))

theorem desc_one_or_two : ∀ j, 0 < j → Desc 1 j ∨ Desc 2 j := by
  intro j
  induction j using Nat.strong_induction_on with
  | _ j ih =>
    intro hj
    rcases Nat.lt_or_ge j 3 with h3 | h3
    · interval_cases j
      · exact Or.inl (Desc.refl 1)
      · exact Or.inr (Desc.refl 2)
    · have hp : 0 < parent j := by
        unfold parent
        omega
      rcases ih (parent j) (parent_lt hj) hp with h | h
      · exact Or.inl (h.trans (Desc.single (child_of_parent hj)))
      · exact Or.inr (h.trans (Desc.single (child_of_parent hj)))

theorem desc_linear {j : Nat} : ∀ {a b : Nat}, Desc a j → Desc b j →
    Desc a b ∨ Desc b a := by
  induction j using Nat.strong_induction_on with
  | _ j ih =>
    intro a b ha hb
    rcases ha.tail_cases with rfl | ⟨ha', hj⟩
    · exact Or.inr hb
    · rcases hb.tail_cases with rfl | ⟨hb', _⟩
      · exact Or.inl ha
      · exact ih (parent j) (parent_lt hj) ha' hb'

theorem desc_le_two {i m : Nat} (h : Desc i m) (hm : m ≤ 2) :
    i = m ∨ i = 0 := by
  rcases h.head_cases with rfl | ⟨c, hc, hcm⟩
  · exact Or.inl rfl
  · right
    have h1 := isChild_lt hc
    have h2 := hcm.le
    have h3 := isChild_lt hc
    rcases hc with rfl | rfl
    · unfold child1 at *
      omega
    · unfold child2 at *
      omega

theorem descN_desc {i j : Nat} : Desc i j ↔ ∃ d, DescN d i j := by
  constructor
  · intro h
    induction h with
    | refl => exact ⟨0, DescN.refl i⟩
    | tail _ hc ih =>
      obtain ⟨d, hd⟩ := ih
      exact ⟨d + 1, DescN.tail hd hc⟩
  · rintro ⟨d, hd⟩
    induction hd with
    | refl => exact Desc.refl _
    | tail _ hc ih => exact ih.tail hc

theorem descN_parity {d i j : Nat} (h : DescN d i j) :
    isMinLevel j = (isMinLevel i).xor (decide (d % 2 = 1)) := by
  induction h with
  | refl => simp
  | tail hd hc ih =>
    rename_i d' i' j' k'
    rw [isMinLevel_isChild hc, ih]
    rcases Nat.mod_two_eq_zero_or_one d' with h2 | h2 <;>
      · have h3 : (d' + 1) % 2 = 1 - d' % 2 := by omega
        rw [h3, h2]
        cases isMinLevel i' <;> simp

/-! ## Direction-indexed order lemmas -/

theorem ordB_refl {α : Type u} [LinearOrder α] (mn : Bool) (a : α) :
    ordB mn a a := by
  cases mn <;> simp [ordB]

theorem ordB_trans {α : Type u} [LinearOrder α] {mn : Bool} {a b c : α}
    (h1 : ordB mn a b) (h2 : ordB mn b c) : ordB mn a c := by
  cases mn <;>
    simp only [ordB, if_true, if_false, Bool.false_eq_true] at *
  · exact le_trans h2 h1
  · exact le_trans h1 h2

theorem sordB_ord {α : Type u} [LinearOrder α] {mn : Bool} {a b : α}
    (h : sordB mn a b) : ordB mn a b := by
  cases mn <;> simp only [sordB, ordB, if_true, if_false,
    Bool.false_eq_true] at * <;> exact le_of_lt h

theorem not_sordB {α : Type u} [LinearOrder α] {mn : Bool} {a b : α}
    (h : ¬ sordB mn a b) : ordB mn b a := by
  cases mn <;> simp only [sordB, ordB, if_true, if_false,
    Bool.false_eq_true] at * <;> exact le_of_not_lt h

theorem sordB_of_sordB_ordB {α : Type u} [LinearOrder α] {mn : Bool}
    {a b c : α} (h1 : sordB mn a b) (h2 : ordB mn b c) : sordB mn a c := by
  cases mn <;>
    simp only [sordB, ordB, if_true, if_false, Bool.false_eq_true] at *
  · exact lt_of_le_of_lt h2 h1
  · exact lt_of_lt_of_le h1 h2

theorem ordB_sordB_trans {α : Type u} [LinearOrder α] {mn : Bool}
    {a b c : α} (h1 : ordB mn a b) (h2 : sordB mn b c) : sordB mn a c := by
  cases mn <;>
    simp only [sordB, ordB, if_true, if_false, Bool.false_eq_true] at *
  · exact lt_of_lt_of_le h2 h1
  · exact lt_of_le_of_lt h1 h2

/-- The comparison closure `f` decides the strict order in direction `mn`:
`fLT` for min levels, `fGT` for max levels. -/
theorem fMatches_fLT {α : Type u} [LinearOrder α] : @FMatches α _ fLT true := by
  intro a b
  simp [fLT, sordB]

theorem fMatches_fGT {α : Type u} [LinearOrder α] : @FMatches α _ fGT false := by
  intro a b
  simp [fGT, sordB]

theorem sordB_trans {α : Type u} [LinearOrder α] {mn : Bool} {a b c : α}
    (h1 : sordB mn a b) (h2 : sordB mn b c) : sordB mn a c :=
  sordB_of_sordB_ordB h1 (sordB_ord h2)

/-! ## Characterization of the candidate scan -/

theorem candList_gens (p : Nat) : ∀ c ∈ candList p, c.2 ≠ Gen.Same := by
  simp [candList]

theorem candList_pairwise (p : Nat) :
    List.Pairwise (fun a b : Nat × Gen => a.1 ≤ b.1) (candList p) := by
  obtain ⟨h1, h2, h3, h4, h5⟩ := candList_sorted p
  unfold candList
  refine List.Pairwise.cons ?_ (List.Pairwise.cons ?_ (List.Pairwise.cons ?_
    (List.Pairwise.cons ?_ (List.Pairwise.cons ?_ (List.Pairwise.cons
      (by simp) List.Pairwise.nil))))) <;>
    · intro b hb
      fin_cases hb <;>
        · dsimp
          omega

theorem candList_gt (p : Nat) : ∀ c ∈ candList p, p < c.1 := by
  obtain ⟨h1, h2, h3, h4, h5⟩ := candList_sorted p
  have h0 := lt_child1 p
  intro c hc
  unfold candList at hc
  fin_cases hc <;>
    · dsimp
      omega

theorem scanCands_cons {α : Type u} [Inhabited α] (f : α → α → Bool)
    (data : List α) (len : Nat) (c : Nat × Gen) (cs : List (Nat × Gen))
    (st : Nat × Gen × α × Bool) :
    scanCands f data len (c :: cs) st =
      scanCands f data len cs (chk f data len st c.1 c.2) := rfl

theorem scanCands_char {α : Type u} [Inhabited α] [LinearOrder α]
    {f : α → α → Bool} {mn : Bool} (hf : FMatches f mn) (data : List α)
    (len : Nat) :
    ∀ (cs : List (Nat × Gen)) (st : Nat × Gen × α × Bool),
    ((scanCands f data len cs st).1 = st.1 ∧
     (scanCands f data len cs st).2.1 = st.2.1 ∧
     (scanCands f data len cs st).2.2.1 = st.2.2.1) ∨
    (((scanCands f data len cs st).1, (scanCands f data len cs st).2.1) ∈ cs ∧
     (scanCands f data len cs st).1 < len ∧
     (scanCands f data len cs st).2.2.1 =
       geti data (scanCands f data len cs st).1 ∧
     sordB mn (scanCands f data len cs st).2.2.1 st.2.2.1) := by
  intro cs
  induction cs with
  | nil =>
    intro st
    exact Or.inl ⟨rfl, rfl, rfl⟩
  | cons c cs ih =>
    intro st
    obtain ⟨p0, g0, v0, r0⟩ := st
    rw [scanCands_cons]
    by_cases hr : r0 = true
    · subst hr
      by_cases hlen : c.1 < len
      · by_cases hupd : f (geti data c.1) v0 = true
        · have hchk : chk f data len (p0, g0, v0, true) c.1 c.2 =
              (c.1, c.2, geti data c.1, true) := by
            simp [chk, hlen, hupd]
          rw [hchk]
          have hs : sordB mn (geti data c.1) v0 := (hf _ _).mp hupd
          rcases ih (c.1, c.2, geti data c.1, true) with ⟨h1, h2, h3⟩ | ⟨h1, h2, h3, h4⟩
          · refine Or.inr ⟨?_, ?_, ?_, ?_⟩
            · rw [h1, h2]
              exact List.mem_cons_self _ _
            · rw [h1]
              exact hlen
            · rw [h3, h1]
            · rw [h3]
              exact hs
          · exact Or.inr ⟨List.mem_cons_of_mem _ h1, h2, h3, sordB_trans h4 hs⟩
        · have hchk : chk f data len (p0, g0, v0, true) c.1 c.2 =
              (p0, g0, v0, true) := by
            simp [chk, hlen, hupd]
          rw [hchk]
          rcases ih (p0, g0, v0, true) with h | ⟨h1, h2, h3, h4⟩
          · exact Or.inl h
          · exact Or.inr ⟨List.mem_cons_of_mem _ h1, h2, h3, h4⟩
      · have hchk : chk f data len (p0, g0, v0, true) c.1 c.2 =
            (p0, g0, v0, false) := by
          simp [chk, hlen]
        rw [hchk]
        rcases ih (p0, g0, v0, false) with h | ⟨h1, h2, h3, h4⟩
        · exact Or.inl h
        · exact Or.inr ⟨List.mem_cons_of_mem _ h1, h2, h3, h4⟩
    · have hr0 : r0 = false := by
        cases r0
        · rfl
        · exact absurd rfl hr
      subst hr0
      have hchk : chk f data len (p0, g0, v0, false) c.1 c.2 =
          (p0, g0, v0, false) := by
        simp [chk]
      rw [hchk]
      rcases ih (p0, g0, v0, false) with h | ⟨h1, h2, h3, h4⟩
      · exact Or.inl h
      · exact Or.inr ⟨List.mem_cons_of_mem _ h1, h2, h3, h4⟩

theorem scanCands_opt {α : Type u} [Inhabited α] [LinearOrder α]
    {f : α → α → Bool} {mn : Bool} (hf : FMatches f mn) (data : List α)
    (len : Nat) :
    ∀ (cs : List (Nat × Gen)) (st : Nat × Gen × α × Bool),
    List.Pairwise (fun a b : Nat × Gen => a.1 ≤ b.1) cs →
    (st.2.2.2 = false → ∀ c ∈ cs, len ≤ c.1) →
    ordB mn (scanCands f data len cs st).2.2.1 st.2.2.1 ∧
    ∀ c ∈ cs, c.1 < len →
      ordB mn (scanCands f data len cs st).2.2.1 (geti data c.1) := by
  intro cs
  induction cs with
  | nil =>
    intro st _ _
    exact ⟨ordB_refl _ _, by simp⟩
  | cons c cs ih =>
    intro st hpw hstop
    obtain ⟨p0, g0, v0, r0⟩ := st
    rw [List.pairwise_cons] at hpw
    rw [scanCands_cons]
    by_cases hr : r0 = true
    · subst hr
      by_cases hlen : c.1 < len
      · by_cases hupd : f (geti data c.1) v0 = true
        · have hchk : chk f data len (p0, g0, v0, true) c.1 c.2 =
              (c.1, c.2, geti data c.1, true) := by
            simp [chk, hlen, hupd]
          rw [hchk]
          have hs : sordB mn (geti data c.1) v0 := (hf _ _).mp hupd
          obtain ⟨ho, hcs⟩ := ih (c.1, c.2, geti data c.1, true) hpw.2
            (by intro h; exact absurd h (by simp))
          refine ⟨ordB_trans ho (sordB_ord hs), ?_⟩
          intro c' hc' hlt
          rcases List.mem_cons.mp hc' with rfl | hmem
          · exact ho
          · exact hcs c' hmem hlt
        · have hchk : chk f data len (p0, g0, v0, true) c.1 c.2 =
              (p0, g0, v0, true) := by
            simp [chk, hlen, hupd]
          rw [hchk]
          have hno : ordB mn v0 (geti data c.1) := by
            apply not_sordB
            intro hcon
            exact absurd ((hf _ _).mpr hcon) (by simp [hupd])
          obtain ⟨ho, hcs⟩ := ih (p0, g0, v0, true) hpw.2
            (by intro h; exact absurd h (by simp))
          refine ⟨ho, ?_⟩
          intro c' hc' hlt
          rcases List.mem_cons.mp hc' with rfl | hmem
          · exact ordB_trans ho hno
          · exact hcs c' hmem hlt
      · have hchk : chk f data len (p0, g0, v0, true) c.1 c.2 =
            (p0, g0, v0, false) := by
          simp [chk, hlen]
        rw [hchk]
        obtain ⟨ho, hcs⟩ := ih (p0, g0, v0, false) hpw.2
          (fun _ c' hc' => le_trans (le_of_not_lt hlen) (hpw.1 c' hc'))
        refine ⟨ho, ?_⟩
        intro c' hc' hlt
        rcases List.mem_cons.mp hc' with rfl | hmem
        · exact absurd hlt (by omega)
        · exact hcs c' hmem hlt
    · have hr0 : r0 = false := by
        cases r0
        · rfl
        · exact absurd rfl hr
      subst hr0
      have hchk : chk f data len (p0, g0, v0, false) c.1 c.2 =
          (p0, g0, v0, false) := by
        simp [chk]
      rw [hchk]
      have hOOB := hstop rfl
      obtain ⟨ho, hcs⟩ := ih (p0, g0, v0, false) hpw.2
        (fun _ c' hc' => hOOB c' (List.mem_cons_of_mem _ hc'))
      refine ⟨ho, ?_⟩
      intro c' hc' hlt
      rcases List.mem_cons.mp hc' with rfl | hmem
      · exact absurd hlt (by
          have := hOOB c' (List.mem_cons_self _ _)
          omega)
      · exact hcs c' hmem hlt

theorem ordB_not {α : Type u} [LinearOrder α] (mn : Bool) (a b : α) :
    ordB (!mn) a b ↔ ordB mn b a := by
  cases mn <;> simp [ordB]

theorem desc_isChild_cases {p c i : Nat} (hc : IsChild p c) (h : Desc i c) :
    i = c ∨ Desc i p := by
  rcases eq_or_ne i c with rfl | hne
  · exact Or.inl rfl
  · right
    have := h.parent_of_ne hne
    rwa [isChild_parent hc] at this

theorem isChild_mem_cand {p m : Nat} (h : IsChild p m) :
    (m, Gen.Parent) ∈ candList p := by
  rcases h with rfl | rfl <;> simp [candList]

theorem childChild_mem_cand {p c g : Nat} (h1 : IsChild p c)
    (h2 : IsChild c g) : (g, Gen.Grandparent) ∈ candList p := by
  rcases h1 with rfl | rfl <;> rcases h2 with rfl | rfl <;>
    simp [candList, grandchild1, grandchild2, grandchild3, grandchild4]

theorem mem_candList_parent {p m : Nat}
    (h : (m, Gen.Parent) ∈ candList p) : IsChild p m := by
  simp only [candList, List.mem_cons, List.not_mem_nil, or_false,
    Prod.mk.injEq] at h
  unfold IsChild
  rcases h with ⟨rfl, _⟩ | ⟨rfl, _⟩ | ⟨_, hg⟩ | ⟨_, hg⟩ | ⟨_, hg⟩ | ⟨_, hg⟩
  · exact Or.inl rfl
  · exact Or.inr rfl
  all_goals exact absurd hg (by simp)

theorem mem_candList_gp {p m : Nat}
    (h : (m, Gen.Grandparent) ∈ candList p) :
    IsChild p (parent m) ∧ IsChild (parent m) m := by
  simp only [candList, List.mem_cons, List.not_mem_nil, or_false,
    Prod.mk.injEq] at h
  rcases h with ⟨_, hg⟩ | ⟨_, hg⟩ | ⟨rfl, _⟩ | ⟨rfl, _⟩ | ⟨rfl, _⟩ | ⟨rfl, _⟩
  · exact absurd hg (by simp)
  · exact absurd hg (by simp)
  · rw [parent_grandchild1]
    exact ⟨Or.inl rfl, Or.inl rfl⟩
  · rw [parent_grandchild2]
    exact ⟨Or.inl rfl, Or.inr rfl⟩
  · rw [parent_grandchild3]
    exact ⟨Or.inr rfl, Or.inl rfl⟩
  · rw [parent_grandchild4]
    exact ⟨Or.inr rfl, Or.inr rfl⟩

theorem isMinLevel_grandchild {p c g : Nat} (h1 : IsChild p c)
    (h2 : IsChild c g) : isMinLevel g = isMinLevel p := by
  rw [isMinLevel_isChild h2, isMinLevel_isChild h1, Bool.not_not]

theorem indexOfBest_same {α : Type u} [Inhabited α] [LinearOrder α]
    {f : α → α → Bool} {mn : Bool} (hf : FMatches f mn) {data : List α}
    {len pos : Nat} {elt : α}
    (h : (indexOfBest f data len pos elt).2 = Gen.Same) :
    (indexOfBest f data len pos elt).1 = pos ∧
    ∀ c ∈ candList pos, c.1 < len → ordB mn elt (geti data c.1) := by
  have hc := scanCands_char hf data len (candList pos)
    (pos, Gen.Same, elt, true)
  have ho := scanCands_opt hf data len (candList pos)
    (pos, Gen.Same, elt, true) (candList_pairwise pos) (by simp)
  rcases hc with ⟨h1, _, h3⟩ | ⟨h1, _, _, _⟩
  · refine ⟨h1, ?_⟩
    intro c hc hlt
    have := ho.2 c hc hlt
    rwa [h3] at this
  · exact absurd h (by
      have := candList_gens pos _ h1
      simpa [indexOfBest] using this)

theorem indexOfBest_upd {α : Type u} [Inhabited α] [LinearOrder α]
    {f : α → α → Bool} {mn : Bool} (hf : FMatches f mn) {data : List α}
    {len pos : Nat} {elt : α}
    (h : (indexOfBest f data len pos elt).2 ≠ Gen.Same) :
    ((indexOfBest f data len pos elt).1,
      (indexOfBest f data len pos elt).2) ∈ candList pos ∧
    (indexOfBest f data len pos elt).1 < len ∧
    sordB mn (geti data (indexOfBest f data len pos elt).1) elt ∧
    ∀ c ∈ candList pos, c.1 < len →
      ordB mn (geti data (indexOfBest f data len pos elt).1)
        (geti data c.1) := by
  have hc := scanCands_char hf data len (candList pos)
    (pos, Gen.Same, elt, true)
  have ho := scanCands_opt hf data len (candList pos)
    (pos, Gen.Same, elt, true) (candList_pairwise pos) (by simp)
  rcases hc with ⟨_, h2, _⟩ | ⟨h1, h2, h3, h4⟩
  · exact absurd (show (indexOfBest f data len pos elt).2 = Gen.Same by
      simpa [indexOfBest] using h2) h
  · refine ⟨h1, h2, ?_, ?_⟩
    · show sordB mn
        (geti data (scanCands f data len (candList pos)
          (pos, Gen.Same, elt, true)).1) elt
      rw [← h3]
      exact h4
    · intro c hc hlt
      show ordB mn
        (geti data (scanCands f data len (candList pos)
          (pos, Gen.Same, elt, true)).1) (geti data c.1)
      rw [← h3]
      exact ho.2 c hc hlt

theorem indexOfBest_pos_lt {α : Type u} [Inhabited α] [LinearOrder α]
    {f : α → α → Bool} {mn : Bool} (hf : FMatches f mn) {data : List α}
    {len pos : Nat} {elt : α}
    (h : (indexOfBest f data len pos elt).2 ≠ Gen.Same) :
    pos < (indexOfBest f data len pos elt).1 :=
  candList_gt pos _ (indexOfBest_upd hf h).1

/-! ## Hole view algebra -/

theorem Hole.length_view {α : Type u} [Inhabited α] (h : Hole α) :
    h.view.length = h.data.length := by
  simp [Hole.view]

theorem Hole.length_moveTo {α : Type u} [Inhabited α] (h : Hole α) (i : Nat) :
    (h.moveTo i).data.length = h.data.length := by
  simp [Hole.moveTo]

theorem Hole.length_swapWithParent {α : Type u} [Inhabited α] (h : Hole α) :
    h.swapWithParent.data.length = h.data.length := by
  simp [Hole.swapWithParent]

theorem Hole.view_mk' {α : Type u} [Inhabited α] (l : List α) (p : Nat) :
    (Hole.mk' l p).view = l := by
  simp [Hole.mk', Hole.view, set_geti_self]

theorem Hole.free_eq_view {α : Type u} [Inhabited α] (h : Hole α) :
    h.free = h.view := rfl

theorem Hole.geti_view_pos {α : Type u} [Inhabited α] (h : Hole α)
    (hp : h.pos < h.data.length) : geti h.view h.pos = h.elt :=
  geti_set_self _ hp

theorem Hole.geti_view_ne {α : Type u} [Inhabited α] (h : Hole α) {i : Nat}
    (hi : i ≠ h.pos) : geti h.view i = geti h.data i :=
  geti_set_ne _ (Ne.symm hi)

theorem Hole.view_moveTo {α : Type u} [Inhabited α] (h : Hole α) {i : Nat}
    (hp : h.pos < h.data.length) (hne : i ≠ h.pos)
    (hi : i < h.data.length) :
    (h.moveTo i).view = swapi h.view h.pos i := by
  show (h.data.set h.pos (geti h.data i)).set i h.elt =
    ((h.data.set h.pos h.elt).set h.pos
      (geti (h.data.set h.pos h.elt) i)).set i
      (geti (h.data.set h.pos h.elt) h.pos)
  rw [geti_set_ne _ (Ne.symm hne), geti_set_self _ hp, List.set_set]

theorem Hole.view_swapWithParent {α : Type u} [Inhabited α] (h : Hole α)
    (hp : h.pos < h.data.length) (hne : parent h.pos ≠ h.pos)
    (hpa : parent h.pos < h.data.length) :
    h.swapWithParent.view = swapi h.view h.pos (parent h.pos) := by
  show (h.data.set (parent h.pos) h.elt).set h.pos
      (geti h.data (parent h.pos)) =
    ((h.data.set h.pos h.elt).set h.pos
      (geti (h.data.set h.pos h.elt) (parent h.pos))).set (parent h.pos)
      (geti (h.data.set h.pos h.elt) h.pos)
  rw [geti_set_ne _ (Ne.symm hne), geti_set_self _ hp, List.set_set,
    List.set_comm _ _ _ hne]

theorem subtree_bound {α : Type u} [Inhabited α] [LinearOrder α]
    {v : List α} {p₀ pos len : Nat} {mn : Bool} {B : α}
    (hmn : isMinLevel pos = mn) (hp : Desc p₀ pos)
    (hK1 : ∀ i j, Desc p₀ i → i ≠ pos → Desc i j → j < len →
      ordB (isMinLevel i) (geti v i) (geti v j))
    (hch : ∀ c, IsChild pos c → c < len → ordB mn B (geti v c))
    (hgc : ∀ c g, IsChild pos c → IsChild c g → g < len →
      ordB mn B (geti v g)) :
    ∀ j, Desc pos j → j < len → j ≠ pos → ordB mn B (geti v j) := by
  intro j hdesc hj hne
  rcases hdesc.head_cases with rfl | ⟨c, hc, hcj⟩
  · exact absurd rfl hne
  · rcases hcj.head_cases with rfl | ⟨g, hg, hgj⟩
    · exact hch _ hc hj
    · have hgr : g < len := lt_of_le_of_lt hgj.le hj
      have h1 : ordB mn B (geti v g) := hgc _ _ hc hg hgr
      have hgpos : g ≠ pos := by
        have h3 := isChild_lt hc
        have h4 := isChild_lt hg
        omega
      have hgdesc : Desc p₀ g :=
        hp.trans ((Desc.single hc).trans (Desc.single hg))
      have h2 := hK1 g j hgdesc hgpos hgj hj
      rw [isMinLevel_grandchild hc hg, hmn] at h2
      exact ordB_trans h1 h2

theorem trickleAux_master {α : Type u} [Inhabited α] [LinearOrder α]
    {f : α → α → Bool} {mn : Bool} (hf : FMatches f mn) (p₀ len : Nat) :
    ∀ (fuel : Nat) (h : Hole α),
    h.data.length = len →
    h.pos < len →
    len ≤ fuel + h.pos →
    Desc p₀ h.pos →
    isMinLevel h.pos = mn →
    (∀ i j, Desc p₀ i → i ≠ h.pos → Desc i j → j < len →
      ordB (isMinLevel i) (geti h.view i) (geti h.view j)) →
    (∀ a, Desc p₀ a → Desc a h.pos → a ≠ h.pos →
      ordB (isMinLevel a) (geti h.view a) h.elt) →
    (trickleAux f len fuel h).free.length = len ∧
    (trickleAux f len fuel h).free.Perm h.view ∧
    (∀ j, ¬ Desc p₀ j →
      geti (trickleAux f len fuel h).free j = geti h.view j) ∧
    (∀ j, Desc p₀ j → j < len → ∃ j₀, Desc p₀ j₀ ∧ j₀ < len ∧
      geti (trickleAux f len fuel h).free j = geti h.view j₀) ∧
    (∀ i j, Desc p₀ i → Desc i j → j < len →
      ordB (isMinLevel i) (geti (trickleAux f len fuel h).free i)
        (geti (trickleAux f len fuel h).free j)) := by
  intro fuel
  induction fuel with
  | zero =>
    intro h _ hpos hfuel _ _ _ _
    omega
  | succ fuel ih =>
    intro h hlen hpos hfuel hdesc hmn hK1 hK2
    have hlv : h.view.length = len := by rw [Hole.length_view, hlen]
    have hplen : h.pos < h.data.length := by omega
    rcases hIOB : indexOfBest f h.data len h.pos h.elt with ⟨m, g⟩
    cases g with
    | Same =>
      have hred : trickleAux f len (fuel + 1) h = h := by
        simp only [trickleAux, hIOB]
      rw [hred]
      obtain ⟨-, hopt⟩ := indexOfBest_same hf (by rw [hIOB])
      refine ⟨by rw [Hole.free_eq_view, hlv], by rw [Hole.free_eq_view],
        fun j _ => rfl, fun j hj hjl => ⟨j, hj, hjl, rfl⟩, ?_⟩
      intro i j hdi hij hj
      rw [Hole.free_eq_view]
      rcases eq_or_ne i h.pos with rfl | hipos
      · rcases eq_or_ne j h.pos with rfl | hjpos
        · exact ordB_refl _ _
        · rw [hmn, h.geti_view_pos hplen]
          refine subtree_bound hmn hdesc hK1 ?_ ?_ j hij hj hjpos
          · intro c hc hcl
            have hcp : h.pos < c := isChild_lt hc
            rw [h.geti_view_ne (by omega)]
            exact hopt (c, Gen.Parent) (isChild_mem_cand hc) hcl
          · intro c gg hc hg hgl
            have hgp : h.pos < gg := by
              have := isChild_lt hc
              have := isChild_lt hg
              omega
            rw [h.geti_view_ne (by omega)]
            exact hopt (gg, Gen.Grandparent) (childChild_mem_cand hc hg) hgl
      · exact hK1 i j hdi hipos hij hj
    | Parent =>
      have hred : trickleAux f len (fuel + 1) h = h.moveTo m := by
        simp only [trickleAux, hIOB]
      rw [hred]
      have hupd := indexOfBest_upd hf
        (show (indexOfBest f h.data len h.pos h.elt).2 ≠ Gen.Same by
          rw [hIOB]
          simp)
      rw [hIOB] at hupd
      obtain ⟨hmem, hmlt, hstrict, hopt⟩ := hupd
      dsimp only at hmem hmlt hstrict hopt
      have hchild : IsChild h.pos m := mem_candList_parent hmem
      have hposm : h.pos < m := isChild_lt hchild
      have hdm : Desc p₀ m := hdesc.trans (Desc.single hchild)
      have hmdl : m < h.data.length := by omega
      have hview : (h.moveTo m).free = swapi h.view h.pos m := by
        rw [Hole.free_eq_view, h.view_moveTo hplen (by omega) hmdl]
      -- pointwise description of the result
      have hw : ∀ x, geti (swapi h.view h.pos m) x =
          if x = h.pos then geti h.view m
          else if x = m then h.elt else geti h.view x := by
        intro x
        rw [geti_swapi (by omega) (by omega) (by omega)]
        rcases eq_or_ne x h.pos with rfl | h1
        · rw [if_pos rfl, if_pos rfl]
        · rw [if_neg h1, if_neg h1]
          rcases eq_or_ne x m with rfl | h2
          · rw [if_pos rfl, if_pos rfl, h.geti_view_pos hplen]
          · rw [if_neg h2, if_neg h2]
      -- strict comparison in view form
      have hstrictv : sordB mn (geti h.view m) h.elt := by
        rwa [h.geti_view_ne (by omega)]
      -- optimality in view form against children/grandchildren
      have hoptch : ∀ c, IsChild h.pos c → c < len →
          ordB mn (geti h.view m) (geti h.view c) := by
        intro c hc hcl
        have hcp : h.pos < c := isChild_lt hc
        rw [h.geti_view_ne (by omega), h.geti_view_ne (by omega)]
        exact hopt (c, Gen.Parent) (isChild_mem_cand hc) hcl
      have hoptgc : ∀ c gg, IsChild h.pos c → IsChild c gg → gg < len →
          ordB mn (geti h.view m) (geti h.view gg) := by
        intro c gg hc hg hgl
        have hgp : h.pos < gg := by
          have := isChild_lt hc
          have := isChild_lt hg
          omega
        rw [h.geti_view_ne (by omega), h.geti_view_ne (by omega)]
        exact hopt (gg, Gen.Grandparent) (childChild_mem_cand hc hg) hgl
      have hbound : ∀ j, Desc h.pos j → j < len → j ≠ h.pos →
          ordB mn (geti h.view m) (geti h.view j) :=
        subtree_bound hmn hdesc hK1 hoptch hoptgc
      rw [hview]
      refine ⟨by rw [length_swapi, hlv], swapi_perm (by omega) (by omega) (by omega),
        ?_, ?_, ?_⟩
      · intro j hj
        have h1 : j ≠ h.pos := fun hh => hj (by rw [hh]; exact hdesc)
        have h2 : j ≠ m := fun hh => hj (by rw [hh]; exact hdm)
        rw [hw, if_neg h1, if_neg h2]
      · intro j hj hjl
        rw [hw]
        rcases eq_or_ne j h.pos with rfl | h1
        · rw [if_pos rfl]
          exact ⟨m, hdm, by omega, rfl⟩
        · rw [if_neg h1]
          rcases eq_or_ne j m with rfl | h2
          · rw [if_pos rfl]
            exact ⟨h.pos, hdesc, by omega, (h.geti_view_pos hplen).symm⟩
          · rw [if_neg h2]
            exact ⟨j, hj, hjl, rfl⟩
      · intro i j hdi hij hj
        rw [hw, hw]
        rcases eq_or_ne i h.pos with rfl | hipos
        · rw [if_pos rfl, hmn]
          rcases eq_or_ne j h.pos with rfl | hjpos
          · rw [if_pos rfl]
            exact ordB_refl _ _
          · rw [if_neg hjpos]
            rcases eq_or_ne m j with rfl | hjm
            · rw [if_pos rfl]
              exact sordB_ord hstrictv
            · rw [if_neg (Ne.symm hjm)]
              exact hbound j hij hj hjpos
        · rw [if_neg hipos]
          rcases eq_or_ne m i with rfl | him
          · rw [if_pos rfl]
            rcases eq_or_ne m j with rfl | hjm
            · rw [if_neg hipos, if_pos rfl]
              exact ordB_refl _ _
            · have hjpos : j ≠ h.pos := by
                have := hij.le
                omega
              rw [if_neg hjpos, if_neg (Ne.symm hjm)]
              rw [isMinLevel_isChild hchild, hmn, ordB_not]
              have h1 : ordB (isMinLevel m) (geti h.view m) (geti h.view j) :=
                hK1 m j hdm hipos hij hj
              rw [isMinLevel_isChild hchild, hmn, ordB_not] at h1
              exact sordB_ord (ordB_sordB_trans h1 hstrictv)
          · rw [if_neg (Ne.symm him)]
            rcases eq_or_ne j h.pos with rfl | hjpos
            · rw [if_pos rfl]
              exact hK1 i m hdi hipos (hij.trans (Desc.single hchild)) (by omega)
            · rw [if_neg hjpos]
              rcases eq_or_ne m j with rfl | hjm
              · rw [if_pos rfl]
                have hipo : Desc i h.pos := by
                  rcases desc_isChild_cases hchild hij with hh | hh
                  · exact absurd hh.symm him
                  · exact hh
                exact hK2 i hdi hipo hipos
              · rw [if_neg (Ne.symm hjm)]
                exact hK1 i j hdi hipos hij hj
    | Grandparent =>
      have hupd := indexOfBest_upd hf
        (show (indexOfBest f h.data len h.pos h.elt).2 ≠ Gen.Same by
          rw [hIOB]
          simp)
      rw [hIOB] at hupd
      obtain ⟨hmem, hmlt, hstrict, hopt⟩ := hupd
      dsimp only at hmem hmlt hstrict hopt
      obtain ⟨hpa1, hpa2⟩ := mem_candList_gp hmem
      have hpospa : h.pos < parent m := isChild_lt hpa1
      have hpam : parent m < m := isChild_lt hpa2
      have hposm : h.pos < m := by omega
      have hmdl : m < h.data.length := by omega
      have hdpa : Desc p₀ (parent m) := hdesc.trans (Desc.single hpa1)
      have hdm : Desc p₀ m := hdpa.trans (Desc.single hpa2)
      have hmnm : isMinLevel m = mn := by
        rw [isMinLevel_grandchild hpa1 hpa2, hmn]
      have hmnpa : isMinLevel (parent m) = !mn := by
        rw [isMinLevel_isChild hpa1, hmn]
      have hpane : parent m ≠ h.pos := by omega
      have hpanem : parent m ≠ m := by omega
      have hview' : (h.moveTo m).view = swapi h.view h.pos m :=
        h.view_moveTo hplen (by omega) hmdl
      have hlv' : (h.moveTo m).view.length = len := by
        rw [Hole.length_view, Hole.length_moveTo, hlen]
      have hv' : ∀ x, geti (h.moveTo m).view x =
          if x = h.pos then geti h.view m
          else if x = m then h.elt else geti h.view x := by
        intro x
        rw [hview', geti_swapi (by omega) (by rw [hlv]; omega) (by rw [hlv]; omega)]
        rcases eq_or_ne x h.pos with rfl | h1
        · rw [if_pos rfl, if_pos rfl]
        · rw [if_neg h1, if_neg h1]
          rcases eq_or_ne x m with rfl | h2
          · rw [if_pos rfl, if_pos rfl, h.geti_view_pos hplen]
          · rw [if_neg h2, if_neg h2]
      have hstrictv : sordB mn (geti h.view m) h.elt := by
        rwa [h.geti_view_ne (by omega)]
      have hoptch : ∀ c, IsChild h.pos c → c < len →
          ordB mn (geti h.view m) (geti h.view c) := by
        intro c hc hcl
        have hcp : h.pos < c := isChild_lt hc
        rw [h.geti_view_ne (by omega), h.geti_view_ne (by omega)]
        exact hopt (c, Gen.Parent) (isChild_mem_cand hc) hcl
      have hoptgc : ∀ c gg, IsChild h.pos c → IsChild c gg → gg < len →
          ordB mn (geti h.view m) (geti h.view gg) := by
        intro c gg hc hg hgl
        have hgp : h.pos < gg := by
          have := isChild_lt hc
          have := isChild_lt hg
          omega
        rw [h.geti_view_ne (by omega), h.geti_view_ne (by omega)]
        exact hopt (gg, Gen.Grandparent) (childChild_mem_cand hc hg) hgl
      have hbound : ∀ j, Desc h.pos j → j < len → j ≠ h.pos →
          ordB mn (geti h.view m) (geti h.view j) :=
        subtree_bound hmn hdesc hK1 hoptch hoptgc
      have hcond : f (geti (h.moveTo m).data (parent (h.moveTo m).pos))
          (h.moveTo m).elt = f (geti h.view (parent m)) h.elt := by
        show f (geti (h.data.set h.pos (geti h.data m)) (parent m)) h.elt = _
        rw [geti_set_ne _ (show h.pos ≠ parent m by omega),
          h.geti_view_ne hpane]
      have hred : trickleAux f len (fuel + 1) h =
          trickleAux f len fuel
            (if f (geti (h.moveTo m).data (parent (h.moveTo m).pos))
                (h.moveTo m).elt = true
              then (h.moveTo m).swapWithParent else h.moveTo m) := by
        simp only [trickleAux, hIOB]
      have hp2 : ((h.moveTo m).view).Perm h.view := by
        rw [hview']
        exact swapi_perm (by omega) (by rw [hlv]; omega) (by rw [hlv]; omega)
      by_cases hsw : f (geti h.view (parent m)) h.elt = true
      · -- swap with parent before recursing
        have hred2 : trickleAux f len (fuel + 1) h =
            trickleAux f len fuel ((h.moveTo m).swapWithParent) := by
          rw [hred, hcond, if_pos hsw]
        rw [hred2]
        have hswp : sordB mn (geti h.view (parent m)) h.elt := (hf _ _).mp hsw
        have helt2 : ((h.moveTo m).swapWithParent).elt =
            geti h.view (parent m) := by
          show geti (h.data.set h.pos (geti h.data m)) (parent m) = _
          rw [geti_set_ne _ (show h.pos ≠ parent m by omega),
            h.geti_view_ne hpane]
        have hview2 : ((h.moveTo m).swapWithParent).view =
            swapi (h.moveTo m).view m (parent m) := by
          have := (h.moveTo m).view_swapWithParent
            (by
              show m < (h.moveTo m).data.length
              rw [Hole.length_moveTo]
              omega)
            (show parent m ≠ m from hpanem)
            (by
              show parent m < (h.moveTo m).data.length
              rw [Hole.length_moveTo]
              omega)
          exact this
        have hv2 : ∀ x, geti ((h.moveTo m).swapWithParent).view x =
            if x = m then geti h.view (parent m)
            else if x = parent m then h.elt
            else if x = h.pos then geti h.view m
            else geti h.view x := by
          intro x
          rw [hview2, geti_swapi (by omega) (by rw [hlv']; omega)
            (by rw [hlv']; omega)]
          rcases eq_or_ne m x with rfl | h1
          · rw [if_pos rfl, if_pos rfl, hv' (parent m), if_neg hpane,
              if_neg hpanem]
          · rw [if_neg (Ne.symm h1), if_neg (Ne.symm h1)]
            rcases eq_or_ne (parent m) x with rfl | h2
            · rw [if_pos rfl, if_pos rfl, hv' m,
                if_neg (show m ≠ h.pos by omega), if_pos rfl]
            · rw [if_neg (Ne.symm h2), if_neg (Ne.symm h2), hv' x]
              rcases eq_or_ne x h.pos with rfl | h3
              · rw [if_pos rfl, if_pos rfl]
              · rw [if_neg h3, if_neg h3, if_neg (Ne.symm h1)]
        have hlen2 : ((h.moveTo m).swapWithParent).data.length = len := by
          rw [Hole.length_swapWithParent, Hole.length_moveTo, hlen]
        have hK12 : ∀ i j, Desc p₀ i → i ≠ m → Desc i j → j < len →
            ordB (isMinLevel i) (geti ((h.moveTo m).swapWithParent).view i)
              (geti ((h.moveTo m).swapWithParent).view j) := by
          intro i j hdi him hij hj
          rw [hv2 i, hv2 j]
          rcases eq_or_ne i h.pos with rfl | hipos
          · rw [if_neg (show h.pos ≠ m by omega),
              if_neg (show h.pos ≠ parent m by omega), if_pos rfl, hmn]
            rcases eq_or_ne j h.pos with rfl | hjpos
            · rw [if_neg (show h.pos ≠ m by omega),
                if_neg (show h.pos ≠ parent m by omega), if_pos rfl]
              exact ordB_refl _ _
            · rcases eq_or_ne m j with rfl | hjm
              · rw [if_pos rfl]
                have h1 := hK1 (parent m) m hdpa (by omega)
                  (Desc.single hpa2) (by omega)
                rw [hmnpa, ordB_not] at h1
                exact h1
              · rw [if_neg (Ne.symm hjm)]
                rcases eq_or_ne (parent m) j with rfl | hjpa
                · rw [if_pos rfl]
                  exact sordB_ord hstrictv
                · rw [if_neg (Ne.symm hjpa), if_neg hjpos]
                  exact hbound j hij hj hjpos
          · rcases eq_or_ne (parent m) i with rfl | hipa
            · rw [if_neg hpanem, if_pos rfl, hmnpa, ordB_not]
              rcases eq_or_ne m j with rfl | hjm
              · rw [if_pos rfl]
                exact sordB_ord hswp
              · have hjpos : j ≠ h.pos := by
                  have := hij.le
                  omega
                rcases eq_or_ne (parent m) j with rfl | hjpa
                · rw [if_neg hpanem, if_pos rfl]
                  exact ordB_refl _ _
                · rw [if_neg (Ne.symm hjm), if_neg (Ne.symm hjpa),
                    if_neg hjpos]
                  have h1 := hK1 (parent m) j hdpa (by omega) hij hj
                  rw [hmnpa, ordB_not] at h1
                  exact sordB_ord (ordB_sordB_trans h1 hswp)
            · rw [if_neg him, if_neg (Ne.symm hipa), if_neg hipos]
              rcases eq_or_ne j h.pos with rfl | hjpos
              · rw [if_neg (show h.pos ≠ m by omega),
                  if_neg (show h.pos ≠ parent m by omega), if_pos rfl]
                exact hK1 i m hdi hipos
                  (hij.trans ((Desc.single hpa1).trans (Desc.single hpa2)))
                  (by omega)
              · rcases eq_or_ne m j with rfl | hjm
                · rw [if_pos rfl]
                  have hipadesc : Desc i (parent m) := by
                    rcases desc_isChild_cases hpa2 hij with hh | hh
                    · exact absurd hh him
                    · exact hh
                  exact hK1 i (parent m) hdi hipos hipadesc (by omega)
                · rcases eq_or_ne (parent m) j with rfl | hjpa
                  · rw [if_neg hpanem, if_pos rfl]
                    have hipo : Desc i h.pos := by
                      have h4 : Desc i (parent m) := hij
                      rcases desc_isChild_cases hpa1 h4 with hh | hh
                      · exact absurd hh.symm hipa
                      · exact hh
                    exact hK2 i hdi hipo hipos
                  · rw [if_neg (Ne.symm hjm), if_neg (Ne.symm hjpa),
                      if_neg hjpos]
                    exact hK1 i j hdi hipos hij hj
        have hK22 : ∀ a, Desc p₀ a → Desc a m → a ≠ m →
            ordB (isMinLevel a) (geti ((h.moveTo m).swapWithParent).view a)
              ((h.moveTo m).swapWithParent).elt := by
          intro a hda ham hane
          rw [helt2, hv2 a, if_neg hane]
          rcases eq_or_ne (parent m) a with rfl | hapa
          · rw [if_pos rfl, hmnpa, ordB_not]
            exact sordB_ord hswp
          · have hapadesc : Desc a (parent m) := by
              rcases desc_isChild_cases hpa2 ham with hh | hh
              · exact absurd hh hane
              · exact hh
            rcases eq_or_ne a h.pos with rfl | hapos
            · rw [if_neg (Ne.symm hapa), if_pos rfl, hmn]
              have h1 := hK1 (parent m) m hdpa (by omega)
                (Desc.single hpa2) (by omega)
              rw [hmnpa, ordB_not] at h1
              exact h1
            · rw [if_neg (Ne.symm hapa), if_neg hapos]
              exact hK1 a (parent m) hda hapos hapadesc (by omega)
        obtain ⟨ih1, ih2, ih3, ih4, ih5⟩ :=
          ih ((h.moveTo m).swapWithParent) hlen2 (show m < len by omega)
            (show len ≤ fuel + m by omega) hdm hmnm hK12 hK22
        have hp1 : ((h.moveTo m).swapWithParent).view.Perm
            ((h.moveTo m).view) := by
          rw [hview2]
          exact swapi_perm (by omega) (by rw [hlv']; omega)
            (by rw [hlv']; omega)
        refine ⟨ih1, ih2.trans (hp1.trans hp2), ?_, ?_, ih5⟩
        · intro j hj
          have h1 : j ≠ m := fun hh => hj (by rw [hh]; exact hdm)
          have h2 : j ≠ parent m := fun hh => hj (by rw [hh]; exact hdpa)
          have h3 : j ≠ h.pos := fun hh => hj (by rw [hh]; exact hdesc)
          rw [ih3 j hj, hv2 j, if_neg h1, if_neg h2, if_neg h3]
        · intro j hj hjl
          obtain ⟨j₀, hj₀d, hj₀l, he⟩ := ih4 j hj hjl
          rw [hv2 j₀] at he
          rcases eq_or_ne m j₀ with rfl | h1
          · rw [if_pos rfl] at he
            exact ⟨parent m, hdpa, by omega, he⟩
          · rw [if_neg (Ne.symm h1)] at he
            rcases eq_or_ne j₀ (parent m) with rfl | h2
            · rw [if_pos rfl] at he
              refine ⟨h.pos, hdesc, by omega, ?_⟩
              rw [he, h.geti_view_pos hplen]
            · rw [if_neg h2] at he
              rcases eq_or_ne j₀ h.pos with rfl | h3
              · rw [if_pos rfl] at he
                exact ⟨m, hdm, by omega, he⟩
              · rw [if_neg h3] at he
                exact ⟨j₀, hj₀d, hj₀l, he⟩
      · -- no swap with the parent
        have hred2 : trickleAux f len (fuel + 1) h =
            trickleAux f len fuel (h.moveTo m) := by
          rw [hred, hcond, if_neg hsw]
        rw [hred2]
        have hnosw : ordB mn h.elt (geti h.view (parent m)) :=
          not_sordB (fun hc => hsw ((hf _ _).mpr hc))
        have hlen1 : (h.moveTo m).data.length = len := by
          rw [Hole.length_moveTo, hlen]
        have hK11 : ∀ i j, Desc p₀ i → i ≠ m → Desc i j → j < len →
            ordB (isMinLevel i) (geti (h.moveTo m).view i)
              (geti (h.moveTo m).view j) := by
          intro i j hdi him hij hj
          rw [hv' i, hv' j]
          rcases eq_or_ne i h.pos with rfl | hipos
          · rw [if_pos rfl, hmn]
            rcases eq_or_ne j h.pos with rfl | hjpos
            · rw [if_pos rfl]
              exact ordB_refl _ _
            · rw [if_neg hjpos]
              rcases eq_or_ne m j with rfl | hjm
              · rw [if_pos rfl]
                exact sordB_ord hstrictv
              · rw [if_neg (Ne.symm hjm)]
                exact hbound j hij hj hjpos
          · rw [if_neg hipos, if_neg him]
            rcases eq_or_ne j h.pos with rfl | hjpos
            · rw [if_pos rfl]
              exact hK1 i m hdi hipos
                (hij.trans ((Desc.single hpa1).trans (Desc.single hpa2)))
                (by omega)
            · rw [if_neg hjpos]
              rcases eq_or_ne m j with rfl | hjm
              · rw [if_pos rfl]
                rcases eq_or_ne (parent m) i with rfl | hipa
                · rw [hmnpa, ordB_not]
                  exact hnosw
                · have hipo : Desc i h.pos := by
                    have h4 : Desc i (parent m) := by
                      rcases desc_isChild_cases hpa2 hij with hh | hh
                      · exact absurd hh him
                      · exact hh
                    rcases desc_isChild_cases hpa1 h4 with hh | hh
                    · exact absurd hh.symm hipa
                    · exact hh
                  exact hK2 i hdi hipo hipos
              · rw [if_neg (Ne.symm hjm)]
                exact hK1 i j hdi hipos hij hj
        have hK21 : ∀ a, Desc p₀ a → Desc a m → a ≠ m →
            ordB (isMinLevel a) (geti (h.moveTo m).view a) h.elt := by
          intro a hda ham hane
          rw [hv' a]
          rcases eq_or_ne a h.pos with rfl | hapos
          · rw [if_pos rfl, hmn]
            exact sordB_ord hstrictv
          · rw [if_neg hapos, if_neg hane]
            rcases eq_or_ne (parent m) a with rfl | hapa
            · rw [hmnpa, ordB_not]
              exact hnosw
            · have hapo : Desc a h.pos := by
                have h4 : Desc a (parent m) := by
                  rcases desc_isChild_cases hpa2 ham with hh | hh
                  · exact absurd hh hane
                  · exact hh
                rcases desc_isChild_cases hpa1 h4 with hh | hh
                · exact absurd hh.symm hapa
                · exact hh
              exact hK2 a hda hapo hapos
        obtain ⟨ih1, ih2, ih3, ih4, ih5⟩ :=
          ih (h.moveTo m) hlen1 (show m < len by omega)
            (show len ≤ fuel + m by omega) hdm hmnm hK11 hK21
        refine ⟨ih1, ih2.trans hp2, ?_, ?_, ih5⟩
        · intro j hj
          have h1 : j ≠ m := fun hh => hj (by rw [hh]; exact hdm)
          have h3 : j ≠ h.pos := fun hh => hj (by rw [hh]; exact hdesc)
          rw [ih3 j hj, hv' j, if_neg h3, if_neg h1]
        · intro j hj hjl
          obtain ⟨j₀, hj₀d, hj₀l, he⟩ := ih4 j hj hjl
          rw [hv' j₀] at he
          rcases eq_or_ne j₀ h.pos with rfl | h3
          · rw [if_pos rfl] at he
            exact ⟨m, hdm, by omega, he⟩
          · rw [if_neg h3] at he
            rcases eq_or_ne m j₀ with rfl | h1
            · rw [if_pos rfl] at he
              refine ⟨h.pos, hdesc, by omega, ?_⟩
              rw [he, h.geti_view_pos hplen]
            · rw [if_neg (Ne.symm h1)] at he
              exact ⟨j₀, hj₀d, hj₀l, he⟩

/-! ## Entry-point corollaries of the master theorem -/

theorem trickleDownBest_spec {α : Type u} [Inhabited α] [LinearOrder α]
    {f : α → α → Bool} {mn : Bool} (hf : FMatches f mn) {l : List α}
    {p : Nat} (hp : p < l.length) (hmn : isMinLevel p = mn)
    (hK1 : ∀ i j, Desc p i → i ≠ p → Desc i j → j < l.length →
      ordB (isMinLevel i) (geti l i) (geti l j)) :
    (trickleAux f l.length l.length (Hole.mk' l p)).free.length = l.length ∧
    (trickleAux f l.length l.length (Hole.mk' l p)).free.Perm l ∧
    (∀ j, ¬ Desc p j →
      geti (trickleAux f l.length l.length (Hole.mk' l p)).free j =
        geti l j) ∧
    (∀ j, Desc p j → j < l.length → ∃ j₀, Desc p j₀ ∧ j₀ < l.length ∧
      geti (trickleAux f l.length l.length (Hole.mk' l p)).free j =
        geti l j₀) ∧
    (∀ i j, Desc p i → Desc i j → j < l.length →
      ordB (isMinLevel i)
        (geti (trickleAux f l.length l.length (Hole.mk' l p)).free i)
        (geti (trickleAux f l.length l.length (Hole.mk' l p)).free j)) := by
  have hview : (Hole.mk' l p).view = l := Hole.view_mk' l p
  have h := trickleAux_master hf p l.length l.length (Hole.mk' l p)
    rfl hp (by omega) (Desc.refl p) hmn
    (by
      rw [hview]
      exact hK1)
    (by
      intro a h1 h2 h3
      exact absurd (h1.antisymm h2) (Ne.symm h3))
  rwa [hview] at h

/-! ## Unconditional permutation lemmas for the hole loops -/

theorem trickleAux_perm {α : Type u} [Inhabited α] [LinearOrder α]
    {f : α → α → Bool} {mn : Bool} (hf : FMatches f mn) (len : Nat) :
    ∀ (fuel : Nat) (h : Hole α), h.pos < h.data.length →
    len ≤ h.data.length →
    (trickleAux f len fuel h).free.Perm h.view ∧
    (trickleAux f len fuel h).free.length = h.data.length := by
  intro fuel
  induction fuel with
  | zero =>
    intro h hp _
    exact ⟨List.Perm.refl _, by simp [trickleAux, Hole.free]⟩
  | succ fuel ih =>
    intro h hp hlen
    rcases hIOB : indexOfBest f h.data len h.pos h.elt with ⟨m, g⟩
    cases g with
    | Same =>
      have hred : trickleAux f len (fuel + 1) h = h := by
        simp only [trickleAux, hIOB]
      rw [hred]
      exact ⟨List.Perm.refl _, by simp [Hole.free]⟩
    | Parent =>
      have hred : trickleAux f len (fuel + 1) h = h.moveTo m := by
        simp only [trickleAux, hIOB]
      have hupd := indexOfBest_upd hf
        (show (indexOfBest f h.data len h.pos h.elt).2 ≠ Gen.Same by
          rw [hIOB]
          simp)
      rw [hIOB] at hupd
      obtain ⟨hmem, hmlt, -, -⟩ := hupd
      dsimp only at hmem hmlt
      have hgt : h.pos < m := candList_gt h.pos _ hmem
      have hmdl : m < h.data.length := by omega
      rw [hred, Hole.free_eq_view, h.view_moveTo hp (by omega) hmdl]
      constructor
      · exact swapi_perm (by omega) (by rw [Hole.length_view]; omega)
          (by rw [Hole.length_view]; omega)
      · rw [length_swapi, Hole.length_view]
    | Grandparent =>
      have hupd := indexOfBest_upd hf
        (show (indexOfBest f h.data len h.pos h.elt).2 ≠ Gen.Same by
          rw [hIOB]
          simp)
      rw [hIOB] at hupd
      obtain ⟨hmem, hmlt, -, -⟩ := hupd
      dsimp only at hmem hmlt
      obtain ⟨hpa1, hpa2⟩ := mem_candList_gp hmem
      have hpospa : h.pos < parent m := isChild_lt hpa1
      have hpam : parent m < m := isChild_lt hpa2
      have hmdl : m < h.data.length := by omega
      have hview' : (h.moveTo m).view = swapi h.view h.pos m :=
        h.view_moveTo hp (by omega) hmdl
      have hp2 : ((h.moveTo m).view).Perm h.view := by
        rw [hview']
        exact swapi_perm (by omega) (by rw [Hole.length_view]; omega)
          (by rw [Hole.length_view]; omega)
      have hred : trickleAux f len (fuel + 1) h =
          trickleAux f len fuel
            (if f (geti (h.moveTo m).data (parent (h.moveTo m).pos))
                (h.moveTo m).elt = true
              then (h.moveTo m).swapWithParent else h.moveTo m) := by
        simp only [trickleAux, hIOB]
      rw [hred]
      by_cases hsw : f (geti (h.moveTo m).data (parent (h.moveTo m).pos))
          (h.moveTo m).elt = true
      · rw [if_pos hsw]
        have hview2 : ((h.moveTo m).swapWithParent).view =
            swapi (h.moveTo m).view m (parent m) := by
          have := (h.moveTo m).view_swapWithParent
            (by
              show m < (h.moveTo m).data.length
              rw [Hole.length_moveTo]
              omega)
            (show parent m ≠ m by omega)
            (by
              show parent m < (h.moveTo m).data.length
              rw [Hole.length_moveTo]
              omega)
          exact this
        have hlvm : (h.moveTo m).view.length = h.data.length := by
          rw [Hole.length_view, Hole.length_moveTo]
        have hp1 : ((h.moveTo m).swapWithParent).view.Perm
            ((h.moveTo m).view) := by
          rw [hview2]
          exact swapi_perm (by omega) (by rw [hlvm]; omega)
            (by rw [hlvm]; omega)
        obtain ⟨ihp, ihl⟩ := ih ((h.moveTo m).swapWithParent)
          (by
            show m < ((h.moveTo m).swapWithParent).data.length
            rw [Hole.length_swapWithParent, Hole.length_moveTo]
            omega)
          (by rw [Hole.length_swapWithParent, Hole.length_moveTo]; omega)
        refine ⟨ihp.trans (hp1.trans hp2), ?_⟩
        rw [ihl, Hole.length_swapWithParent, Hole.length_moveTo]
      · rw [if_neg hsw]
        obtain ⟨ihp, ihl⟩ := ih (h.moveTo m)
          (by
            show m < (h.moveTo m).data.length
            rw [Hole.length_moveTo]
            omega)
          (by rw [Hole.length_moveTo]; omega)
        refine ⟨ihp.trans hp2, ?_⟩
        rw [ihl, Hole.length_moveTo]

theorem bubbleUpGpAux_perm {α : Type u} [Inhabited α] [DecidableEq α]
    (f : α → α → Bool) :
    ∀ (fuel : Nat) (h : Hole α), h.pos < h.data.length →
    (bubbleUpGpAux f fuel h).free.Perm h.view ∧
    (bubbleUpGpAux f fuel h).free.length = h.data.length := by
  intro fuel
  induction fuel with
  | zero =>
    intro h hp
    exact ⟨List.Perm.refl _, by simp [bubbleUpGpAux, Hole.free]⟩
  | succ fuel ih =>
    intro h hp
    show (bubbleUpGpAux f (fuel + 1) h).free.Perm h.view ∧ _
    rw [bubbleUpGpAux]
    by_cases hgp : hasGrandparent h.pos = true
    · rw [if_pos hgp]
      have hgplt : grandparent h.pos < h.pos := by
        unfold hasGrandparent at hgp
        unfold grandparent parent
        simp only [decide_eq_true_eq] at hgp
        omega
      by_cases hcmp : f h.elt (geti h.data (grandparent h.pos)) = true
      · rw [if_pos hcmp]
        have hview' : (h.moveTo (grandparent h.pos)).view =
            swapi h.view h.pos (grandparent h.pos) :=
          h.view_moveTo hp (by omega) (by omega)
        have hperm : ((h.moveTo (grandparent h.pos)).view).Perm h.view := by
          rw [hview']
          exact swapi_perm (by omega) (by rw [Hole.length_view]; omega)
            (by rw [Hole.length_view]; omega)
        obtain ⟨ihp, ihl⟩ := ih (h.moveTo (grandparent h.pos))
          (by
            show grandparent h.pos < (h.moveTo (grandparent h.pos)).data.length
            rw [Hole.length_moveTo]
            omega)
        refine ⟨ihp.trans hperm, ?_⟩
        rw [ihl, Hole.length_moveTo]
      · rw [if_neg hcmp]
        exact ⟨List.Perm.refl _, by simp [Hole.free]⟩
    · rw [if_neg hgp]
      exact ⟨List.Perm.refl _, by simp [Hole.free]⟩

theorem bubbleUp_perm {α : Type u} [Inhabited α] [LinearOrder α]
    (h : Hole α) (hp : h.pos < h.data.length) :
    (bubbleUp h).free.Perm h.view ∧
    (bubbleUp h).free.length = h.data.length := by
  unfold bubbleUp bubbleUpMin bubbleUpMax
  have hmove : ∀ hpar : hasParent h.pos = true,
      ((h.moveTo (parent h.pos)).view).Perm h.view ∧
      (h.moveTo (parent h.pos)).view.length = h.data.length := by
    intro hpar
    have hplt : parent h.pos < h.pos := by
      unfold hasParent at hpar
      simp only [decide_eq_true_eq] at hpar
      exact parent_lt hpar
    constructor
    · rw [h.view_moveTo hp (by omega) (by omega)]
      exact swapi_perm (by omega) (by rw [Hole.length_view]; omega)
        (by rw [Hole.length_view]; omega)
    · rw [Hole.length_view, Hole.length_moveTo]
  by_cases hmin : isMinLevel h.pos = true
  · rw [if_pos hmin]
    by_cases hc : (hasParent h.pos &&
        decide (geti h.data (parent h.pos) < h.elt)) = true
    · rw [if_pos hc]
      have hpar : hasParent h.pos = true := by
        cases hq : hasParent h.pos
        · rw [hq] at hc
          simp at hc
        · rfl
      have hplt : parent h.pos < h.pos := by
        unfold hasParent at hpar
        simp only [decide_eq_true_eq] at hpar
        exact parent_lt hpar
      obtain ⟨ihp, ihl⟩ := bubbleUpGpAux_perm fGT (h.moveTo (parent h.pos)).pos
        (h.moveTo (parent h.pos))
        (by
          show parent h.pos < (h.moveTo (parent h.pos)).data.length
          rw [Hole.length_moveTo]
          omega)
      obtain ⟨hmp, hml⟩ := hmove hpar
      refine ⟨ihp.trans hmp, ?_⟩
      rw [ihl, Hole.length_moveTo]
    · rw [if_neg hc]
      exact bubbleUpGpAux_perm fLT h.pos h hp
  · rw [if_neg hmin]
    by_cases hc : (hasParent h.pos &&
        decide (h.elt < geti h.data (parent h.pos))) = true
    · rw [if_pos hc]
      have hpar : hasParent h.pos = true := by
        cases hq : hasParent h.pos
        · rw [hq] at hc
          simp at hc
        · rfl
      have hplt : parent h.pos < h.pos := by
        unfold hasParent at hpar
        simp only [decide_eq_true_eq] at hpar
        exact parent_lt hpar
      obtain ⟨ihp, ihl⟩ := bubbleUpGpAux_perm fLT (h.moveTo (parent h.pos)).pos
        (h.moveTo (parent h.pos))
        (by
          show parent h.pos < (h.moveTo (parent h.pos)).data.length
          rw [Hole.length_moveTo]
          omega)
      obtain ⟨hmp, hml⟩ := hmove hpar
      refine ⟨ihp.trans hmp, ?_⟩
      rw [ihl, Hole.length_moveTo]
    · rw [if_neg hc]
      exact bubbleUpGpAux_perm fGT h.pos h hp

/-! ## Bubble-up restoration -/

theorem isMinLevel_parent {j : Nat} (h : 0 < j) :
    isMinLevel (parent j) = !isMinLevel j := by
  have h1 := isMinLevel_isChild (child_of_parent h)
  cases h2 : isMinLevel (parent j) <;> rw [h2] at h1 <;> simp [h1]

theorem isMinLevel_grandparent_same {p : Nat} (h : 2 < p) :
    isMinLevel (grandparent p) = isMinLevel p := by
  have h1 : 0 < parent p := by
    unfold parent
    omega
  rw [grandparent_eq, isMinLevel_parent h1, isMinLevel_parent (by omega),
    Bool.not_not]

theorem desc_grandparent {p : Nat} (h : 2 < p) : Desc (grandparent p) p := by
  have h1 : 0 < parent p := by
    unfold parent
    omega
  exact (Desc.single (child_of_parent h1)).trans
    (Desc.single (child_of_parent (by omega)))

theorem hasGrandparent_iff {p : Nat} : hasGrandparent p = true ↔ 2 < p := by
  simp [hasGrandparent]

theorem hasParent_iff {p : Nat} : hasParent p = true ↔ 0 < p := by
  simp [hasParent]

theorem desc_ne_ge_child1 {p j : Nat} (h : Desc p j) (hne : j ≠ p) :
    child1 p ≤ j := by
  rcases h.head_cases with rfl | ⟨c, hc, hcj⟩
  · exact absurd rfl hne
  · have h1 := hcj.le
    rcases hc with rfl | rfl
    · omega
    · unfold child1 child2 at *
      omega

theorem desc_to_grandparent {a p : Nat} (h : Desc a p) (h1 : a ≠ p)
    (h2 : a ≠ parent p) : Desc a (grandparent p) := by
  have h3 := h.parent_of_ne h1
  exact h3.parent_of_ne h2

/-- Closing a bubble-up chain: if all pairs avoiding the hole hold, the held
element dominates its subtree, and it is ordered against all its proper
ancestors (opposite parity through `B3`, same parity through `hstop`), then
freeing the hole yields the full invariant. -/
theorem bubbleUp_stop {α : Type u} [Inhabited α] [LinearOrder α]
    {mn : Bool} {len : Nat} {h : Hole α}
    (hlen : h.data.length = len) (hpos : h.pos < len)
    (hmn : isMinLevel h.pos = mn)
    (hB1 : ∀ i j, i ≠ h.pos → Desc i j → j ≠ h.pos → j < len →
      ordB (isMinLevel i) (geti h.view i) (geti h.view j))
    (hB2 : ∀ j, Desc h.pos j → j ≠ h.pos → j < len →
      ordB mn h.elt (geti h.view j))
    (hB3 : ∀ a, Desc a h.pos → a ≠ h.pos → isMinLevel a = !mn →
      ordB (isMinLevel a) (geti h.view a) h.elt)
    (hstop : ∀ a, Desc a h.pos → a ≠ h.pos → isMinLevel a = mn →
      ordB mn (geti h.view a) h.elt) :
    ∀ i j, Desc i j → j < len →
      ordB (isMinLevel i) (geti h.free i) (geti h.free j) := by
  intro i j hij hj
  rw [Hole.free_eq_view]
  have hvp : geti h.view h.pos = h.elt := h.geti_view_pos (by omega)
  rcases eq_or_ne i h.pos with rfl | hipos
  · rcases eq_or_ne j h.pos with rfl | hjpos
    · exact ordB_refl _ _
    · rw [hvp, hmn]
      exact hB2 j hij hjpos hj
  · rcases eq_or_ne j h.pos with rfl | hjpos
    · rw [hvp]
      by_cases hpar : isMinLevel i = mn
      · rw [hpar]
        exact hstop i hij hipos hpar
      · have hpar' : isMinLevel i = !mn := by
          cases hmi : isMinLevel i <;> cases mn <;> simp_all
        exact hB3 i hij hipos hpar'
    · exact hB1 i j hipos hij hjpos hj

theorem bubbleUpGpAux_master {α : Type u} [Inhabited α] [LinearOrder α]
    {f : α → α → Bool} {mn : Bool} (hf : FMatches f mn) (len : Nat) :
    ∀ (fuel : Nat) (h : Hole α),
    h.data.length = len →
    h.pos < len →
    h.pos ≤ fuel →
    isMinLevel h.pos = mn →
    (∀ i j, i ≠ h.pos → Desc i j → j ≠ h.pos → j < len →
      ordB (isMinLevel i) (geti h.view i) (geti h.view j)) →
    (∀ j, Desc h.pos j → j ≠ h.pos → j < len →
      ordB mn h.elt (geti h.view j)) →
    (∀ a, Desc a h.pos → a ≠ h.pos → isMinLevel a = !mn →
      ordB (isMinLevel a) (geti h.view a) h.elt) →
    ∀ i j, Desc i j → j < len →
      ordB (isMinLevel i) (geti (bubbleUpGpAux f fuel h).free i)
        (geti (bubbleUpGpAux f fuel h).free j) := by
  intro fuel
  induction fuel with
  | zero =>
    intro h hlen hpos hfuel hmn hB1 hB2 hB3
    have hp0 : h.pos = 0 := by omega
    have hred : bubbleUpGpAux f 0 h = h := rfl
    rw [hred]
    refine bubbleUp_stop hlen hpos hmn hB1 hB2 hB3 ?_
    intro a ha hane _
    exact absurd (by
      have := ha.le
      omega : a = h.pos) hane
  | succ fuel ih =>
    intro h hlen hpos hfuel hmn hB1 hB2 hB3
    show ∀ i j, Desc i j → j < len →
      ordB (isMinLevel i) (geti (bubbleUpGpAux f (fuel + 1) h).free i)
        (geti (bubbleUpGpAux f (fuel + 1) h).free j)
    rw [bubbleUpGpAux]
    by_cases hgp : hasGrandparent h.pos = true
    · rw [if_pos hgp]
      have hgt2 : 2 < h.pos := hasGrandparent_iff.mp hgp
      have hgplt : grandparent h.pos < h.pos := by
        unfold grandparent parent
        omega
      have hppos : 0 < parent h.pos := by
        unfold parent
        omega
      have hpap : parent h.pos < h.pos := parent_lt (by omega)
      have hgppa : grandparent h.pos < parent h.pos := by
        rw [grandparent_eq]
        exact parent_lt hppos
      have hdgp : Desc (grandparent h.pos) h.pos := desc_grandparent hgt2
      have hic1 : IsChild (grandparent h.pos) (parent h.pos) :=
        child_of_parent hppos
      have hic2 : IsChild (parent h.pos) h.pos := child_of_parent (by omega)
      have hmnp : isMinLevel (parent h.pos) = !mn := by
        rw [isMinLevel_parent (by omega), hmn]
      have hmng : isMinLevel (grandparent h.pos) = mn := by
        rw [isMinLevel_grandparent_same hgt2, hmn]
      have hgdata : geti h.data (grandparent h.pos) =
          geti h.view (grandparent h.pos) :=
        (h.geti_view_ne (by omega)).symm
      by_cases hcmp : f h.elt (geti h.data (grandparent h.pos)) = true
      · rw [if_pos hcmp]
        have hsord : sordB mn h.elt (geti h.view (grandparent h.pos)) := by
          rw [← hgdata]
          exact (hf _ _).mp hcmp
        have hview' : (h.moveTo (grandparent h.pos)).view =
            swapi h.view h.pos (grandparent h.pos) :=
          h.view_moveTo (by omega) (by omega) (by omega)
        have hv' : ∀ x, geti (h.moveTo (grandparent h.pos)).view x =
            if x = h.pos then geti h.view (grandparent h.pos)
            else if x = grandparent h.pos then h.elt
            else geti h.view x := by
          intro x
          rw [hview', geti_swapi (by omega) (by rw [Hole.length_view]; omega)
            (by rw [Hole.length_view]; omega)]
          rcases eq_or_ne x h.pos with rfl | h1
          · rw [if_pos rfl, if_pos rfl]
          · rw [if_neg h1, if_neg h1]
            rcases eq_or_ne x (grandparent h.pos) with rfl | h2
            · rw [if_pos rfl, if_pos rfl, h.geti_view_pos (by omega)]
            · rw [if_neg h2, if_neg h2]
        apply ih (h.moveTo (grandparent h.pos))
          (by rw [Hole.length_moveTo, hlen])
          (show grandparent h.pos < len by omega)
          (show grandparent h.pos ≤ fuel by omega)
          (show isMinLevel (grandparent h.pos) = mn from hmng)
        · -- B1 for the moved hole
          intro i j hig hij hjg hj
          replace hig : i ≠ grandparent h.pos := hig
          replace hjg : j ≠ grandparent h.pos := hjg
          rw [hv' i, hv' j]
          rcases eq_or_ne i h.pos with rfl | hipos
          · rw [if_pos rfl, hmn]
            rcases eq_or_ne j h.pos with rfl | hjpos
            · rw [if_pos rfl]
              exact ordB_refl _ _
            · rw [if_neg hjpos, if_neg hjg]
              have h9 := hB1 (grandparent h.pos) j (by omega)
                (hdgp.trans hij) hjpos hj
              rwa [hmng] at h9
          · rw [if_neg hipos, if_neg hig]
            rcases eq_or_ne j h.pos with rfl | hjpos
            · rw [if_pos rfl]
              rcases eq_or_ne i (parent h.pos) with rfl | hipa
              · rw [hmnp, ordB_not]
                have := hB1 (grandparent h.pos) (parent h.pos) (by omega)
                  (Desc.single hic1) (by omega) (by omega)
                rwa [hmng] at this
              · have hdig : Desc i (grandparent h.pos) :=
                  desc_to_grandparent hij hipos hipa
                rcases eq_or_ne i (grandparent h.pos) with rfl | hig'
                · exact absurd rfl hig
                · exact hB1 i (grandparent h.pos) hipos hdig (by omega) (by omega)
            · rw [if_neg hjpos, if_neg hjg]
              exact hB1 i j hipos hij hjpos hj
        · -- B2 for the moved hole
          intro j hdj hjg hj
          replace hdj : Desc (grandparent h.pos) j := hdj
          replace hjg : j ≠ grandparent h.pos := hjg
          rw [hv' j]
          rcases eq_or_ne j h.pos with rfl | hjpos
          · rw [if_pos rfl]
            exact sordB_ord hsord
          · rw [if_neg hjpos, if_neg hjg]
            have h1 := hB1 (grandparent h.pos) j (by omega) hdj hjpos hj
            rw [hmng] at h1
            exact sordB_ord (sordB_of_sordB_ordB hsord h1)
        · -- B3 for the moved hole
          intro a ha hag hpar
          replace ha : Desc a (grandparent h.pos) := ha
          replace hag : a ≠ grandparent h.pos := hag
          rw [hv' a]
          have halt : a < grandparent h.pos := by
            have h1 := ha.le
            have h2 := desc_ne_ge_child1 ha (Ne.symm hag)
            have := lt_child1 a
            omega
          rw [if_neg (by omega), if_neg hag]
          exact hB3 a (ha.trans hdgp) (by omega) hpar
      · rw [if_neg hcmp]
        have hnord : ordB mn (geti h.view (grandparent h.pos)) h.elt := by
          rw [← hgdata]
          exact not_sordB (fun hc => hcmp ((hf _ _).mpr hc))
        refine bubbleUp_stop hlen hpos hmn hB1 hB2 hB3 ?_
        intro a ha hane hpar
        rcases eq_or_ne a (grandparent h.pos) with rfl | hag
        · exact hnord
        · have hapa : a ≠ parent h.pos := by
            intro hh
            rw [hh, hmnp] at hpar
            cases mn <;> simp_all
          have hdag : Desc a (grandparent h.pos) :=
            desc_to_grandparent ha hane hapa
          have h1 := hB1 a (grandparent h.pos) hane hdag (by omega) (by omega)
          rw [hpar] at h1
          exact ordB_trans h1 hnord
    · rw [if_neg hgp]
      have hle2 : h.pos ≤ 2 := by
        by_contra hh
        exact hgp (hasGrandparent_iff.mpr (by omega))
      refine bubbleUp_stop hlen hpos hmn hB1 hB2 hB3 ?_
      intro a ha hane hpar
      rcases desc_le_two ha hle2 with rfl | rfl
      · exact absurd rfl hane
      · -- a = 0 is a min level; its parity equals mn only if h.pos is also
        -- on a min level, impossible for h.pos ∈ {1, 2}
        interval_cases hp : h.pos
        · exact absurd (ha.antisymm (desc_zero 0)) hane
        · rw [show isMinLevel 0 = true from rfl] at hpar
          rw [show isMinLevel 1 = false by decide] at hmn
          rw [← hpar] at hmn
          exact absurd hmn (by simp)
        · rw [show isMinLevel 0 = true from rfl] at hpar
          rw [show isMinLevel 2 = false by decide] at hmn
          rw [← hpar] at hmn
          exact absurd hmn (by simp)

theorem sordB_not {α : Type u} [LinearOrder α] (mn : Bool) (a b : α) :
    sordB (!mn) a b ↔ sordB mn b a := by
  cases mn <;> simp [sordB]

/-- Bubble-up dispatch, case where the freshly inserted element crosses to
the opposite chain through its parent. -/
theorem bubbleUp_move_case {α : Type u} [Inhabited α] [LinearOrder α]
    {f' : α → α → Bool} {mn : Bool} {len : Nat}
    (hf' : FMatches f' (!mn)) (h : Hole α)
    (hlen : h.data.length = len) (hpos : h.pos < len)
    (hleaf : len ≤ child1 h.pos) (hmn : isMinLevel h.pos = mn)
    (hppos : 0 < h.pos)
    (hlt : sordB (!mn) h.elt (geti h.view (parent h.pos)))
    (hB1 : ∀ i j, i ≠ h.pos → Desc i j → j ≠ h.pos → j < len →
      ordB (isMinLevel i) (geti h.view i) (geti h.view j)) :
    ∀ i j, Desc i j → j < len →
      ordB (isMinLevel i)
        (geti (bubbleUpGpAux f' (h.moveTo (parent h.pos)).pos
          (h.moveTo (parent h.pos))).free i)
        (geti (bubbleUpGpAux f' (h.moveTo (parent h.pos)).pos
          (h.moveTo (parent h.pos))).free j) := by
  have hpalt : parent h.pos < h.pos := parent_lt hppos
  have hv1 : ∀ x, geti (h.moveTo (parent h.pos)).view x =
      if x = h.pos then geti h.view (parent h.pos)
      else if x = parent h.pos then h.elt
      else geti h.view x := by
    intro x
    rw [h.view_moveTo (by omega) (by omega) (by omega),
      geti_swapi (by omega) (by rw [Hole.length_view]; omega)
        (by rw [Hole.length_view]; omega)]
    rcases eq_or_ne x h.pos with rfl | h1
    · rw [if_pos rfl, if_pos rfl]
    · rw [if_neg h1, if_neg h1]
      rcases eq_or_ne x (parent h.pos) with rfl | h2
      · rw [if_pos rfl, if_pos rfl, h.geti_view_pos (by omega)]
      · rw [if_neg h2, if_neg h2]
  apply bubbleUpGpAux_master hf' len (h.moveTo (parent h.pos)).pos
    (h.moveTo (parent h.pos)) (by rw [Hole.length_moveTo, hlen])
    (show parent h.pos < len by omega) (le_refl _)
    (show isMinLevel (parent h.pos) = !mn by
      rw [isMinLevel_parent hppos, hmn])
  · intro i j hig hij hjg hj
    replace hig : i ≠ parent h.pos := hig
    replace hjg : j ≠ parent h.pos := hjg
    rw [hv1 i, hv1 j]
    rcases eq_or_ne i h.pos with rfl | hipos
    · rw [if_pos rfl]
      rcases eq_or_ne j h.pos with rfl | hjpos
      · rw [if_pos rfl]
        exact ordB_refl _ _
      · have := desc_ne_ge_child1 hij hjpos
        omega
    · rw [if_neg hipos, if_neg hig]
      rcases eq_or_ne j h.pos with rfl | hjpos
      · rw [if_pos rfl]
        exact hB1 i (parent h.pos) hipos (hij.parent_of_ne hipos)
          (by omega) (by omega)
      · rw [if_neg hjpos, if_neg hjg]
        exact hB1 i j hipos hij hjpos hj
  · intro j hdj hjpa hj
    replace hdj : Desc (parent h.pos) j := hdj
    replace hjpa : j ≠ parent h.pos := hjpa
    rw [hv1 j]
    rcases eq_or_ne j h.pos with rfl | hjpos
    · rw [if_pos rfl]
      exact sordB_ord hlt
    · rw [if_neg hjpos, if_neg hjpa]
      have h1 := hB1 (parent h.pos) j (by omega) hdj hjpos hj
      rw [isMinLevel_parent hppos, hmn] at h1
      exact sordB_ord (sordB_of_sordB_ordB hlt h1)
  · intro a ha hapa hpar
    replace ha : Desc a (parent h.pos) := ha
    replace hapa : a ≠ parent h.pos := hapa
    have hpar' : isMinLevel a = mn := by
      rw [hpar, Bool.not_not]
    have halt : a < parent h.pos := by
      have h1 := ha.le
      omega
    rw [hv1 a, if_neg (by omega), if_neg hapa, hpar']
    have h1 := hB1 a (parent h.pos) (by omega) ha (by omega) (by omega)
    rw [hpar'] at h1
    have hlt' : sordB mn (geti h.view (parent h.pos)) h.elt :=
      (sordB_not mn _ _).mp hlt
    exact sordB_ord (ordB_sordB_trans h1 hlt')

/-- Bubble-up dispatch, case where the freshly inserted element stays on its
own chain. -/
theorem bubbleUp_stay_case {α : Type u} [Inhabited α] [LinearOrder α]
    {f : α → α → Bool} {mn : Bool} {len : Nat}
    (hf : FMatches f mn) (h : Hole α)
    (hlen : h.data.length = len) (hpos : h.pos < len)
    (hleaf : len ≤ child1 h.pos) (hmn : isMinLevel h.pos = mn)
    (hge : 0 < h.pos → ordB (!mn) (geti h.view (parent h.pos)) h.elt)
    (hB1 : ∀ i j, i ≠ h.pos → Desc i j → j ≠ h.pos → j < len →
      ordB (isMinLevel i) (geti h.view i) (geti h.view j)) :
    ∀ i j, Desc i j → j < len →
      ordB (isMinLevel i) (geti (bubbleUpGpAux f h.pos h).free i)
        (geti (bubbleUpGpAux f h.pos h).free j) := by
  apply bubbleUpGpAux_master hf len h.pos h hlen hpos (le_refl _) hmn hB1
  · intro j hdj hjne hj
    have := desc_ne_ge_child1 hdj hjne
    omega
  · intro a ha hane hpar
    have hppos : 0 < h.pos := by
      have h1 := ha.le
      omega
    have hpa := hge hppos
    rcases eq_or_ne a (parent h.pos) with rfl | hapa
    · rw [hpar]
      exact hpa
    · have h1 := hB1 a (parent h.pos) hane (ha.parent_of_ne hane)
        (by
          have := parent_lt hppos
          omega)
        (by
          have := parent_lt hppos
          omega)
      rw [hpar] at h1 ⊢
      exact ordB_trans h1 hpa

/-- `Hole::bubble_up` restores the full min-max invariant after a leaf
insertion: if every pair not involving the hole is correctly ordered and the
hole sits at a leaf position, the freed storage satisfies the invariant. -/
theorem bubbleUp_master {α : Type u} [Inhabited α] [LinearOrder α]
    {len : Nat} (h : Hole α)
    (hlen : h.data.length = len) (hpos : h.pos < len)
    (hleaf : len ≤ child1 h.pos)
    (hB1 : ∀ i j, i ≠ h.pos → Desc i j → j ≠ h.pos → j < len →
      ordB (isMinLevel i) (geti h.view i) (geti h.view j)) :
    ∀ i j, Desc i j → j < len →
      ordB (isMinLevel i) (geti (bubbleUp h).free i)
        (geti (bubbleUp h).free j) := by
  unfold bubbleUp bubbleUpMin bubbleUpMax
  by_cases hmin : isMinLevel h.pos = true
  · rw [if_pos hmin]
    by_cases hc : (hasParent h.pos &&
        decide (geti h.data (parent h.pos) < h.elt)) = true
    · rw [if_pos hc]
      obtain ⟨hp1, hp2⟩ := Bool.and_eq_true_iff.mp hc
      have hppos : 0 < h.pos := hasParent_iff.mp hp1
      have hraw : geti h.data (parent h.pos) < h.elt := of_decide_eq_true hp2
      have hlt : sordB (!true) h.elt (geti h.view (parent h.pos)) := by
        rw [h.geti_view_ne (by
          have := parent_lt hppos
          omega)]
        exact hraw
      exact bubbleUp_move_case (show FMatches fGT (!true) from fMatches_fGT)
        h hlen hpos hleaf hmin hppos hlt hB1
    · rw [if_neg hc]
      refine bubbleUp_stay_case fMatches_fLT h hlen hpos hleaf hmin ?_ hB1
      intro hppos
      have hp1 : hasParent h.pos = true := hasParent_iff.mpr hppos
      have hp2 : ¬ geti h.data (parent h.pos) < h.elt := by
        intro hh
        exact hc (by
          rw [hp1]
          simpa using hh)
      show h.elt ≤ geti h.view (parent h.pos)
      rw [h.geti_view_ne (by
        have := parent_lt hppos
        omega)]
      exact le_of_not_lt hp2
  · have hmin' : isMinLevel h.pos = false := by
      cases hq : isMinLevel h.pos
      · rfl
      · exact absurd hq hmin
    rw [if_neg (by simp [hmin'])]
    by_cases hc : (hasParent h.pos &&
        decide (h.elt < geti h.data (parent h.pos))) = true
    · rw [if_pos hc]
      obtain ⟨hp1, hp2⟩ := Bool.and_eq_true_iff.mp hc
      have hppos : 0 < h.pos := hasParent_iff.mp hp1
      have hraw : h.elt < geti h.data (parent h.pos) := of_decide_eq_true hp2
      have hlt : sordB (!false) h.elt (geti h.view (parent h.pos)) := by
        rw [h.geti_view_ne (by
          have := parent_lt hppos
          omega)]
        exact hraw
      exact bubbleUp_move_case (show FMatches fLT (!false) from fMatches_fLT)
        h hlen hpos hleaf hmin' hppos hlt hB1
    · rw [if_neg hc]
      refine bubbleUp_stay_case fMatches_fGT h hlen hpos hleaf hmin' ?_ hB1
      intro hppos
      have hp1 : hasParent h.pos = true := hasParent_iff.mpr hppos
      have hp2 : ¬ h.elt < geti h.data (parent h.pos) := by
        intro hh
        exact hc (by
          rw [hp1]
          simpa using hh)
      show geti h.view (parent h.pos) ≤ h.elt
      rw [h.geti_view_ne (by
        have := parent_lt hppos
        omega)]
      exact le_of_not_lt hp2

/-! ## Heap invariant preservation by the public operations -/

theorem heapInv_short {α : Type u} [Inhabited α] [LinearOrder α]
    {l : List α} (h : l.length ≤ 1) : HeapInv l := by
  intro i j hij hj
  have h1 : j = 0 := by omega
  subst h1
  have h2 : i = 0 := by
    have := hij.le
    omega
  subst h2
  exact ordB_refl _ _

theorem heapInv_dropLast {α : Type u} [Inhabited α] [LinearOrder α]
    {l : List α} (h : HeapInv l) : HeapInv l.dropLast := by
  intro i j hij hj
  rw [List.length_dropLast] at hj
  unfold lvOK
  rw [geti_dropLast hj, geti_dropLast (by
    have := hij.le
    omega)]
  exact h i j hij (by omega)

theorem heapInv_root_le {α : Type u} [Inhabited α] [LinearOrder α]
    {l : List α} (hl : HeapInv l) {j : Nat} (hj : j < l.length) :
    geti l 0 ≤ geti l j := by
  have h := hl 0 j (desc_zero j) hj
  unfold lvOK at h
  rw [isMinLevel_zero] at h
  simpa [ordB] using h

theorem findMaxSlice_none {α : Type u} [Inhabited α] [LinearOrder α]
    {l : List α} : findMaxSlice l = none ↔ l = [] := by
  rcases l with _ | ⟨a, _ | ⟨b, _ | ⟨c, t⟩⟩⟩
  · simp [findMaxSlice]
  · simp [findMaxSlice]
  · simp [findMaxSlice]
  · constructor
    · intro h
      have h' : (if c < b then some 1 else some 2) = (none : Option Nat) := h
      split at h' <;> cases h'
    · intro h
      cases h

theorem findMaxSlice_cases {α : Type u} [Inhabited α] [LinearOrder α]
    {l : List α} {m : Nat} (h : findMaxSlice l = some m) :
    (m = 0 ∧ l.length = 1) ∨ (m = 1 ∧ l.length = 2) ∨
      ((m = 1 ∨ m = 2) ∧ 3 ≤ l.length) := by
  rcases l with _ | ⟨a, _ | ⟨b, _ | ⟨c, t⟩⟩⟩
  · exact absurd h (by simp [findMaxSlice])
  · exact Or.inl ⟨(Option.some.inj h).symm, rfl⟩
  · exact Or.inr (Or.inl ⟨(Option.some.inj h).symm, rfl⟩)
  · refine Or.inr (Or.inr ⟨?_, by simp only [List.length_cons]; omega⟩)
    have h' : (if c < b then some 1 else some 2) = some m := h
    split at h'
    · exact Or.inl (Option.some.inj h').symm
    · exact Or.inr (Option.some.inj h').symm

theorem trickleMin_zero_inv {α : Type u} [Inhabited α] [LinearOrder α]
    {l : List α} (hl : 0 < l.length)
    (hK : ∀ i j, i ≠ 0 → Desc i j → j < l.length → lvOK l i j) :
    HeapInv (trickleDownMin l 0) ∧ (trickleDownMin l 0).length = l.length ∧
      (trickleDownMin l 0).Perm l := by
  have hgoal : trickleDownMin l 0 =
      (trickleAux fLT l.length l.length (Hole.mk' l 0)).free := rfl
  obtain ⟨h1, h2, h3, h4, h5⟩ := trickleDownBest_spec fMatches_fLT hl
    isMinLevel_zero (fun i j _ hi hij hj => hK i j hi hij hj)
  rw [hgoal]
  refine ⟨?_, h1, h2⟩
  intro i j hij hj
  rw [h1] at hj
  exact h5 i j (desc_zero i) hij hj

theorem trickleMax_hole_inv {α : Type u} [Inhabited α] [LinearOrder α]
    {h : Hole α} {m len : Nat} (hm : m = 1 ∨ m = 2)
    (hpos : h.pos = m) (hlen : h.data.length = len) (hmlt : m < len)
    (hK : ∀ i j, i ≠ m → Desc i j → j ≠ m → j < len →
      ordB (isMinLevel i) (geti h.view i) (geti h.view j))
    (hroot : ∀ j, j < len → geti h.view 0 ≤ geti h.view j) :
    HeapInv (trickleAux fGT len len h).free ∧
      (trickleAux fGT len len h).free.length = len ∧
      (trickleAux fGT len len h).free.Perm h.view := by
  have hm1 : 0 < m := by rcases hm with rfl | rfl <;> omega
  have hm2 : m ≤ 2 := by rcases hm with rfl | rfl <;> omega
  have hmn : isMinLevel h.pos = false := by
    rw [hpos]
    rcases hm with rfl | rfl <;> decide
  obtain ⟨c1, c2, c3, c4, c5⟩ := trickleAux_master fMatches_fGT m len len h
    hlen (by omega) (by omega) (hpos ▸ Desc.refl m) hmn
    (by
      intro i j hdi hih hij hj
      replace hih : i ≠ m := by rw [hpos] at hih; exact hih
      have him : m < i := lt_of_le_of_ne hdi.le (Ne.symm hih)
      have hjm : j ≠ m := by
        have := hij.le
        omega
      exact hK i j hih hij hjm hj)
    (by
      intro a h1 h2 h3
      rw [hpos] at h2 h3
      exact absurd (h1.antisymm h2) (Ne.symm h3))
  refine ⟨?_, c1, c2⟩
  intro i j hij hj
  rw [c1] at hj
  unfold lvOK
  by_cases hdj : Desc m j
  · by_cases hdi : Desc m i
    · exact c5 i j hdi hij hj
    · have him : i = 0 := by
        rcases desc_linear hij hdj with h1 | h1
        · rcases desc_le_two h1 hm2 with rfl | rfl
          · exact absurd (Desc.refl i) hdi
          · rfl
        · exact absurd h1 hdi
      subst him
      obtain ⟨j₀, hj₀d, hj₀lt, hj₀⟩ := c4 j hdj hj
      have h0 : ¬ Desc m 0 := fun hh => by
        have := hh.le
        omega
      rw [c3 0 h0, hj₀, isMinLevel_zero]
      show geti h.view 0 ≤ geti h.view j₀
      exact hroot j₀ hj₀lt
  · have hdi : ¬ Desc m i := fun hh => hdj (hh.trans hij)
    rw [c3 i hdi, c3 j hdj]
    exact hK i j
      (by
        rintro rfl
        exact hdi (Desc.refl i))
      hij
      (by
        rintro rfl
        exact hdj (Desc.refl j))
      hj

theorem set_root_trickle_inv {α : Type u} [Inhabited α] [LinearOrder α]
    {l : List α} (hl : HeapInv l) (h0 : 0 < l.length) (x : α) :
    HeapInv (trickleDownMin (l.set 0 x) 0) := by
  refine (trickleMin_zero_inv (by rw [List.length_set]; omega) ?_).1
  intro i j hi hij hj
  rw [List.length_set] at hj
  have hi' : 0 < i := Nat.pos_of_ne_zero hi
  have hij' := hij.le
  unfold lvOK
  rw [geti_set_ne _ (by omega), geti_set_ne _ (by omega)]
  exact hl i j hij hj

theorem push_inv {α : Type u} [Inhabited α] [LinearOrder α]
    {l : List α} (hl : HeapInv l) (x : α) : HeapInv (push l x) := by
  have hdl : (Hole.mk' (l ++ [x]) l.length).data.length = l.length + 1 := by
    simp [Hole.mk']
  intro i j hij hj
  have hlen : (push l x).length = l.length + 1 := by
    unfold push
    rw [(bubbleUp_perm (Hole.mk' (l ++ [x]) l.length) (by
      show l.length < (Hole.mk' (l ++ [x]) l.length).data.length
      rw [hdl]
      omega)).2, hdl]
  rw [hlen] at hj
  unfold lvOK push
  refine bubbleUp_master (Hole.mk' (l ++ [x]) l.length) hdl
    (by
      show l.length < l.length + 1
      omega)
    (by
      show l.length + 1 ≤ child1 l.length
      unfold child1
      omega)
    ?_ i j hij hj
  intro a b ha hab hb hblt
  replace ha : a ≠ l.length := ha
  replace hb : b ≠ l.length := hb
  rw [Hole.view_mk']
  have hb' : b < l.length := by omega
  have ha' : a < l.length := by
    have := hab.le
    omega
  rw [geti_append l x a, if_neg ha, geti_append l x b, if_neg hb]
  exact hl a b hab hb'

theorem popMin_inv {α : Type u} [Inhabited α] [LinearOrder α]
    {l : List α} (hl : HeapInv l) : HeapInv (popMin l).2 := by
  by_cases h0 : l.length = 0
  · have hrw : (popMin l).2 = l := by simp [popMin, h0]
    rw [hrw]
    exact hl
  · by_cases h1 : l.dropLast.length = 0
    · have hrw : (popMin l).2 = l.dropLast := by simp [popMin, h0, h1]
      rw [hrw]
      exact heapInv_short (by omega)
    · have h1' : ¬ l.length - 1 = 0 := by rwa [List.length_dropLast] at h1
      have hrw : (popMin l).2 =
          trickleDownMin (l.dropLast.set 0 (geti l (l.length - 1))) 0 := by
        simp [popMin, h0, h1']
      rw [hrw]
      exact set_root_trickle_inv (heapInv_dropLast hl)
        (Nat.pos_of_ne_zero h1) _

theorem replaceMin_inv {α : Type u} [Inhabited α] [LinearOrder α]
    {l : List α} (hl : HeapInv l) (x : α) : HeapInv (replaceMin l x).2 := by
  by_cases h0 : l.length = 0
  · have hrw : (replaceMin l x).2 = l ++ [x] := by simp [replaceMin, h0]
    rw [hrw]
    exact heapInv_short (by simp [h0])
  · have hrw : (replaceMin l x).2 = trickleDownMin (l.set 0 x) 0 := by
      simp [replaceMin, h0]
    rw [hrw]
    exact set_root_trickle_inv hl (Nat.pos_of_ne_zero h0) x

theorem pushPopMin_inv {α : Type u} [Inhabited α] [LinearOrder α]
    {l : List α} (hl : HeapInv l) (x : α) : HeapInv (pushPopMin l x).2 := by
  by_cases h0 : l.length = 0
  · have hrw : (pushPopMin l x).2 = l := by simp [pushPopMin, h0]
    rw [hrw]
    exact hl
  · by_cases h1 : geti l 0 < x
    · have hrw : (pushPopMin l x).2 = trickleDownMin (l.set 0 x) 0 := by
        simp [pushPopMin, h0, h1]
      rw [hrw]
      exact set_root_trickle_inv hl (Nat.pos_of_ne_zero h0) x
    · have hrw : (pushPopMin l x).2 = l := by simp [pushPopMin, h0, h1]
      rw [hrw]
      exact hl

theorem popMax_inv {α : Type u} [Inhabited α] [LinearOrder α]
    {l : List α} (hl : HeapInv l) : HeapInv (popMax l).2 := by
  rcases hfm : findMaxSlice l with _ | m
  · have hrw : (popMax l).2 = l := by simp [popMax, hfm]
    rw [hrw]
    exact hl
  · by_cases hmr : m < l.dropLast.length
    · have hmr' : m < l.length - 1 := by rwa [List.length_dropLast] at hmr
      have hrw : (popMax l).2 =
          trickleDownMax (l.dropLast.set m (geti l (l.length - 1))) m := by
        simp [popMax, hfm, hmr']
      rw [hrw]
      have hc := findMaxSlice_cases hfm
      have hm : m = 1 ∨ m = 2 := by
        rcases hc with ⟨rfl, hlen1⟩ | ⟨rfl, hlen1⟩ | ⟨hm12, _⟩
        · omega
        · omega
        · exact hm12
      have hm1 : 0 < m := by rcases hm with rfl | rfl <;> omega
      have hgoal : trickleDownMax (l.dropLast.set m (geti l (l.length - 1))) m =
          (trickleAux fGT (l.length - 1) (l.length - 1)
            (Hole.mk' (l.dropLast.set m (geti l (l.length - 1))) m)).free := by
        unfold trickleDownMax trickleDownBest
        have hdl : (Hole.mk' (l.dropLast.set m (geti l (l.length - 1)))
            m).data.length = l.length - 1 := by
          simp [Hole.mk']
        rw [hdl]
      rw [hgoal]
      refine (trickleMax_hole_inv hm rfl (by simp [Hole.mk']) hmr' ?_ ?_).1
      · intro i j hi hij hj hjlt
        rw [Hole.view_mk']
        have hij' := hij.le
        rw [geti_set_ne _ (Ne.symm hi), geti_set_ne _ (Ne.symm hj),
          geti_dropLast (by omega), geti_dropLast (by omega)]
        exact hl i j hij (by omega)
      · intro j hjlt
        rw [Hole.view_mk']
        rw [geti_set_ne _ (by omega), geti_dropLast (by omega)]
        rcases eq_or_ne j m with rfl | hjm
        · rw [geti_set_self _ (by rw [List.length_dropLast]; omega)]
          exact heapInv_root_le hl (by omega)
        · rw [geti_set_ne _ (Ne.symm hjm), geti_dropLast (by omega)]
          exact heapInv_root_le hl (by omega)
    · have hmr' : ¬ m < l.length - 1 := by rwa [List.length_dropLast] at hmr
      have hrw : (popMax l).2 = l.dropLast := by simp [popMax, hfm, hmr']
      rw [hrw]
      exact heapInv_dropLast hl

theorem trickleAux_len_one {α : Type u} [Inhabited α] (f : α → α → Bool)
    (fuel : Nat) (h : Hole α) (hp : h.pos = 0) :
    trickleAux f 1 fuel h = h := by
  cases fuel with
  | zero => rfl
  | succ fuel =>
    have hbest : indexOfBest f h.data 1 h.pos h.elt = (h.pos, Gen.Same) := by
      rw [hp]
      simp [indexOfBest, candList, scanCands, chk, child1, child2,
        grandchild1, grandchild2, grandchild3, grandchild4]
    rw [trickleAux, hbest]

theorem peekMaxMutDrop_inv {α : Type u} [Inhabited α] [LinearOrder α]
    {L : List α} {m : Nat}
    (hm : m < L.length) (hm0 : m = 0 → L.length = 1) (hm2 : m ≤ 2)
    (hK : ∀ i j, i ≠ m → Desc i j → j ≠ m → j < L.length → lvOK L i j)
    (hroot : ∀ j, j < L.length → j ≠ m → geti L 0 ≤ geti L j) :
    HeapInv (peekMaxMutDrop L m) ∧ (peekMaxMutDrop L m).length = L.length ∧
      (peekMaxMutDrop L m).Perm L := by
  rcases Nat.eq_zero_or_pos m with rfl | hmpos
  · have hL1 : L.length = 1 := hm0 rfl
    have hrw : peekMaxMutDrop L 0 =
        (trickleAux fGT L.length L.length
          (if (hasParent 0 &&
              decide (geti L 0 < geti L (parent 0))) = true then
            (Hole.mk' L 0).swapWithParent
          else Hole.mk' L 0)).free := rfl
    rw [hrw, if_neg (by simp [hasParent]), hL1,
      trickleAux_len_one fGT 1 (Hole.mk' L 0) rfl]
    have hfree : (Hole.mk' L 0).free = L := by
      show L.set 0 (geti L 0) = L
      exact set_geti_self L 0
    rw [hfree]
    exact ⟨heapInv_short (by omega), hL1, List.Perm.refl L⟩
  · have hm12 : m = 1 ∨ m = 2 := by omega
    have hpar0 : parent m = 0 := by rcases hm12 with rfl | rfl <;> rfl
    have hL2 : 2 ≤ L.length := by omega
    have hrw : peekMaxMutDrop L m =
        (trickleAux fGT L.length L.length
          (if (hasParent m &&
              decide (geti L m < geti L (parent m))) = true then
            (Hole.mk' L m).swapWithParent
          else Hole.mk' L m)).free := rfl
    by_cases hclt : geti L m < geti L 0
    · have hcond : (hasParent m &&
          decide (geti L m < geti L (parent m))) = true := by
        rw [hpar0, hasParent_iff.mpr hmpos, Bool.true_and]
        exact decide_eq_true hclt
      rw [hrw, if_pos hcond]
      have hview : ((Hole.mk' L m).swapWithParent).view = swapi L 0 m := by
        show (L.set (parent m) (geti L m)).set m (geti L (parent m)) =
          swapi L 0 m
        rw [hpar0]
        rfl
      have hv : ∀ k, geti ((Hole.mk' L m).swapWithParent).view k =
          if k = 0 then geti L m else if k = m then geti L 0
          else geti L k := by
        intro k
        rw [hview]
        exact geti_swapi (by omega) (by omega) hm k
      have hge : ∀ j, j < L.length → geti L m ≤ geti L j := by
        intro j hj
        rcases eq_or_ne j m with rfl | hjm
        · exact le_refl _
        · exact le_of_lt (lt_of_lt_of_le hclt (hroot j hj hjm))
      obtain ⟨c1, c2, c3⟩ := trickleMax_hole_inv hm12 rfl
        (show ((Hole.mk' L m).swapWithParent).data.length = L.length by
          simp [Hole.swapWithParent, Hole.mk'])
        hm
        (by
          intro i j hi hij hj hjlt
          rw [hv i, hv j]
          rcases eq_or_ne i 0 with rfl | hi0
          · rw [if_pos rfl, isMinLevel_zero]
            rcases eq_or_ne j 0 with rfl | hj0
            · rw [if_pos rfl]
              show geti L m ≤ geti L m
              exact le_refl _
            · rw [if_neg hj0, if_neg hj]
              show geti L m ≤ geti L j
              exact hge j hjlt
          · have hj0 : j ≠ 0 := by
              have := hij.le
              omega
            rw [if_neg hi0, if_neg hi, if_neg hj0, if_neg hj]
            exact hK i j hi hij hj hjlt)
        (by
          intro j hjlt
          rw [hv 0, hv j, if_pos rfl]
          rcases eq_or_ne j 0 with rfl | hj0
          · rw [if_pos rfl]
          · rw [if_neg hj0]
            rcases eq_or_ne j m with rfl | hjm
            · rw [if_pos rfl]
              exact le_of_lt hclt
            · rw [if_neg hjm]
              exact hge j hjlt)
      refine ⟨c1, c2, ?_⟩
      rw [hview] at c3
      exact c3.trans (swapi_perm (by omega) (by omega) hm)
    · have hcond : ¬ (hasParent m &&
          decide (geti L m < geti L (parent m))) = true := by
        rw [hpar0]
        simp [hclt]
      rw [hrw, if_neg hcond]
      have hview : (Hole.mk' L m).view = L := Hole.view_mk' L m
      obtain ⟨c1, c2, c3⟩ := trickleMax_hole_inv hm12 rfl
        (show (Hole.mk' L m).data.length = L.length from rfl) hm
        (by
          intro i j hi hij hj hjlt
          rw [hview]
          exact hK i j hi hij hj hjlt)
        (by
          intro j hjlt
          rw [hview]
          rcases eq_or_ne j m with rfl | hjm
          · exact le_of_not_lt hclt
          · exact hroot j hjlt hjm)
      refine ⟨c1, c2, ?_⟩
      rw [hview] at c3
      exact c3

theorem peekMaxMutDrop_set_inv {α : Type u} [Inhabited α] [LinearOrder α]
    {l : List α} {m : Nat} (hl : HeapInv l) (hfm : findMaxSlice l = some m)
    (x : α) :
    HeapInv (peekMaxMutDrop (l.set m x) m) ∧
      (peekMaxMutDrop (l.set m x) m).length = l.length ∧
      (peekMaxMutDrop (l.set m x) m).Perm (l.set m x) := by
  have hc := findMaxSlice_cases hfm
  have hmlt : m < l.length := by
    rcases hc with ⟨rfl, h⟩ | ⟨rfl, h⟩ | ⟨h12, h3⟩
    · omega
    · omega
    · rcases h12 with rfl | rfl <;> omega
  have hm2 : m ≤ 2 := by
    rcases hc with ⟨rfl, h⟩ | ⟨rfl, h⟩ | ⟨h12, h3⟩
    · omega
    · omega
    · rcases h12 with rfl | rfl <;> omega
  have hm0 : m = 0 → l.length = 1 := by
    intro h0
    rcases hc with ⟨_, h⟩ | ⟨hm1, _⟩ | ⟨h12, _⟩
    · exact h
    · omega
    · rcases h12 with rfl | rfl <;> omega
  have h := peekMaxMutDrop_inv
    (show m < (l.set m x).length by rw [List.length_set]; exact hmlt)
    (by
      intro h0
      rw [List.length_set]
      exact hm0 h0)
    hm2
    (by
      intro i j hi hij hj hjlt
      rw [List.length_set] at hjlt
      unfold lvOK
      rw [geti_set_ne _ (Ne.symm hi), geti_set_ne _ (Ne.symm hj)]
      exact hl i j hij hjlt)
    (by
      intro j hjlt hjm
      rw [List.length_set] at hjlt
      have hm0' : m ≠ 0 := by
        intro h0
        have := hm0 h0
        omega
      rw [geti_set_ne _ hm0', geti_set_ne _ (Ne.symm hjm)]
      exact heapInv_root_le hl hjlt)
  refine ⟨h.1, ?_, h.2.2⟩
  rw [h.2.1, List.length_set]

theorem pushPopMax_inv {α : Type u} [Inhabited α] [LinearOrder α]
    {l : List α} (hl : HeapInv l) (x : α) : HeapInv (pushPopMax l x).2 := by
  rcases hfm : findMaxSlice l with _ | m
  · have hrw : (pushPopMax l x).2 = l := by simp [pushPopMax, hfm]
    rw [hrw]
    exact hl
  · by_cases hx : x < geti l m
    · have hrw : (pushPopMax l x).2 = peekMaxMutDrop (l.set m x) m := by
        simp [pushPopMax, hfm, hx]
      rw [hrw]
      exact (peekMaxMutDrop_set_inv hl hfm x).1
    · have hrw : (pushPopMax l x).2 = l := by simp [pushPopMax, hfm, hx]
      rw [hrw]
      exact hl

theorem replaceMax_inv {α : Type u} [Inhabited α] [LinearOrder α]
    {l : List α} (hl : HeapInv l) (x : α) : HeapInv (replaceMax l x).2 := by
  rcases hfm : findMaxSlice l with _ | m
  · have hrw : (replaceMax l x).2 = l ++ [x] := by simp [replaceMax, hfm]
    rw [hrw]
    have hnil : l = [] := findMaxSlice_none.mp hfm
    subst hnil
    exact heapInv_short (by simp)
  · by_cases hpre : 1 < l.length ∧ x < geti l 0
    · have hrw : (replaceMax l x).2 =
          peekMaxMutDrop ((l.set 0 x).set m (geti l 0)) m := by
        simp [replaceMax, hfm, hpre]
      rw [hrw]
      have hc := findMaxSlice_cases hfm
      have hm12 : m = 1 ∨ m = 2 := by
        rcases hc with ⟨rfl, h⟩ | ⟨rfl, _⟩ | ⟨h12, _⟩
        · omega
        · exact Or.inl rfl
        · exact h12
      have hm1 : 0 < m := by rcases hm12 with rfl | rfl <;> omega
      have hmlt : m < l.length := by
        rcases hc with ⟨rfl, h⟩ | ⟨rfl, h⟩ | ⟨h12, h3⟩
        · omega
        · omega
        · rcases h12 with rfl | rfl <;> omega
      have hLlen : ((l.set 0 x).set m (geti l 0)).length = l.length := by
        simp
      have hv : ∀ k, k ≠ 0 → k ≠ m →
          geti ((l.set 0 x).set m (geti l 0)) k = geti l k := by
        intro k hk0 hkm
        rw [geti_set_ne _ (Ne.symm hkm), geti_set_ne _ (Ne.symm hk0)]
      have hv0 : geti ((l.set 0 x).set m (geti l 0)) 0 = x := by
        rw [geti_set_ne _ (by omega), geti_set_self _ (by omega)]
      have hxle : ∀ j, j < l.length → x ≤ geti l j := by
        intro j hj
        exact le_of_lt (lt_of_lt_of_le hpre.2 (heapInv_root_le hl hj))
      refine (peekMaxMutDrop_inv (by rw [hLlen]; exact hmlt)
        (by omega) (by omega) ?_ ?_).1
      · intro i j hi hij hj hjlt
        rw [hLlen] at hjlt
        unfold lvOK
        rcases eq_or_ne i 0 with rfl | hi0
        · rw [isMinLevel_zero, hv0]
          rcases eq_or_ne j 0 with rfl | hj0
          · rw [hv0]
            show x ≤ x
            exact le_refl x
          · rw [hv j hj0 hj]
            show x ≤ geti l j
            exact hxle j hjlt
        · have hj0 : j ≠ 0 := by
            have := hij.le
            omega
          rw [hv i hi0 hi, hv j hj0 hj]
          exact hl i j hij hjlt
      · intro j hjlt hjm
        rw [hLlen] at hjlt
        rw [hv0]
        rcases eq_or_ne j 0 with rfl | hj0
        · rw [hv0]
        · rw [hv j hj0 hjm]
          exact hxle j hjlt
    · have hrw : (replaceMax l x).2 = peekMaxMutDrop (l.set m x) m := by
        simp [replaceMax, hfm, hpre]
      rw [hrw]
      exact (peekMaxMutDrop_set_inv hl hfm x).1

theorem trickleDown_spec {α : Type u} [Inhabited α] [LinearOrder α]
    {l : List α} {p : Nat} (hp : p < l.length)
    (hK : ∀ i j, Desc p i → i ≠ p → Desc i j → j < l.length → lvOK l i j) :
    (trickleDown l p).length = l.length ∧
    (trickleDown l p).Perm l ∧
    (∀ j, ¬ Desc p j → geti (trickleDown l p) j = geti l j) ∧
    (∀ i j, Desc p i → Desc i j → j < l.length →
      ordB (isMinLevel i) (geti (trickleDown l p) i)
        (geti (trickleDown l p) j)) := by
  unfold trickleDown
  by_cases hmn : isMinLevel p = true
  · rw [if_pos hmn]
    have hgoal : trickleDownMin l p =
        (trickleAux fLT l.length l.length (Hole.mk' l p)).free := rfl
    rw [hgoal]
    obtain ⟨h1, h2, h3, h4, h5⟩ := trickleDownBest_spec fMatches_fLT hp hmn
      (fun i j hd hi hij hj => hK i j hd hi hij hj)
    exact ⟨h1, h2, h3, h5⟩
  · have hmn' : isMinLevel p = false := by
      cases hq : isMinLevel p
      · rfl
      · exact absurd hq hmn
    rw [if_neg hmn]
    have hgoal : trickleDownMax l p =
        (trickleAux fGT l.length l.length (Hole.mk' l p)).free := rfl
    rw [hgoal]
    obtain ⟨h1, h2, h3, h4, h5⟩ := trickleDownBest_spec fMatches_fGT hp hmn'
      (fun i j hd hi hij hj => hK i j hd hi hij hj)
    exact ⟨h1, h2, h3, h5⟩

theorem rebuildAux_inv {α : Type u} [Inhabited α] [LinearOrder α] :
    ∀ (k : Nat) (l : List α), k ≤ l.length →
    (∀ i j, k ≤ i → Desc i j → j < l.length → lvOK l i j) →
    (rebuildAux l k).length = l.length ∧ (rebuildAux l k).Perm l ∧
      HeapInv (rebuildAux l k) := by
  intro k
  induction k with
  | zero =>
    intro l hk hInv
    refine ⟨rfl, List.Perm.refl l, ?_⟩
    intro i j hij hj
    exact hInv i j (Nat.zero_le i) hij hj
  | succ k ih =>
    intro l hk hInv
    show (rebuildAux (trickleDown l k) k).length = l.length ∧
      (rebuildAux (trickleDown l k) k).Perm l ∧
      HeapInv (rebuildAux (trickleDown l k) k)
    obtain ⟨t1, t2, t3, t4⟩ := trickleDown_spec
      (show k < l.length by omega)
      (fun i j hd hi hij hj => hInv i j (by
        have h := hd.le
        omega) hij hj)
    obtain ⟨r1, r2, r3⟩ := ih (trickleDown l k) (by rw [t1]; omega)
      (by
        intro i j hki hij hj
        rw [t1] at hj
        by_cases hdi : Desc k i
        · exact t4 i j hdi hij hj
        · have hdj : ¬ Desc k j := by
            intro hdj
            rcases desc_linear hij hdj with h1 | h1
            · have h2 := h1.le
              have h3 : i = k := by omega
              subst h3
              exact hdi (Desc.refl i)
            · exact hdi h1
          unfold lvOK
          rw [t3 i hdi, t3 j hdj]
          have hki' : k + 1 ≤ i := by
            rcases Nat.eq_or_lt_of_le hki with h1 | h1
            · exact absurd (h1 ▸ Desc.refl k) hdi
            · omega
          exact hInv i j hki' hij hj)
    exact ⟨by rw [r1, t1], r2.trans t2, r3⟩

theorem fromVec_inv {α : Type u} [Inhabited α] [LinearOrder α] (l : List α) :
    HeapInv (fromVec l) ∧ (fromVec l).length = l.length ∧
      (fromVec l).Perm l := by
  obtain ⟨h1, h2, h3⟩ := rebuildAux_inv (l.length / 2) l (by omega)
    (by
      intro i j hki hij hj
      rcases eq_or_ne j i with rfl | hne
      · exact ordB_refl _ _
      · have hge := desc_ne_ge_child1 hij hne
        unfold child1 at hge
        omega)
  exact ⟨h3, h1, h2⟩

/-- Every heap contents reachable through the public API satisfies the
min-max invariant. -/
theorem reachable_heapInv {α : Type u} [Inhabited α] [LinearOrder α]
    {l : List α} (h : Reachable l) : HeapInv l := by
  induction h with
  | empty => exact heapInv_short (by simp)
  | fromVec v => exact (fromVec_inv v).1
  | push x _ ih => exact push_inv ih x
  | popMin _ ih => exact popMin_inv ih
  | popMax _ ih => exact popMax_inv ih
  | pushPopMin x _ ih => exact pushPopMin_inv ih x
  | pushPopMax x _ ih => exact pushPopMax_inv ih x
  | replaceMin x _ ih => exact replaceMin_inv ih x
  | replaceMax x _ ih => exact replaceMax_inv ih x

/-! ## Content (multiset) effect of the public operations -/

theorem push_perm {α : Type u} [Inhabited α] [LinearOrder α] (l : List α)
    (x : α) : (push l x).Perm (l ++ [x]) ∧
      (push l x).length = l.length + 1 := by
  unfold push
  have h := bubbleUp_perm (Hole.mk' (l ++ [x]) l.length)
    (by
      show l.length < (Hole.mk' (l ++ [x]) l.length).data.length
      simp [Hole.mk'])
  rw [Hole.view_mk'] at h
  refine ⟨h.1, ?_⟩
  rw [h.2]
  simp [Hole.mk']

theorem trickleDownMin_perm {α : Type u} [Inhabited α] [LinearOrder α]
    (l : List α) (p : Nat) (hp : p < l.length) :
    (trickleDownMin l p).Perm l ∧ (trickleDownMin l p).length = l.length := by
  have hgoal : trickleDownMin l p =
      (trickleAux fLT l.length l.length (Hole.mk' l p)).free := rfl
  rw [hgoal]
  have h := trickleAux_perm fMatches_fLT l.length l.length (Hole.mk' l p)
    hp (le_refl l.length)
  rw [Hole.view_mk'] at h
  exact h

theorem trickleDownMax_perm {α : Type u} [Inhabited α] [LinearOrder α]
    (l : List α) (p : Nat) (hp : p < l.length) :
    (trickleDownMax l p).Perm l ∧ (trickleDownMax l p).length = l.length := by
  have hgoal : trickleDownMax l p =
      (trickleAux fGT l.length l.length (Hole.mk' l p)).free := rfl
  rw [hgoal]
  have h := trickleAux_perm fMatches_fGT l.length l.length (Hole.mk' l p)
    hp (le_refl l.length)
  rw [Hole.view_mk'] at h
  exact h

theorem trickleDown_perm {α : Type u} [Inhabited α] [LinearOrder α]
    (l : List α) (p : Nat) (hp : p < l.length) :
    (trickleDown l p).Perm l ∧ (trickleDown l p).length = l.length := by
  unfold trickleDown
  by_cases hmn : isMinLevel p = true
  · rw [if_pos hmn]
    exact trickleDownMin_perm l p hp
  · rw [if_neg hmn]
    exact trickleDownMax_perm l p hp

theorem popMin_val {α : Type u} [Inhabited α] [LinearOrder α] {l : List α}
    (hne : l ≠ []) : (popMin l).1 = some (geti l 0) := by
  have h0 : ¬ l.length = 0 := fun h => hne (List.length_eq_zero.mp h)
  by_cases h1 : l.length - 1 = 0
  · have hrw : (popMin l).1 = some (geti l (l.length - 1)) := by
      simp [popMin, h0, h1]
    rw [hrw, h1]
  · have hrw : (popMin l).1 = some (geti l.dropLast 0) := by
      simp [popMin, h0, h1]
    rw [hrw, geti_dropLast (by omega)]

theorem popMin_perm {α : Type u} [Inhabited α] [LinearOrder α] {l : List α}
    (hne : l ≠ []) :
    (geti l 0 :: (popMin l).2).Perm l ∧
      (popMin l).2.length = l.length - 1 := by
  have h0 : ¬ l.length = 0 := fun h => hne (List.length_eq_zero.mp h)
  by_cases h1 : l.length - 1 = 0
  · have hrw : (popMin l).2 = l.dropLast := by simp [popMin, h0, h1]
    rw [hrw]
    have h4 : l.dropLast = [] := by
      rw [← List.length_eq_zero, List.length_dropLast]
      exact h1
    have h2 := dropLast_append_geti hne
    rw [h1, h4] at h2
    refine ⟨?_, by rw [List.length_dropLast]⟩
    rw [h4]
    simp at h2
    rw [h2]
  · have hrw : (popMin l).2 =
        trickleDownMin (l.dropLast.set 0 (geti l (l.length - 1))) 0 := by
      simp [popMin, h0, h1]
    rw [hrw]
    have hlen' : (l.dropLast.set 0 (geti l (l.length - 1))).length =
        l.length - 1 := by simp
    obtain ⟨hperm, hlen⟩ := trickleDownMin_perm
      (l.dropLast.set 0 (geti l (l.length - 1))) 0 (by rw [hlen']; omega)
    refine ⟨?_, by rw [hlen, hlen']⟩
    refine (hperm.cons (geti l 0)).trans ?_
    have hp1 := (List.perm_append_singleton (geti l 0)
      (l.dropLast.set 0 (geti l (l.length - 1)))).symm
    have hp2 := set_append_perm (geti l (l.length - 1))
      (show 0 < l.dropLast.length by rw [List.length_dropLast]; omega)
    rw [geti_dropLast (by omega)] at hp2
    have hp3 := dropLast_append_geti hne
    rw [hp3] at hp2
    exact hp1.trans hp2

theorem popMax_val {α : Type u} [Inhabited α] [LinearOrder α] {l : List α}
    {m : Nat} (hfm : findMaxSlice l = some m) :
    (popMax l).1 = some (geti l m) := by
  have hc := findMaxSlice_cases hfm
  have hmlt : m < l.length := by
    rcases hc with ⟨rfl, h⟩ | ⟨rfl, h⟩ | ⟨h12, h3⟩
    · omega
    · omega
    · rcases h12 with rfl | rfl <;> omega
  by_cases hmr : m < l.length - 1
  · have hrw : (popMax l).1 = some (geti l.dropLast m) := by
      simp [popMax, hfm, hmr]
    rw [hrw, geti_dropLast hmr]
  · have hrw : (popMax l).1 = some (geti l (l.length - 1)) := by
      simp [popMax, hfm, hmr]
    rw [hrw]
    have hm' : l.length - 1 = m := by omega
    rw [hm']

theorem popMax_perm {α : Type u} [Inhabited α] [LinearOrder α] {l : List α}
    {m : Nat} (hfm : findMaxSlice l = some m) :
    (geti l m :: (popMax l).2).Perm l ∧
      (popMax l).2.length = l.length - 1 := by
  have hc := findMaxSlice_cases hfm
  have hmlt : m < l.length := by
    rcases hc with ⟨rfl, h⟩ | ⟨rfl, h⟩ | ⟨h12, h3⟩
    · omega
    · omega
    · rcases h12 with rfl | rfl <;> omega
  have hne : l ≠ [] := by
    intro h
    subst h
    simp at hmlt
  by_cases hmr : m < l.length - 1
  · have hrw : (popMax l).2 =
        trickleDownMax (l.dropLast.set m (geti l (l.length - 1))) m := by
      simp [popMax, hfm, hmr]
    rw [hrw]
    have hlen' : (l.dropLast.set m (geti l (l.length - 1))).length =
        l.length - 1 := by simp
    obtain ⟨hperm, hlen⟩ := trickleDownMax_perm
      (l.dropLast.set m (geti l (l.length - 1))) m (by rw [hlen']; exact hmr)
    refine ⟨?_, by rw [hlen, hlen']⟩
    refine (hperm.cons (geti l m)).trans ?_
    have hp1 := (List.perm_append_singleton (geti l m)
      (l.dropLast.set m (geti l (l.length - 1)))).symm
    have hp2 := set_append_perm (geti l (l.length - 1))
      (show m < l.dropLast.length by rw [List.length_dropLast]; exact hmr)
    rw [geti_dropLast hmr] at hp2
    have hp3 := dropLast_append_geti hne
    rw [hp3] at hp2
    exact hp1.trans hp2
  · have hm' : m = l.length - 1 := by omega
    have hrw : (popMax l).2 = l.dropLast := by simp [popMax, hfm, hmr]
    rw [hrw]
    refine ⟨?_, by rw [List.length_dropLast]⟩
    have hp3 := dropLast_append_geti hne
    rw [hm']
    have hp4 := (List.perm_append_singleton (geti l (l.length - 1))
      l.dropLast).symm
    rw [hp3] at hp4
    exact hp4

theorem findMaxSlice_ge_sibling {α : Type u} [Inhabited α] [LinearOrder α]
    {l : List α} {m : Nat} (hfm : findMaxSlice l = some m)
    (h3 : 3 ≤ l.length) :
    (m = 1 ∧ geti l 2 < geti l 1) ∨ (m = 2 ∧ geti l 1 ≤ geti l 2) := by
  rcases l with _ | ⟨a, _ | ⟨b, _ | ⟨c, t⟩⟩⟩
  · simp at h3
  · simp at h3
  · simp at h3
  · have h' : (if c < b then some 1 else some 2) = some m := hfm
    have hb : geti (a :: b :: c :: t) 1 = b := rfl
    have hcv : geti (a :: b :: c :: t) 2 = c := rfl
    split at h'
    · exact Or.inl ⟨(Option.some.inj h').symm, by rw [hb, hcv]; assumption⟩
    · exact Or.inr ⟨(Option.some.inj h').symm, by
        rw [hb, hcv]
        exact le_of_not_lt (by assumption)⟩

theorem findMaxSlice_is_max {α : Type u} [Inhabited α] [LinearOrder α]
    {l : List α} {m : Nat} (hl : HeapInv l) (hfm : findMaxSlice l = some m) :
    m < l.length ∧ ∀ j, j < l.length → geti l j ≤ geti l m := by
  have hc := findMaxSlice_cases hfm
  have hmlt : m < l.length := by
    rcases hc with ⟨rfl, h⟩ | ⟨rfl, h⟩ | ⟨h12, h3⟩
    · omega
    · omega
    · rcases h12 with rfl | rfl <;> omega
  refine ⟨hmlt, ?_⟩
  intro j hj
  have hsub : ∀ k, k = 1 ∨ k = 2 → k < l.length → Desc k j → j < l.length →
      geti l j ≤ geti l k := by
    intro k hk hklt hdk hjlt
    have h := hl k j hdk hjlt
    unfold lvOK at h
    have hlv : isMinLevel k = false := by rcases hk with rfl | rfl <;> decide
    rw [hlv] at h
    simpa [ordB] using h
  rcases hc with ⟨rfl, hlen1⟩ | ⟨rfl, hlen2⟩ | ⟨h12, h3⟩
  · have : j = 0 := by omega
    subst this
    exact le_refl _
  · rcases Nat.lt_or_ge j 1 with hj1 | hj1
    · have : j = 0 := by omega
      subst this
      exact heapInv_root_le hl hmlt
    · have : j = 1 := by omega
      subst this
      exact le_refl _
  · rcases Nat.eq_zero_or_pos j with rfl | hjpos
    · exact heapInv_root_le hl hmlt
    · have h12' : geti l 1 ≤ geti l m ∧ geti l 2 ≤ geti l m := by
        rcases findMaxSlice_ge_sibling hfm h3 with ⟨rfl, hcmp⟩ | ⟨rfl, hcmp⟩
        · exact ⟨le_refl _, le_of_lt hcmp⟩
        · exact ⟨hcmp, le_refl _⟩
      rcases desc_one_or_two j hjpos with hd | hd
      · exact le_trans (hsub 1 (Or.inl rfl) (by omega) hd hj) h12'.1
      · exact le_trans (hsub 2 (Or.inr rfl) (by omega) hd hj) h12'.2

/-! ## Sorted extraction -/

theorem sorted_short {α : Type u} {r : α → α → Prop} :
    ∀ {l : List α}, l.length ≤ 1 → List.Sorted r l := by
  intro l h
  rcases l with _ | ⟨a, _ | ⟨b, t⟩⟩
  · exact List.sorted_nil
  · exact List.sorted_singleton a
  · simp at h

theorem heap_max_mem {α : Type u} [Inhabited α] [LinearOrder α] {l : List α}
    {m : Nat} (hl : HeapInv l) (hfm : findMaxSlice l = some m) :
    ∀ b ∈ l, b ≤ geti l m := by
  intro b hb
  obtain ⟨i, hi, rfl⟩ := mem_geti hb
  exact (findMaxSlice_is_max hl hfm).2 i hi

theorem heap_min_mem {α : Type u} [Inhabited α] [LinearOrder α] {l : List α}
    (hl : HeapInv l) : ∀ b ∈ l, geti l 0 ≤ b := by
  intro b hb
  obtain ⟨i, hi, rfl⟩ := mem_geti hb
  exact heapInv_root_le hl hi

theorem foldl_push_inv {α : Type u} [Inhabited α] [LinearOrder α] :
    ∀ (v acc : List α), HeapInv acc →
      HeapInv (List.foldl push acc v) ∧
        (List.foldl push acc v).Perm (acc ++ v) := by
  intro v
  induction v with
  | nil =>
    intro acc h
    exact ⟨h, by simpa using List.Perm.refl acc⟩
  | cons x v ih =>
    intro acc h
    rw [List.foldl_cons]
    obtain ⟨h1, h2⟩ := ih (push acc x) (push_inv h x)
    refine ⟨h1, h2.trans ?_⟩
    have h3 := (push_perm acc x).1
    have h4 : (acc ++ [x]) ++ v = acc ++ x :: v := by simp
    rw [← h4]
    exact h3.append_right v

theorem intoVecAscAux_spec {α : Type u} [Inhabited α] [LinearOrder α] :
    ∀ (fuel : Nat) (l : List α), l.length ≤ fuel → HeapInv l →
      (intoVecAscAux fuel l).Perm l ∧
        List.Sorted (· ≤ ·) (intoVecAscAux fuel l) := by
  intro fuel
  induction fuel with
  | zero =>
    intro l hf hl
    have hnil : l = [] := List.length_eq_zero.mp (by omega)
    subst hnil
    exact ⟨List.Perm.refl _, List.sorted_nil⟩
  | succ fuel ih =>
    intro l hf hl
    by_cases h1 : l.length ≤ 1
    · have hrw : intoVecAscAux (fuel + 1) l = l := by
        rw [intoVecAscAux, if_pos h1]
      rw [hrw]
      exact ⟨List.Perm.refl _, sorted_short h1⟩
    · have hne : l ≠ [] := by
        intro h
        subst h
        simp at h1
      rcases hfm : findMaxSlice l with _ | m
      · exact absurd (findMaxSlice_none.mp hfm) hne
      have hc := findMaxSlice_cases hfm
      have hmlt : m < l.length := by
        rcases hc with ⟨rfl, hh⟩ | ⟨rfl, hh⟩ | ⟨h12, h3⟩
        · omega
        · omega
        · rcases h12 with rfl | rfl <;> omega
      have hm12 : m = 1 ∨ m = 2 := by
        rcases hc with ⟨rfl, hh⟩ | ⟨rfl, hh⟩ | ⟨h12, _⟩
        · omega
        · exact Or.inl rfl
        · exact h12
      have hmn : isMinLevel m = false := by
        rcases hm12 with rfl | rfl <;> decide
      have hstep : intoVecAscAux (fuel + 1) l =
          intoVecAscAux fuel (popMax l).2 ++ [geti l m] := by
        by_cases hmr : m < l.length - 1
        · have e1 : (popMax l).2 =
              trickleDownMax (l.dropLast.set m (geti l (l.length - 1))) m := by
            simp [popMax, hfm, hmr]
          have e2 : intoVecAscAux (fuel + 1) l =
              intoVecAscAux fuel
                (trickleDown (l.dropLast.set m (geti l (l.length - 1))) m) ++
                [geti l.dropLast m] := by
            simp [intoVecAscAux, h1, hfm, hmr]
          have e3 : trickleDown (l.dropLast.set m (geti l (l.length - 1))) m =
              trickleDownMax (l.dropLast.set m (geti l (l.length - 1))) m := by
            unfold trickleDown
            rw [hmn]
            simp
          rw [e2, e3, ← e1, geti_dropLast hmr]
        · have hm' : m = l.length - 1 := by omega
          have e1 : (popMax l).2 = l.dropLast := by simp [popMax, hfm, hmr]
          have e2 : intoVecAscAux (fuel + 1) l =
              intoVecAscAux fuel l.dropLast ++ [geti l (l.length - 1)] := by
            simp [intoVecAscAux, h1, hfm, hmr]
          rw [e2, e1, hm']
      obtain ⟨pp, plen⟩ := popMax_perm hfm
      obtain ⟨ihp, ihs⟩ := ih (popMax l).2 (by omega) (popMax_inv hl)
      rw [hstep]
      constructor
      · exact (List.perm_append_singleton _ _).trans ((ihp.cons _).trans pp)
      · show List.Pairwise (· ≤ ·) _
        rw [List.pairwise_append]
        refine ⟨ihs, List.pairwise_singleton _ _, ?_⟩
        intro a ha b hb
        rw [List.mem_singleton] at hb
        subst hb
        have ha' : a ∈ l := pp.subset
          (List.mem_cons_of_mem _ (ihp.mem_iff.mp ha))
        exact heap_max_mem hl hfm a ha'

theorem intoVecDescAux_spec {α : Type u} [Inhabited α] [LinearOrder α] :
    ∀ (fuel : Nat) (l : List α), l.length ≤ fuel → HeapInv l →
      (intoVecDescAux fuel l).Perm l ∧
        List.Sorted (· ≥ ·) (intoVecDescAux fuel l) := by
  intro fuel
  induction fuel with
  | zero =>
    intro l hf hl
    have hnil : l = [] := List.length_eq_zero.mp (by omega)
    subst hnil
    exact ⟨List.Perm.refl _, List.sorted_nil⟩
  | succ fuel ih =>
    intro l hf hl
    by_cases h1 : l.length ≤ 1
    · have hrw : intoVecDescAux (fuel + 1) l = l := by
        rw [intoVecDescAux, if_pos h1]
      rw [hrw]
      exact ⟨List.Perm.refl _, sorted_short h1⟩
    · have hne : l ≠ [] := by
        intro h
        subst h
        simp at h1
      have h0 : ¬ l.length = 0 := by omega
      have h1' : ¬ l.length - 1 = 0 := by omega
      have e1 : (popMin l).2 =
          trickleDownMin (l.dropLast.set 0 (geti l (l.length - 1))) 0 := by
        simp [popMin, h0, h1']
      have e2 : intoVecDescAux (fuel + 1) l =
          intoVecDescAux fuel
            (trickleDownMin (l.dropLast.set 0 (geti l (l.length - 1))) 0) ++
            [geti l.dropLast 0] := by
        simp [intoVecDescAux, h1]
      have hstep : intoVecDescAux (fuel + 1) l =
          intoVecDescAux fuel (popMin l).2 ++ [geti l 0] := by
        rw [e2, ← e1, geti_dropLast (by omega)]
      obtain ⟨pp, plen⟩ := popMin_perm hne
      obtain ⟨ihp, ihs⟩ := ih (popMin l).2 (by omega) (popMin_inv hl)
      rw [hstep]
      constructor
      · exact (List.perm_append_singleton _ _).trans ((ihp.cons _).trans pp)
      · show List.Pairwise (· ≥ ·) _
        rw [List.pairwise_append]
        refine ⟨ihs, List.pairwise_singleton _ _, ?_⟩
        intro a ha b hb
        rw [List.mem_singleton] at hb
        subst hb
        have ha' : a ∈ l := pp.subset
          (List.mem_cons_of_mem _ (ihp.mem_iff.mp ha))
        exact heap_min_mem hl a ha'

/-! ## The checked operations never hit an assertion -/

theorem trickleAuxC_eq {α : Type u} [Inhabited α] [LinearOrder α]
    {f : α → α → Bool} {mn : Bool} (hf : FMatches f mn) (len : Nat) :
    ∀ (fuel : Nat) (h : Hole α), h.pos < len → len ≤ h.data.length →
      len ≤ fuel + h.pos →
      trickleAuxC f len fuel h = some (trickleAux f len fuel h) := by
  intro fuel
  induction fuel with
  | zero =>
    intro h hp hl hfu
    omega
  | succ fuel ih =>
    intro h hp hl hfu
    rw [trickleAuxC, trickleAux, if_pos hl]
    rcases hib : indexOfBest f h.data len h.pos h.elt with ⟨m, g⟩
    have hnes : ∀ g', g' ≠ Gen.Same →
        (indexOfBest f h.data len h.pos h.elt).2 = g' →
        h.pos < m ∧ m < len := by
      intro g' hg' he
      have hne : (indexOfBest f h.data len h.pos h.elt).2 ≠ Gen.Same := by
        rw [he]
        exact hg'
      have hlt := indexOfBest_pos_lt hf hne
      have hup := (indexOfBest_upd hf hne).2.1
      rw [hib] at hlt hup
      exact ⟨hlt, hup⟩
    cases g with
    | Same => rfl
    | Parent =>
      obtain ⟨hm1, hm2⟩ := hnes Gen.Parent (by intro hq; cases hq)
        (by rw [hib])
      show h.moveToC m = some (h.moveTo m)
      rw [Hole.moveToC, if_pos ⟨by omega, by omega⟩]
    | Grandparent =>
      obtain ⟨hm1, hm2⟩ := hnes Gen.Grandparent (by intro hq; cases hq)
        (by rw [hib])
      dsimp only
      have e1 : h.moveToC m = some (h.moveTo m) := by
        rw [Hole.moveToC, if_pos ⟨by omega, by omega⟩]
      rw [e1]
      simp only [Option.bind_eq_bind, Option.some_bind]
      have e2 : (h.moveTo m).getParentC =
          some (geti (h.moveTo m).data (parent (h.moveTo m).pos)) := by
        rw [Hole.getParentC, if_pos (by
          show hasParent m = true
          exact hasParent_iff.mpr (by omega)), Hole.getC,
          if_pos ⟨by
            show ¬ parent m = m
            have := parent_lt (show 0 < m by omega)
            omega, by
            show parent m < (h.moveTo m).data.length
            rw [Hole.length_moveTo]
            have := parent_lt (show 0 < m by omega)
            omega⟩]
      rw [e2]
      simp only [Option.bind_eq_bind, Option.some_bind]
      by_cases hcmp :
          f (geti (h.moveTo m).data (parent (h.moveTo m).pos))
            (h.moveTo m).elt = true
      · rw [if_pos hcmp, if_pos hcmp]
        have e3 : (h.moveTo m).swapWithParentC =
            some ((h.moveTo m).swapWithParent) := by
          rw [Hole.swapWithParentC, if_pos (by
            show hasParent m = true
            exact hasParent_iff.mpr (by omega))]
        rw [e3]
        simp only [Option.bind_eq_bind, Option.some_bind]
        exact ih ((h.moveTo m).swapWithParent)
          (by
            show m < len
            omega)
          (by
            rw [Hole.length_swapWithParent, Hole.length_moveTo]
            exact hl)
          (by
            show len ≤ fuel + m
            omega)
      · rw [if_neg hcmp, if_neg hcmp]
        exact ih (h.moveTo m)
          (by
            show m < len
            omega)
          (by
            rw [Hole.length_moveTo]
            exact hl)
          (by
            show len ≤ fuel + m
            omega)

theorem trickleDownMinC_eq {α : Type u} [Inhabited α] [LinearOrder α]
    (l : List α) (p : Nat) (hp : p < l.length) :
    trickleDownMinC l p = some (trickleDownMin l p) := by
  unfold trickleDownMinC
  rw [if_pos hp]
  have e1 : Hole.newC l p = some (Hole.mk' l p) := by
    rw [Hole.newC, if_pos hp]
  rw [e1]
  simp only [Option.bind_eq_bind, Option.some_bind]
  rw [trickleAuxC_eq fMatches_fLT l.length l.length (Hole.mk' l p) hp
    (le_refl _) (by
      show l.length ≤ l.length + p
      omega)]
  simp only [Option.bind_eq_bind, Option.some_bind]
  rfl

theorem trickleDownMaxC_eq {α : Type u} [Inhabited α] [LinearOrder α]
    (l : List α) (p : Nat) (hp : p < l.length) :
    trickleDownMaxC l p = some (trickleDownMax l p) := by
  unfold trickleDownMaxC
  rw [if_pos hp]
  have e1 : Hole.newC l p = some (Hole.mk' l p) := by
    rw [Hole.newC, if_pos hp]
  rw [e1]
  simp only [Option.bind_eq_bind, Option.some_bind]
  rw [trickleAuxC_eq fMatches_fGT l.length l.length (Hole.mk' l p) hp
    (le_refl _) (by
      show l.length ≤ l.length + p
      omega)]
  simp only [Option.bind_eq_bind, Option.some_bind]
  rfl

theorem trickleDownC_eq {α : Type u} [Inhabited α] [LinearOrder α]
    (l : List α) (p : Nat) (hp : p < l.length) :
    trickleDownC l p = some (trickleDown l p) := by
  unfold trickleDownC trickleDown
  by_cases hmn : isMinLevel p = true
  · rw [if_pos hmn, if_pos hmn]
    exact trickleDownMinC_eq l p hp
  · rw [if_neg hmn, if_neg hmn]
    exact trickleDownMaxC_eq l p hp

theorem bubbleUpGpAuxC_eq {α : Type u} [Inhabited α] (f : α → α → Bool) :
    ∀ (fuel : Nat) (h : Hole α), h.pos ≤ fuel → h.pos < h.data.length →
      bubbleUpGpAuxC f (fuel + 1) h = some (bubbleUpGpAux f fuel h) := by
  intro fuel
  induction fuel with
  | zero =>
    intro h hp hd
    have h0 : h.pos = 0 := by omega
    rw [bubbleUpGpAuxC, bubbleUpGpAux, if_neg (by
      rw [h0]
      simp [hasGrandparent])]
  | succ fuel ih =>
    intro h hp hd
    rw [bubbleUpGpAuxC, bubbleUpGpAux]
    by_cases hgp : hasGrandparent h.pos = true
    · rw [if_pos hgp, if_pos hgp]
      have h2 : 2 < h.pos := hasGrandparent_iff.mp hgp
      have hgplt : grandparent h.pos < h.pos := by
        unfold grandparent parent
        omega
      have e1 : h.getC (grandparent h.pos) =
          some (geti h.data (grandparent h.pos)) := by
        rw [Hole.getC, if_pos ⟨by omega, by omega⟩]
      rw [e1]
      simp only [Option.bind_eq_bind, Option.some_bind]
      by_cases hcmp : f h.elt (geti h.data (grandparent h.pos)) = true
      · rw [if_pos hcmp, if_pos hcmp]
        have e2 : h.moveToC (grandparent h.pos) =
            some (h.moveTo (grandparent h.pos)) := by
          rw [Hole.moveToC, if_pos ⟨by omega, by omega⟩]
        rw [e2]
        simp only [Option.bind_eq_bind, Option.some_bind]
        exact ih (h.moveTo (grandparent h.pos))
          (by
            show grandparent h.pos ≤ fuel
            omega)
          (by
            show grandparent h.pos < (h.moveTo (grandparent h.pos)).data.length
            rw [Hole.length_moveTo]
            omega)
      · rw [if_neg hcmp, if_neg hcmp]
    · rw [if_neg hgp, if_neg hgp]

theorem bubbleUpC_eq {α : Type u} [Inhabited α] [LinearOrder α] (h : Hole α)
    (hd : h.pos < h.data.length) : bubbleUpC h = some (bubbleUp h) := by
  unfold bubbleUpC bubbleUp bubbleUpMin bubbleUpMax
  by_cases hmin : isMinLevel h.pos = true
  · rw [if_pos hmin, if_pos hmin]
    by_cases hpar : hasParent h.pos = true
    · rw [if_pos hpar]
      have hppos : 0 < h.pos := hasParent_iff.mp hpar
      have hpalt : parent h.pos < h.pos := parent_lt hppos
      have e1 : h.getC (parent h.pos) =
          some (geti h.data (parent h.pos)) := by
        rw [Hole.getC, if_pos ⟨by omega, by omega⟩]
      rw [e1]
      simp only [Option.bind_eq_bind, Option.some_bind]
      by_cases hcmp : geti h.data (parent h.pos) < h.elt
      · rw [if_pos (decide_eq_true hcmp),
          if_pos (show (hasParent h.pos &&
            decide (geti h.data (parent h.pos) < h.elt)) = true by
              rw [hpar, Bool.true_and]
              exact decide_eq_true hcmp)]
        have e2 : h.moveToC (parent h.pos) =
            some (h.moveTo (parent h.pos)) := by
          rw [Hole.moveToC, if_pos ⟨by omega, by omega⟩]
        rw [e2]
        simp only [Option.bind_eq_bind, Option.some_bind]
        exact bubbleUpGpAuxC_eq fGT ((h.moveTo (parent h.pos)).pos)
          (h.moveTo (parent h.pos)) (le_refl _)
          (by
            show parent h.pos < (h.moveTo (parent h.pos)).data.length
            rw [Hole.length_moveTo]
            omega)
      · rw [if_neg (by simpa using hcmp),
          if_neg (show ¬ (hasParent h.pos &&
            decide (geti h.data (parent h.pos) < h.elt)) = true by
              rw [hpar, Bool.true_and]
              simpa using hcmp)]
        exact bubbleUpGpAuxC_eq fLT h.pos h (le_refl _) hd
    · have hpar' : hasParent h.pos = false := by
        cases hq : hasParent h.pos
        · rfl
        · exact absurd hq hpar
      rw [if_neg hpar, if_neg (by rw [hpar']; simp)]
      exact bubbleUpGpAuxC_eq fLT h.pos h (le_refl _) hd
  · rw [if_neg hmin, if_neg hmin]
    by_cases hpar : hasParent h.pos = true
    · rw [if_pos hpar]
      have hppos : 0 < h.pos := hasParent_iff.mp hpar
      have hpalt : parent h.pos < h.pos := parent_lt hppos
      have e1 : h.getC (parent h.pos) =
          some (geti h.data (parent h.pos)) := by
        rw [Hole.getC, if_pos ⟨by omega, by omega⟩]
      rw [e1]
      simp only [Option.bind_eq_bind, Option.some_bind]
      by_cases hcmp : h.elt < geti h.data (parent h.pos)
      · rw [if_pos (decide_eq_true hcmp),
          if_pos (show (hasParent h.pos &&
            decide (h.elt < geti h.data (parent h.pos))) = true by
              rw [hpar, Bool.true_and]
              exact decide_eq_true hcmp)]
        have e2 : h.moveToC (parent h.pos) =
            some (h.moveTo (parent h.pos)) := by
          rw [Hole.moveToC, if_pos ⟨by omega, by omega⟩]
        rw [e2]
        simp only [Option.bind_eq_bind, Option.some_bind]
        exact bubbleUpGpAuxC_eq fLT ((h.moveTo (parent h.pos)).pos)
          (h.moveTo (parent h.pos)) (le_refl _)
          (by
            show parent h.pos < (h.moveTo (parent h.pos)).data.length
            rw [Hole.length_moveTo]
            omega)
      · rw [if_neg (by simpa using hcmp),
          if_neg (show ¬ (hasParent h.pos &&
            decide (h.elt < geti h.data (parent h.pos))) = true by
              rw [hpar, Bool.true_and]
              simpa using hcmp)]
        exact bubbleUpGpAuxC_eq fGT h.pos h (le_refl _) hd
    · have hpar' : hasParent h.pos = false := by
        cases hq : hasParent h.pos
        · rfl
        · exact absurd hq hpar
      rw [if_neg hpar, if_neg (by rw [hpar']; simp)]
      exact bubbleUpGpAuxC_eq fGT h.pos h (le_refl _) hd

theorem peekMaxMutDropC_eq {α : Type u} [Inhabited α] [LinearOrder α]
    (l : List α) (m : Nat) (hm : m < l.length) :
    peekMaxMutDropC l m = some (peekMaxMutDrop l m) := by
  unfold peekMaxMutDropC
  have e1 : Hole.newC l m = some (Hole.mk' l m) := by
    rw [Hole.newC, if_pos hm]
  rw [e1]
  simp only [Option.bind_eq_bind, Option.some_bind]
  have hrwR : peekMaxMutDrop l m =
      (trickleAux fGT l.length l.length
        (if (hasParent m &&
            decide (geti l m < geti l (parent m))) = true then
          (Hole.mk' l m).swapWithParent
        else Hole.mk' l m)).free := rfl
  by_cases hpar : hasParent m = true
  · have hppos : 0 < m := hasParent_iff.mp hpar
    have hpalt : parent m < m := parent_lt hppos
    rw [if_pos (show hasParent (Hole.mk' l m).pos = true from hpar)]
    have e2 : (Hole.mk' l m).getParentC = some (geti l (parent m)) := by
      rw [Hole.getParentC,
        if_pos (show hasParent (Hole.mk' l m).pos = true from hpar),
        Hole.getC, if_pos ⟨show ¬ parent m = m by omega,
          show parent m < l.length by omega⟩]
      rfl
    rw [e2]
    simp only [Option.bind_eq_bind, Option.some_bind]
    by_cases hcmp : geti l m < geti l (parent m)
    · rw [if_pos (show decide ((Hole.mk' l m).elt <
          geti l (parent m)) = true from decide_eq_true hcmp)]
      have e3 : (Hole.mk' l m).swapWithParentC =
          some ((Hole.mk' l m).swapWithParent) := by
        rw [Hole.swapWithParentC,
          if_pos (show hasParent (Hole.mk' l m).pos = true from hpar)]
      rw [e3]
      simp only [Option.bind_eq_bind, Option.some_bind]
      rw [trickleAuxC_eq fMatches_fGT l.length l.length
        ((Hole.mk' l m).swapWithParent) (show m < l.length from hm)
        (by
          rw [Hole.length_swapWithParent]
          show l.length ≤ l.length
          exact le_refl _)
        (by
          show l.length ≤ l.length + m
          omega)]
      simp only [Option.bind_eq_bind, Option.some_bind]
      rw [hrwR, if_pos (by
        rw [hpar, Bool.true_and]
        exact decide_eq_true hcmp)]
    · rw [if_neg (by simpa using hcmp)]
      rw [trickleAuxC_eq fMatches_fGT l.length l.length (Hole.mk' l m)
        (show m < l.length from hm) (le_refl _)
        (by
          show l.length ≤ l.length + m
          omega)]
      simp only [Option.bind_eq_bind, Option.some_bind]
      rw [hrwR, if_neg (by
        rw [hpar, Bool.true_and]
        simpa using hcmp)]
  · have hpar' : hasParent m = false := by
      cases hq : hasParent m
      · rfl
      · exact absurd hq hpar
    rw [if_neg (show ¬ hasParent (Hole.mk' l m).pos = true from hpar)]
    rw [trickleAuxC_eq fMatches_fGT l.length l.length (Hole.mk' l m)
      (show m < l.length from hm) (le_refl _)
      (by
        show l.length ≤ l.length + m
        omega)]
    simp only [Option.bind_eq_bind, Option.some_bind]
    rw [hrwR, if_neg (by rw [hpar']; simp)]

theorem pushC_eq {α : Type u} [Inhabited α] [LinearOrder α] (l : List α)
    (x : α) : pushC l x = some (push l x) := by
  unfold pushC
  rw [if_pos (by simp)]
  have e1 : Hole.newC (l ++ [x]) l.length =
      some (Hole.mk' (l ++ [x]) l.length) := by
    rw [Hole.newC, if_pos (by simp)]
  rw [e1]
  simp only [Option.bind_eq_bind, Option.some_bind]
  rw [bubbleUpC_eq (Hole.mk' (l ++ [x]) l.length) (by
    show l.length < (Hole.mk' (l ++ [x]) l.length).data.length
    simp [Hole.mk'])]
  simp only [Option.bind_eq_bind, Option.some_bind]
  rfl

theorem popMinC_eq {α : Type u} [Inhabited α] [LinearOrder α] (l : List α) :
    popMinC l = some (popMin l) := by
  by_cases h0 : l.length = 0
  · simp [popMinC, popMin, h0]
  · by_cases h1 : l.length - 1 = 0
    · simp [popMinC, popMin, h0, h1]
    · have e := trickleDownMinC_eq (l.dropLast.set 0 (geti l (l.length - 1)))
        0 (by simp only [List.length_set, List.length_dropLast]; omega)
      simp [popMinC, popMin, h0, h1, e]

theorem popMaxC_eq {α : Type u} [Inhabited α] [LinearOrder α] (l : List α) :
    popMaxC l = some (popMax l) := by
  rcases hfm : findMaxSlice l with _ | m
  · simp [popMaxC, popMax, hfm]
  · by_cases hmr : m < l.length - 1
    · have e := trickleDownMaxC_eq (l.dropLast.set m (geti l (l.length - 1)))
        m (by simp only [List.length_set, List.length_dropLast]; omega)
      simp [popMaxC, popMax, hfm, hmr, e]
    · simp [popMaxC, popMax, hfm, hmr]

theorem pushPopMinC_eq {α : Type u} [Inhabited α] [LinearOrder α]
    (l : List α) (x : α) : pushPopMinC l x = some (pushPopMin l x) := by
  by_cases h0 : l.length = 0
  · simp [pushPopMinC, pushPopMin, h0]
  · by_cases h1 : geti l 0 < x
    · have e := trickleDownMinC_eq (l.set 0 x) 0
        (by simp only [List.length_set]; omega)
      simp [pushPopMinC, pushPopMin, h0, h1, e]
    · simp [pushPopMinC, pushPopMin, h0, h1]

theorem pushPopMaxC_eq {α : Type u} [Inhabited α] [LinearOrder α]
    (l : List α) (x : α) : pushPopMaxC l x = some (pushPopMax l x) := by
  rcases hfm : findMaxSlice l with _ | m
  · simp [pushPopMaxC, pushPopMax, hfm]
  · have hc := findMaxSlice_cases hfm
    have hmlt : m < l.length := by
      rcases hc with ⟨rfl, h⟩ | ⟨rfl, h⟩ | ⟨h12, h3⟩
      · omega
      · omega
      · rcases h12 with rfl | rfl <;> omega
    by_cases h1 : x < geti l m
    · have e := peekMaxMutDropC_eq (l.set m x) m
        (by simp only [List.length_set]; omega)
      simp [pushPopMaxC, pushPopMax, hfm, h1, e]
    · simp [pushPopMaxC, pushPopMax, hfm, h1]

theorem replaceMinC_eq {α : Type u} [Inhabited α] [LinearOrder α]
    (l : List α) (x : α) : replaceMinC l x = some (replaceMin l x) := by
  by_cases h0 : l.length = 0
  · simp [replaceMinC, replaceMin, h0]
  · have e := trickleDownMinC_eq (l.set 0 x) 0
      (by simp only [List.length_set]; omega)
    simp [replaceMinC, replaceMin, h0, e]

theorem replaceMaxC_eq {α : Type u} [Inhabited α] [LinearOrder α]
    (l : List α) (x : α) : replaceMaxC l x = some (replaceMax l x) := by
  rcases hfm : findMaxSlice l with _ | m
  · simp [replaceMaxC, replaceMax, hfm]
  · have hc := findMaxSlice_cases hfm
    have hmlt : m < l.length := by
      rcases hc with ⟨rfl, h⟩ | ⟨rfl, h⟩ | ⟨h12, h3⟩
      · omega
      · omega
      · rcases h12 with rfl | rfl <;> omega
    by_cases hpre : 1 < l.length ∧ x < geti l 0
    · have e := peekMaxMutDropC_eq ((l.set 0 x).set m (geti l 0)) m
        (by simp only [List.length_set]; omega)
      simp [replaceMaxC, replaceMax, hfm, hpre, e]
    · have e := peekMaxMutDropC_eq (l.set m x) m
        (by simp only [List.length_set]; omega)
      simp [replaceMaxC, replaceMax, hfm, hpre, e]

theorem rebuildAuxC_eq {α : Type u} [Inhabited α] [LinearOrder α] :
    ∀ (n : Nat) (l : List α), n ≤ l.length →
      rebuildAuxC l n = some (rebuildAux l n) := by
  intro n
  induction n with
  | zero =>
    intro l h
    rfl
  | succ n ih =>
    intro l h
    rw [rebuildAuxC, rebuildAux, if_pos (show n < l.length by omega)]
    rw [trickleDownC_eq l n (by omega)]
    simp only [Option.bind_eq_bind, Option.some_bind]
    exact ih (trickleDown l n)
      (by rw [(trickleDown_perm l n (by omega)).2]; omega)

theorem fromVecC_eq {α : Type u} [Inhabited α] [LinearOrder α] (l : List α) :
    fromVecC l = some (fromVec l) :=
  rebuildAuxC_eq (l.length / 2) l (by omega)

theorem peekMaxMutDrop_perm {α : Type u} [Inhabited α] [LinearOrder α]
    (L : List α) (m : Nat) (hm : m < L.length) :
    (peekMaxMutDrop L m).Perm L ∧ (peekMaxMutDrop L m).length = L.length := by
  have hrw : peekMaxMutDrop L m =
      (trickleAux fGT L.length L.length
        (if (hasParent m &&
            decide (geti L m < geti L (parent m))) = true then
          (Hole.mk' L m).swapWithParent
        else Hole.mk' L m)).free := rfl
  by_cases hcond : (hasParent m &&
      decide (geti L m < geti L (parent m))) = true
  · rw [hrw, if_pos hcond]
    have hppos : 0 < m :=
      hasParent_iff.mp (Bool.and_eq_true_iff.mp hcond).1
    have hpalt : parent m < m := parent_lt hppos
    have h := trickleAux_perm fMatches_fGT L.length L.length
      ((Hole.mk' L m).swapWithParent)
      (by
        show m < ((Hole.mk' L m).swapWithParent).data.length
        rw [Hole.length_swapWithParent]
        exact hm)
      (by
        rw [Hole.length_swapWithParent]
        exact le_refl _)
    have hview : ((Hole.mk' L m).swapWithParent).view =
        swapi L (parent m) m := rfl
    rw [hview] at h
    refine ⟨h.1.trans (swapi_perm (by omega) (by omega) hm), ?_⟩
    rw [h.2, Hole.length_swapWithParent]
    rfl
  · rw [hrw, if_neg hcond]
    have h := trickleAux_perm fMatches_fGT L.length L.length (Hole.mk' L m)
      hm (le_refl _)
    rw [Hole.view_mk'] at h
    exact h

/-! ## The claims -/

/-- C1: for every non-empty heap reachable through the public operations,
`peek_min` returns `some` of a minimum of the contained elements and
`peek_max` returns `some` of a maximum of the contained elements. -/
theorem claim1_extrema {α : Type u} [Inhabited α] [LinearOrder α]
    {l : List α} (hr : Reachable l) (hne : l ≠ []) :
    (∃ a, peekMin l = some a ∧ a ∈ l ∧ ∀ b ∈ l, a ≤ b) ∧
    (∃ a, peekMax l = some a ∧ a ∈ l ∧ ∀ b ∈ l, b ≤ a) := by
  have hl := reachable_heapInv hr
  have hlen : 0 < l.length := List.length_pos.mpr hne
  constructor
  · refine ⟨geti l 0, ?_, geti_mem hlen, heap_min_mem hl⟩
    rcases l with _ | ⟨a, t⟩
    · exact absurd rfl hne
    · rfl
  · rcases hfm : findMaxSlice l with _ | m
    · exact absurd (findMaxSlice_none.mp hfm) hne
    · obtain ⟨hmlt, _⟩ := findMaxSlice_is_max hl hfm
      refine ⟨geti l m, ?_, geti_mem hmlt, heap_max_mem hl hfm⟩
      unfold peekMax
      rw [hfm]
      rfl

theorem claim1_extrema_witness :
    Reachable (push (push ([] : List Nat) 2) 1) ∧
    push (push ([] : List Nat) 2) 1 ≠ [] ∧
    ((∃ a, peekMin (push (push ([] : List Nat) 2) 1) = some a ∧
        a ∈ push (push ([] : List Nat) 2) 1 ∧
        ∀ b ∈ push (push ([] : List Nat) 2) 1, a ≤ b) ∧
      (∃ a, peekMax (push (push ([] : List Nat) 2) 1) = some a ∧
        a ∈ push (push ([] : List Nat) 2) 1 ∧
        ∀ b ∈ push (push ([] : List Nat) 2) 1, b ≤ a)) :=
  ⟨Reachable.push 1 (Reachable.push 2 Reachable.empty), by decide,
    claim1_extrema (Reachable.push 1 (Reachable.push 2 Reachable.empty))
      (by decide)⟩

/-- C2: in every reachable heap state, every min-level position is `≤` all
positions of its subtree and every max-level position is `≥` all positions
of its subtree. -/
theorem claim2_invariant {α : Type u} [Inhabited α] [LinearOrder α]
    {l : List α} (hr : Reachable l) :
    ∀ i j, Desc i j → j < l.length →
      (isMinLevel i = true → geti l i ≤ geti l j) ∧
      (isMinLevel i = false → geti l j ≤ geti l i) := by
  have hl := reachable_heapInv hr
  intro i j hij hj
  have h := hl i j hij hj
  unfold lvOK at h
  constructor
  · intro hmn
    rw [hmn] at h
    simpa [ordB] using h
  · intro hmn
    rw [hmn] at h
    simpa [ordB] using h

theorem claim2_invariant_witness :
    Reachable (fromVec ([3, 1, 2] : List Nat)) ∧
    Desc 0 1 ∧ 1 < (fromVec ([3, 1, 2] : List Nat)).length ∧
    ((isMinLevel 0 = true →
        geti (fromVec ([3, 1, 2] : List Nat)) 0 ≤
          geti (fromVec ([3, 1, 2] : List Nat)) 1) ∧
      (isMinLevel 0 = false →
        geti (fromVec ([3, 1, 2] : List Nat)) 1 ≤
          geti (fromVec ([3, 1, 2] : List Nat)) 0)) :=
  ⟨Reachable.fromVec _, Desc.child1 0, by decide,
    claim2_invariant (Reachable.fromVec [3, 1, 2]) 0 1 (Desc.child1 0)
      (by decide)⟩

/-- C4: the hole machinery only permutes elements: `push` adds exactly its
argument, construction from a vector keeps the vector's multiset, and a
successful `pop_min`/`pop_max` removes exactly the returned element. -/
theorem claim4_multiset {α : Type u} [Inhabited α] [LinearOrder α]
    (l v : List α) (x : α) :
    (push l x).Perm (l ++ [x]) ∧
    (fromVec v).Perm v ∧
    (l ≠ [] → (popMin l).1 = some (geti l 0) ∧
      (geti l 0 :: (popMin l).2).Perm l) ∧
    (∀ m, findMaxSlice l = some m → (popMax l).1 = some (geti l m) ∧
      (geti l m :: (popMax l).2).Perm l) := by
  refine ⟨(push_perm l x).1, (fromVec_inv v).2.2, ?_, ?_⟩
  · intro hne
    exact ⟨popMin_val hne, (popMin_perm hne).1⟩
  · intro m hfm
    exact ⟨popMax_val hfm, (popMax_perm hfm).1⟩

/-- C7: `peek_max` follows the fixed selection rule of `find_max_slice`:
`none` on the empty heap, the root on a one-element heap, position 1 on a
two-element heap, and otherwise the larger of positions 1 and 2 with ties
broken toward position 2. -/
theorem claim7_peek_max_rule {α : Type u} [Inhabited α] [LinearOrder α]
    (l : List α) :
    (l.length = 0 → peekMax l = none) ∧
    (l.length = 1 → peekMax l = some (geti l 0)) ∧
    (l.length = 2 → peekMax l = some (geti l 1)) ∧
    (3 ≤ l.length → peekMax l =
      some (if geti l 2 < geti l 1 then geti l 1 else geti l 2)) := by
  rcases l with _ | ⟨a, _ | ⟨b, _ | ⟨c, t⟩⟩⟩
  · refine ⟨fun _ => rfl, fun h => ?_, fun h => ?_, fun h => ?_⟩ <;>
      simp at h
  · refine ⟨fun h => ?_, fun _ => rfl, fun h => ?_, fun h => ?_⟩ <;>
      simp at h
  · refine ⟨fun h => ?_, fun h => ?_, fun _ => rfl, fun h => ?_⟩ <;>
      · simp only [List.length_cons, List.length_nil] at h
        omega
  · refine ⟨fun h => ?_, fun h => ?_, fun h => ?_, fun _ => ?_⟩
    · simp only [List.length_cons] at h
      omega
    · simp only [List.length_cons] at h
      omega
    · simp only [List.length_cons] at h
      omega
    · show ((if c < b then some 1 else some 2).map
        (geti (a :: b :: c :: t))) = _
      by_cases hcb : c < b
      · rw [if_pos hcb, if_pos (show geti (a :: b :: c :: t) 2 <
          geti (a :: b :: c :: t) 1 from hcb)]
        rfl
      · rw [if_neg hcb, if_neg (show ¬ geti (a :: b :: c :: t) 2 <
          geti (a :: b :: c :: t) 1 from hcb)]
        rfl

/-- C9: the instrumented operations, in which every internal assertion of the
hole machinery is an explicit guard and the hole is released exactly once per
path, run to completion (`some`) on all inputs and return exactly the
unchecked results. -/
theorem claim9_hole_safety {α : Type u} [Inhabited α] [LinearOrder α]
    (l v : List α) (x : α) :
    pushC l x = some (push l x) ∧
    popMinC l = some (popMin l) ∧
    popMaxC l = some (popMax l) ∧
    pushPopMinC l x = some (pushPopMin l x) ∧
    pushPopMaxC l x = some (pushPopMax l x) ∧
    replaceMinC l x = some (replaceMin l x) ∧
    replaceMaxC l x = some (replaceMax l x) ∧
    fromVecC v = some (fromVec v) :=
  ⟨pushC_eq l x, popMinC_eq l, popMaxC_eq l, pushPopMinC_eq l x,
    pushPopMaxC_eq l x, replaceMinC_eq l x, replaceMaxC_eq l x, fromVecC_eq v⟩

/-- C10: on the empty heap every query or pop returns the `none` sentinel and
leaves the heap empty; no operation can fail any other way. -/
theorem claim10_totality {α : Type u} [Inhabited α] [LinearOrder α] :
    popMin ([] : List α) = (none, []) ∧
    popMax ([] : List α) = (none, []) ∧
    peekMin ([] : List α) = none ∧
    peekMax ([] : List α) = none ∧
    peekMinMut ([] : List α) = none ∧
    peekMaxMut ([] : List α) = none :=
  ⟨rfl, rfl, rfl, rfl, rfl, rfl⟩

/-- C3: a heap holding a permutation of `0..n` — built by repeated `push`
or by construction from a vector — extracts exactly ascending by
`into_vec_asc` and exactly descending by `into_vec_desc`. -/
theorem claim3_sorted_extraction (n : Nat) (v : List Nat)
    (hv : v.Perm (List.range n)) (l : List Nat)
    (hl : l = List.foldl push [] v ∨ l = fromVec v) :
    intoVecAsc l = List.range n ∧ intoVecDesc l = (List.range n).reverse := by
  have hIP : HeapInv l ∧ l.Perm (List.range n) := by
    rcases hl with rfl | rfl
    · obtain ⟨h1, h2⟩ := foldl_push_inv v [] (heapInv_short (by simp))
      refine ⟨h1, ?_⟩
      rw [List.nil_append] at h2
      exact h2.trans hv
    · obtain ⟨h1, _, h3⟩ := fromVec_inv v
      exact ⟨h1, h3.trans hv⟩
  obtain ⟨hinv, hperm⟩ := hIP
  constructor
  · obtain ⟨p1, p2⟩ := intoVecAscAux_spec l.length l (le_refl _) hinv
    exact List.eq_of_perm_of_sorted (p1.trans hperm) p2
      (List.sorted_le_range n)
  · obtain ⟨p1, p2⟩ := intoVecDescAux_spec l.length l (le_refl _) hinv
    have h5 : (intoVecDescAux l.length l).reverse = List.range n := by
      refine List.eq_of_perm_of_sorted
        ((List.reverse_perm _).trans (p1.trans hperm)) ?_
        (List.sorted_le_range n)
      show List.Pairwise (· ≤ ·) _
      rw [List.pairwise_reverse]
      exact p2
    have h6 := congrArg List.reverse h5
    rw [List.reverse_reverse] at h6
    exact h6

theorem claim3_sorted_extraction_witness :
    ([2, 0, 1] : List Nat).Perm (List.range 3) ∧
    (intoVecAsc (List.foldl push [] ([2, 0, 1] : List Nat)) =
        List.range 3 ∧
      intoVecDesc (List.foldl push [] ([2, 0, 1] : List Nat)) =
        (List.range 3).reverse) :=
  ⟨by decide, claim3_sorted_extraction 3 [2, 0, 1] (by decide)
    (List.foldl push [] [2, 0, 1]) (Or.inl rfl)⟩

/-- C5: `replace_max` on the empty heap pushes the element and returns
`none`; on a non-empty heap it returns `some` of the old maximum, the
contents afterwards are the old contents with the maximum replaced by the
new element, the heap invariant still holds, and when the heap has more
than one element and the new element undercuts the minimum it is first
swapped into position 0 before the max-slot drop glue runs. -/
theorem claim5_replace_max {α : Type u} [Inhabited α] [LinearOrder α]
    (l : List α) (x : α) (hl : HeapInv l) :
    (l = [] → replaceMax l x = (none, [x])) ∧
    (l ≠ [] → ∃ m, findMaxSlice l = some m ∧
      (replaceMax l x).1 = some (geti l m) ∧
      (∀ b ∈ l, b ≤ geti l m) ∧
      (geti l m :: (replaceMax l x).2).Perm (x :: l) ∧
      HeapInv (replaceMax l x).2 ∧
      (1 < l.length → x < geti l 0 →
        (replaceMax l x).2 =
          peekMaxMutDrop ((l.set 0 x).set m (geti l 0)) m)) := by
  constructor
  · rintro rfl
    rfl
  · intro hne
    rcases hfm : findMaxSlice l with _ | m
    · exact absurd (findMaxSlice_none.mp hfm) hne
    have hc := findMaxSlice_cases hfm
    have hmlt : m < l.length := by
      rcases hc with ⟨rfl, hh⟩ | ⟨rfl, hh⟩ | ⟨h12, h3⟩
      · omega
      · omega
      · rcases h12 with rfl | rfl <;> omega
    by_cases hpre : 1 < l.length ∧ x < geti l 0
    · have hm1 : 0 < m := by
        rcases hc with ⟨rfl, hh⟩ | ⟨rfl, hh⟩ | ⟨h12, _⟩
        · omega
        · omega
        · rcases h12 with rfl | rfl <;> omega
      have hval : (replaceMax l x).1 = some (geti (l.set 0 x) m) := by
        simp [replaceMax, hfm, hpre]
      have hheap : (replaceMax l x).2 =
          peekMaxMutDrop ((l.set 0 x).set m (geti l 0)) m := by
        simp [replaceMax, hfm, hpre]
      refine ⟨m, rfl, ?_, heap_max_mem hl hfm, ?_, replaceMax_inv hl x,
        fun _ _ => hheap⟩
      · rw [hval, geti_set_ne _ (by omega)]
      · rw [hheap]
        have hL : ((l.set 0 x).set m (geti l 0)).length = l.length := by
          simp
        obtain ⟨hp, _⟩ := peekMaxMutDrop_perm ((l.set 0 x).set m (geti l 0))
          m (by rw [hL]; exact hmlt)
        have s1 := set_append_perm (geti l 0)
          (show m < (l.set 0 x).length by rw [List.length_set]; exact hmlt)
        rw [geti_set_ne _ (show (0 : Nat) ≠ m by omega)] at s1
        have s2 := set_append_perm x (show 0 < l.length by omega)
        exact (hp.cons _).trans ((List.perm_append_singleton _ _).symm.trans
          (s1.trans (s2.trans (List.perm_append_singleton x l))))
    · have hval : (replaceMax l x).1 = some (geti l m) := by
        simp [replaceMax, hfm, hpre]
      have hheap : (replaceMax l x).2 = peekMaxMutDrop (l.set m x) m := by
        simp [replaceMax, hfm, hpre]
      refine ⟨m, rfl, hval, heap_max_mem hl hfm, ?_,
        replaceMax_inv hl x, ?_⟩
      · rw [hheap]
        obtain ⟨hp, _⟩ := peekMaxMutDrop_perm (l.set m x) m
          (by rw [List.length_set]; exact hmlt)
        have s1 := set_append_perm x hmlt
        exact (hp.cons _).trans ((List.perm_append_singleton _ _).symm.trans
          (s1.trans (List.perm_append_singleton x l)))
      · intro hgt hlt
        exact absurd ⟨hgt, hlt⟩ hpre

theorem claim5_replace_max_witness :
    HeapInv (fromVec ([3, 1, 2] : List Nat)) ∧
    ((fromVec ([3, 1, 2] : List Nat) = [] →
        replaceMax (fromVec ([3, 1, 2] : List Nat)) 0 = (none, [0])) ∧
      (fromVec ([3, 1, 2] : List Nat) ≠ [] → ∃ m,
        findMaxSlice (fromVec ([3, 1, 2] : List Nat)) = some m ∧
        (replaceMax (fromVec ([3, 1, 2] : List Nat)) 0).1 =
          some (geti (fromVec ([3, 1, 2] : List Nat)) m) ∧
        (∀ b ∈ fromVec ([3, 1, 2] : List Nat),
          b ≤ geti (fromVec ([3, 1, 2] : List Nat)) m) ∧
        (geti (fromVec ([3, 1, 2] : List Nat)) m ::
          (replaceMax (fromVec ([3, 1, 2] : List Nat)) 0).2).Perm
          (0 :: fromVec ([3, 1, 2] : List Nat)) ∧
        HeapInv (replaceMax (fromVec ([3, 1, 2] : List Nat)) 0).2 ∧
        (1 < (fromVec ([3, 1, 2] : List Nat)).length →
          0 < geti (fromVec ([3, 1, 2] : List Nat)) 0 →
          (replaceMax (fromVec ([3, 1, 2] : List Nat)) 0).2 =
            peekMaxMutDrop
              (((fromVec ([3, 1, 2] : List Nat)).set 0 0).set m
                (geti (fromVec ([3, 1, 2] : List Nat)) 0)) m))) :=
  ⟨(fromVec_inv [3, 1, 2]).1,
    claim5_replace_max (fromVec [3, 1, 2]) 0 (fromVec_inv [3, 1, 2]).1⟩

/-- C6: `push_pop_min(x)` returns `x` and leaves the heap unchanged when the
heap is empty or `x` is at most the current minimum; otherwise it swaps `x`
into position 0, trickles down from there, and returns the old minimum, so
the heap keeps all elements except the old minimum plus `x`. -/
theorem claim6_push_pop_min {α : Type u} [Inhabited α] [LinearOrder α]
    (l : List α) (x : α) (hl : HeapInv l) :
    (l = [] → pushPopMin l x = (x, l)) ∧
    (l ≠ [] → x ≤ geti l 0 → pushPopMin l x = (x, l)) ∧
    (l ≠ [] → geti l 0 < x →
      (pushPopMin l x).1 = geti l 0 ∧
      (pushPopMin l x).2 = trickleDownMin (l.set 0 x) 0 ∧
      (∀ b ∈ l, geti l 0 ≤ b) ∧
      (geti l 0 :: (pushPopMin l x).2).Perm (x :: l) ∧
      HeapInv (pushPopMin l x).2) := by
  refine ⟨?_, ?_, ?_⟩
  · rintro rfl
    rfl
  · intro hne hle
    have h0 : ¬ l.length = 0 := fun h => hne (List.length_eq_zero.mp h)
    have h1 : ¬ geti l 0 < x := not_lt.mpr hle
    simp [pushPopMin, h0, h1]
  · intro hne hlt
    have h0 : ¬ l.length = 0 := fun h => hne (List.length_eq_zero.mp h)
    have hlen : 0 < l.length := by omega
    have hval : pushPopMin l x =
        (geti l 0, trickleDownMin (l.set 0 x) 0) := by
      simp [pushPopMin, h0, hlt]
    refine ⟨by rw [hval], by rw [hval], heap_min_mem hl, ?_, ?_⟩
    · rw [hval]
      obtain ⟨hp, _⟩ := trickleDownMin_perm (l.set 0 x) 0
        (by rw [List.length_set]; omega)
      have s1 := set_append_perm x hlen
      exact (hp.cons _).trans ((List.perm_append_singleton _ _).symm.trans
        (s1.trans (List.perm_append_singleton x l)))
    · rw [hval]
      exact set_root_trickle_inv hl hlen x

theorem claim6_push_pop_min_witness :
    HeapInv (fromVec ([3, 1, 2] : List Nat)) ∧
    ((fromVec ([3, 1, 2] : List Nat) = [] →
        pushPopMin (fromVec ([3, 1, 2] : List Nat)) 5 =
          (5, fromVec ([3, 1, 2] : List Nat))) ∧
      (fromVec ([3, 1, 2] : List Nat) ≠ [] →
        5 ≤ geti (fromVec ([3, 1, 2] : List Nat)) 0 →
        pushPopMin (fromVec ([3, 1, 2] : List Nat)) 5 =
          (5, fromVec ([3, 1, 2] : List Nat))) ∧
      (fromVec ([3, 1, 2] : List Nat) ≠ [] →
        geti (fromVec ([3, 1, 2] : List Nat)) 0 < 5 →
        (pushPopMin (fromVec ([3, 1, 2] : List Nat)) 5).1 =
          geti (fromVec ([3, 1, 2] : List Nat)) 0 ∧
        (pushPopMin (fromVec ([3, 1, 2] : List Nat)) 5).2 =
          trickleDownMin ((fromVec ([3, 1, 2] : List Nat)).set 0 5) 0 ∧
        (∀ b ∈ fromVec ([3, 1, 2] : List Nat),
          geti (fromVec ([3, 1, 2] : List Nat)) 0 ≤ b) ∧
        (geti (fromVec ([3, 1, 2] : List Nat)) 0 ::
          (pushPopMin (fromVec ([3, 1, 2] : List Nat)) 5).2).Perm
          (5 :: fromVec ([3, 1, 2] : List Nat)) ∧
        HeapInv (pushPopMin (fromVec ([3, 1, 2] : List Nat)) 5).2)) :=
  ⟨(fromVec_inv [3, 1, 2]).1,
    claim6_push_pop_min (fromVec [3, 1, 2]) 5 (fromVec_inv [3, 1, 2]).1⟩

/-- C8 (amended): for every index whose successor fits in the unsigned
64-bit word, `is_min_level` — computed from the leading-zero count of
`i + 1` — agrees with the odd-bit-length rule, and the root is a min
level.  The agreement fails at the wraparound index `2^64 - 1` (see the
counterexample), so the claim holds only below it. -/
theorem claim8_is_min_level (i : Nat) (h : i + 1 < 2 ^ 64) :
    isMinLevelU64 i = (bitlen (i + 1) % 2 == 1) ∧
    isMinLevelU64 0 = true := by
  constructor
  · unfold isMinLevelU64
    rw [Nat.mod_eq_of_lt h]
    have hb : bitlen (i + 1) ≤ 64 := bitlen_le.mpr h
    rcases Nat.mod_two_eq_zero_or_one (bitlen (i + 1)) with h2 | h2
    · have h3 : (64 - bitlen (i + 1)) % 2 = 0 := by omega
      rw [h2, h3]
    · have h3 : (64 - bitlen (i + 1)) % 2 = 1 := by omega
      rw [h2, h3]
  · decide

theorem claim8_is_min_level_witness :
    5 + 1 < 2 ^ 64 ∧
    (isMinLevelU64 5 = (bitlen (5 + 1) % 2 == 1) ∧
      isMinLevelU64 0 = true) :=
  ⟨by decide, claim8_is_min_level 5 (by decide)⟩

/-- C8 counterexample: at the wraparound index `2^64 - 1` the computed
`is_min_level` (which sees `(i + 1) mod 2^64 = 0`) disagrees with the
odd-bit-length specification of the claim. -/
theorem claim8_counterexample :
    isMinLevelU64 (2 ^ 64 - 1) ≠ (bitlen (2 ^ 64 - 1 + 1) % 2 == 1) := by
  decide
